import Mathlib

/-!
# argparse: a verification development

A shallow embedding of `argparse.go` (package `argparse`): the option registry
(`argMap`), the value cells behind the handles returned by `Bool`, `Int` and
`String`, the positional list (`otherArg`) and the parser `Parse`.

Modelling decisions.
* A Go string is a sequence of bytes, `GoString := List Byte`.
* The package-level variables `argMap` and `otherArg`, together with the cells
  allocated by `new`, form an explicit `State`.  A pointer is the index of its
  cell in `State.heap`; the dynamic type of a `Value` is the constructor of the
  cell it points to.
* A Go map is an association list with the lookup of the first match; the order
  of the list stands for the (unspecified) enumeration order of the map.
* `os.Args` is an explicit argument `Args`; `Args[0]` is the program name.
* The errors built by `fmt.Errorf` are the constructors of `ParseError`, one per
  format string.
* `strconv.ParseBool` and `strconv.Atoi` belong to the Go standard library; they
  are transcribed here for a 64-bit `int`.
* `Help` returns the lines it writes, or the panic of `os.Args[0]`.  Its local map `usageMap` is only read,
  written and deleted from by key, so it is a function from usage texts;
  `sort.Strings` is a sort by the byte-wise lexicographic order.
* The panic of an index out of range is an exception value, and the deferred
  `recover` of `OtherArg` is the handling of that exception.
-/

namespace argparse

set_option maxRecDepth 100000

/-- A Go byte (`uint8`). -/
abbrev Byte := Fin 256

/-- A Go string, as its sequence of bytes. -/
abbrev GoString := List Byte

/-- The bytes (UTF-8) of a string literal. -/
def str (s : String) : GoString :=
  (s.data.flatMap String.utf8EncodeChar).map (fun b => b.val)

/-- The conversion `string(b)` of a byte `b`: the UTF-8 encoding of the code
point `b`, one byte below 0x80 and two bytes from 0x80 on. -/
def byteToString (b : Byte) : GoString :=
  if b.val < 128 then [b]
  else [⟨(192 + b.val / 64) % 256, Nat.mod_lt _ (by decide)⟩,
        ⟨(128 + b.val % 64) % 256, Nat.mod_lt _ (by decide)⟩]

/-- The contents of a value cell: `boolVal`, `intVal` or `stringVal`. -/
inductive Val where
  | boolVal (b : Bool)
  | intVal (n : Int)
  | stringVal (s : GoString)
deriving DecidableEq, Repr

/-- The struct `ArgItem`: `Type`, `Value` (a pointer into the heap) and `Usage`. -/
structure ArgItem where
  Typ : String
  Value : Nat
  Usage : GoString
deriving DecidableEq, Repr

/-- The errors returned by `Parse`, one constructor per `fmt.Errorf` call:
`ConflictingValueFlags` (line 197), `MissingValue arg` (line 202),
`BadValue token arg` (line 205), `UnrecognizedFlag arg` (line 210). -/
inductive ParseError where
  | ConflictingValueFlags
  | MissingValue (name : GoString)
  | BadValue (token name : GoString)
  | UnrecognizedFlag (name : GoString)
deriving DecidableEq, Repr

/-- The package state: `argMap`, the cells allocated by `new`, and `otherArg`. -/
structure State where
  argMap : List (GoString × ArgItem)
  heap : List Val
  otherArg : List GoString
deriving DecidableEq, Repr

/-- The state at program start: `argMap` empty, `otherArg` nil. -/
def State.init : State := ⟨[], [], []⟩

/-! ## The Go standard library functions used by `Set` -/

/-- The function `strconv.ParseBool`. -/
def ParseBool (v : GoString) : Option Bool :=
  if v = str "1" ∨ v = str "t" ∨ v = str "T" ∨ v = str "true" ∨ v = str "TRUE"
      ∨ v = str "True" then some true
  else if v = str "0" ∨ v = str "f" ∨ v = str "F" ∨ v = str "false" ∨ v = str "FALSE"
      ∨ v = str "False" then some false
  else none

/-- The size of `int` in bits. -/
def intSize : Nat := 64

/-- The digit loop of `strconv.Atoi` / `strconv.ParseUint` in base 10:
`ch -= '0'; if ch > 9 { error }; n = n*10 + ch`, the subtraction being that of
bytes.  The accumulator is unbounded; the range is checked by `Atoi`. -/
def atoiDigits : GoString → Nat → Option Nat
  | [], n => some n
  | ch :: s, n =>
    let d := (ch.val + 256 - 48) % 256
    if d > 9 then none else atoiDigits s (n * 10 + d)

/-- The function `strconv.Atoi`: an optional sign `+` or `-`, then one or more
decimal digits; the value must fit `int`. -/
def Atoi (s : GoString) : Option Int :=
  match s with
  | [] => none
  | c :: r =>
    let neg : Bool := c.val = 45
    let body := if c.val = 45 ∨ c.val = 43 then r else s
    if body = [] then none
    else
      match atoiDigits body 0 with
      | none => none
      | some un =>
        let cutoff := 2 ^ (intSize - 1)
        if !neg && un ≥ cutoff then none
        else if neg && un > cutoff then none
        else some (if neg then -(un : Int) else (un : Int))

/-! ## Value cells -/

/-- The method `Set` of the interface `Value`, dispatched on the dynamic type of
the cell behind pointer `p`: `(*boolVal).Set`, `(*intVal).Set`,
`(*stringVal).Set`.  The result `none` is a non-nil error; the heap is then
unchanged. -/
def Value.Set (heap : List Val) (p : Nat) (v : GoString) : Option (List Val) :=
  match heap[p]? with
  | some (Val.boolVal _) =>
    match ParseBool v with
    | some r => some (heap.set p (Val.boolVal r))
    | none => none
  | some (Val.intVal _) =>
    match Atoi v with
    | some r => some (heap.set p (Val.intVal r))
    | none => none
  | some (Val.stringVal _) => some (heap.set p (Val.stringVal v))
  | none => none

/-! ## The registry -/

/-- The map read `argMap[k]` with its `ok` flag. -/
def mapLookup (m : List (GoString × ArgItem)) (k : GoString) : Option ArgItem :=
  match m with
  | [] => none
  | (k', a) :: rest => if k' = k then some a else mapLookup rest k

/-- The map write `argMap[k] = a`: overwrite the entry of `k`, or add one. -/
def mapSet (m : List (GoString × ArgItem)) (k : GoString) (a : ArgItem) :
    List (GoString × ArgItem) :=
  match m with
  | [] => [(k, a)]
  | (k', a') :: rest => if k' = k then (k, a) :: rest else (k', a') :: mapSet rest k a

/-- The function `Bool` of the source: a new cell holding `defaultValue`, an
entry of type "bool" for `name`; returns the pointer and the new state. -/
def declareBool (name : GoString) (defaultValue : Bool) (usage : GoString) (s : State) :
    Nat × State :=
  let x := s.heap.length
  (x, { s with heap := s.heap ++ [Val.boolVal defaultValue],
               argMap := mapSet s.argMap name ⟨"bool", x, usage⟩ })

/-- The function `Int` of the source. -/
def declareInt (name : GoString) (defaultValue : Int) (usage : GoString) (s : State) :
    Nat × State :=
  let x := s.heap.length
  (x, { s with heap := s.heap ++ [Val.intVal defaultValue],
               argMap := mapSet s.argMap name ⟨"int", x, usage⟩ })

/-- The function `String` of the source. -/
def declareString (name : GoString) (defaultValue : GoString) (usage : GoString) (s : State) :
    Nat × State :=
  let x := s.heap.length
  (x, { s with heap := s.heap ++ [Val.stringVal defaultValue],
               argMap := mapSet s.argMap name ⟨"string", x, usage⟩ })

/-! ## Parse -/

/-- The test `len(v) > 1 && v[0] == '-'` of line 177. -/
def isFlagToken (v : GoString) : Bool :=
  decide (v.length > 1) && decide (v[0]? = some 45)

/-- The test `len(v) > 2 && v[1] == '-'` of line 180. -/
def isLongFlag (v : GoString) : Bool :=
  decide (v.length > 2) && decide (v[1]? = some 45)

/-- The slice `argGroup` built in lines 179-188: the name after `--` for a token
longer than two bytes whose second byte is `-`, else one name per byte after
the first. -/
def argGroupOf (v : GoString) : List GoString :=
  if isLongFlag v then [v.drop 2]
  else (v.drop 1).map byteToString

/-- The loop of lines 191-212 over `argGroup`, from the flag `readNext`, the
index `i` and the heap.  Returns the error if any, the index and the heap.
`Args[i]? = none` is the test `i >= length`. -/
def Parse.group (argMap : List (GoString × ArgItem)) (Args : List GoString) :
    List GoString → Bool → Nat → List Val → Option ParseError × Nat × List Val
  | [], _, i, heap => (none, i, heap)
  | arg :: rest, readNext, i, heap =>
    match mapLookup argMap arg with
    | some ai =>
      if ai.Typ = "bool" then
        -- the error of this `Set` is discarded
        Parse.group argMap Args rest readNext i ((Value.Set heap ai.Value (str "true")).getD heap)
      else if readNext then
        (some ParseError.ConflictingValueFlags, i, heap)
      else
        match Args[i + 1]? with
        | none => (some (ParseError.MissingValue arg), i + 1, heap)
        | some t =>
          match Value.Set heap ai.Value t with
          | none => (some (ParseError.BadValue t arg), i + 1, heap)
          | some heap' => Parse.group argMap Args rest true (i + 1) heap'
    | none => (some (ParseError.UnrecognizedFlag arg), i, heap)

/-- The loop of lines 174-216 from index `i`, with `fuel` bounding the number of
iterations; `none` means the fuel ran out. -/
def Parse.loop (Args : List GoString) : Nat → Nat → State → Option (Option ParseError × State)
  | 0, _, _ => none
  | fuel + 1, i, s =>
    match Args[i]? with
    | none => some (none, s)
    | some v =>
      if isFlagToken v then
        match Parse.group s.argMap Args (argGroupOf v) false i s.heap with
        | (some e, _, heap) => some (some e, { s with heap := heap })
        | (none, i', heap) => Parse.loop Args fuel (i' + 1) { s with heap := heap }
      else
        Parse.loop Args fuel (i + 1) { s with otherArg := s.otherArg ++ [v] }

/-- The function `Parse` on `os.Args = Args`, from state `s`: the returned
error (`none` for nil) and the state afterwards. -/
def Parse (Args : List GoString) (s : State) : Option (Option ParseError × State) :=
  Parse.loop Args (Args.length + 1) 1 s

/-- The function `OtherArgLen`. -/
def OtherArgLen (s : State) : Nat := s.otherArg.length

/-! ## A token-list view of `Parse` -/

/-- The loop over `argGroup` as a function of the token `next` that follows the
current one, in place of the index: returns the error, the final `readNext`
and the heap. -/
def groupTokens (argMap : List (GoString × ArgItem)) :
    List GoString → Bool → Option GoString → List Val → Option ParseError × Bool × List Val
  | [], readNext, _, heap => (none, readNext, heap)
  | arg :: rest, readNext, next, heap =>
    match mapLookup argMap arg with
    | some ai =>
      if ai.Typ = "bool" then
        groupTokens argMap rest readNext next ((Value.Set heap ai.Value (str "true")).getD heap)
      else if readNext then
        (some ParseError.ConflictingValueFlags, readNext, heap)
      else
        match next with
        | none => (some (ParseError.MissingValue arg), true, heap)
        | some t =>
          match Value.Set heap ai.Value t with
          | none => (some (ParseError.BadValue t arg), true, heap)
          | some heap' => groupTokens argMap rest true next heap'
    | none => (some (ParseError.UnrecognizedFlag arg), readNext, heap)

/-- The outer loop over the remaining tokens; `skip` tells that the first of
them was consumed as a value by the token before it. -/
def parseTokens : List GoString → Bool → State → Option ParseError × State
  | [], _, s => (none, s)
  | _ :: rest, true, s => parseTokens rest false s
  | v :: rest, false, s =>
    if isFlagToken v then
      match groupTokens s.argMap (argGroupOf v) false rest.head? s.heap with
      | (some e, _, heap) => (some e, { s with heap := heap })
      | (none, readNext, heap) => parseTokens rest readNext { s with heap := heap }
    else
      parseTokens rest false { s with otherArg := s.otherArg ++ [v] }


/-! ## Reading the state, and the notions used to state the properties -/

/-- The value `*p` behind the handle (pointer) `p`. -/
def State.deref (s : State) (p : Nat) : Option Val := s.heap[p]?

/-- The current value of the option registered under `name`. -/
def State.get (s : State) (name : GoString) : Option Val :=
  match mapLookup s.argMap name with
  | some ai => s.heap[ai.Value]?
  | none => none

/-- The name is registered with type "bool". -/
def isBoolFlag (m : List (GoString × ArgItem)) (a : GoString) : Bool :=
  match mapLookup m a with
  | some ai => decide (ai.Typ = "bool")
  | none => false

/-- The name is registered and value-requiring: its type is not "bool". -/
def isValueFlag (m : List (GoString × ArgItem)) (a : GoString) : Bool :=
  match mapLookup m a with
  | some ai => decide (ai.Typ ≠ "bool")
  | none => false

/-- The entry agrees with the cell it points to: type "bool" with a `boolVal`
cell, "int" with an `intVal` cell, "string" with a `stringVal` cell. -/
def typedItem (heap : List Val) (ai : ArgItem) : Bool :=
  match heap[ai.Value]? with
  | some (Val.boolVal _) => decide (ai.Typ = "bool")
  | some (Val.intVal _) => decide (ai.Typ = "int")
  | some (Val.stringVal _) => decide (ai.Typ = "string")
  | none => false

/-- The states that `Bool`, `Int` and `String` build: one entry per name, one
cell per entry, every entry agreeing with its cell. -/
def State.WF (s : State) : Prop :=
  (s.argMap.map (fun e => e.1)).Nodup ∧ (s.argMap.map (fun e => e.2.Value)).Nodup ∧
    ∀ e ∈ s.argMap, typedItem s.heap e.2 = true

instance (s : State) : Decidable s.WF := by
  unfold State.WF; infer_instance

/-- The conversion of a raw token to a kind: boolean-string parse for "bool",
integer parse for "int", identity for "string". -/
def convert (typ : String) (t : GoString) : Option Val :=
  if typ = "bool" then (ParseBool t).map Val.boolVal
  else if typ = "int" then (Atoi t).map Val.intVal
  else if typ = "string" then some (Val.stringVal t)
  else none

/-- The byte of the decimal digit `d`. -/
def digitByte (d : Nat) : Byte := ⟨(48 + d % 10) % 256, Nat.mod_lt _ (by decide)⟩

/-- The decimal digits of `n`, most significant first, without leading zeros;
`fuel` bounds the number of digits. -/
def natDigits : Nat → Nat → GoString
  | 0, _ => []
  | fuel + 1, n => if n < 10 then [digitByte n] else natDigits fuel (n / 10) ++ [digitByte n]

/-- The decimal text of an integer: a `-` for a negative one, then the digits
of its absolute value. -/
def decimal (n : Int) : GoString :=
  if n < 0 then (45 : Byte) :: natDigits (n.natAbs + 1) n.natAbs
  else natDigits (n.natAbs + 1) n.natAbs

/-- The least value of `int`. -/
def minInt : Int := -(2 ^ (intSize - 1))

/-- The greatest value of `int`. -/
def maxInt : Int := 2 ^ (intSize - 1) - 1

/-- The byte is a decimal digit. -/
def isDigit (b : Byte) : Bool := decide (48 ≤ b.val ∧ b.val ≤ 57)

/-- The number written by a sequence of decimal digits. -/
def digitsValue (ds : GoString) : Nat := ds.foldl (fun n b => n * 10 + (b.val - 48)) 0

/-- The token is a decimal integer in the range of `int`: an optional sign
`+` or `-`, one or more decimal digits, and a value from `minInt` to `maxInt`. -/
def isDecimalInt (t : GoString) : Bool :=
  match t with
  | [] => false
  | c :: r =>
    if c.val = 45 then
      !r.isEmpty && r.all isDigit && decide (minInt ≤ -(digitsValue r : Int))
    else if c.val = 43 then
      !r.isEmpty && r.all isDigit && decide ((digitsValue r : Int) ≤ maxInt)
    else
      t.all isDigit && decide ((digitsValue t : Int) ≤ maxInt)

/-- For each token, whether it is consumed as the value of a non-boolean flag:
it is when the token before it is itself not consumed, is a flag token, and
names a registered value-requiring option.  `pending` is the mark of the first
token. -/
def valueMask (m : List (GoString × ArgItem)) : List GoString → Bool → List Bool
  | [], _ => []
  | _ :: rest, true => true :: valueMask m rest false
  | v :: rest, false =>
    false :: valueMask m rest (isFlagToken v && (argGroupOf v).any (isValueFlag m))

/-- The tokens that are not flag tokens and are not consumed as a value, in
input order. -/
def positionalTokens (m : List (GoString × ArgItem)) (toks : List GoString) : List GoString :=
  ((toks.zip (valueMask m toks false)).filter (fun p => !p.2 && !isFlagToken p.1)).map
    (fun p => p.1)

/-- The cells of the registered names among `g`. -/
def cellsOf (m : List (GoString × ArgItem)) (g : List GoString) : List Nat :=
  g.filterMap (fun a => (mapLookup m a).map (fun ai => ai.Value))

/-- The heap `h'` has the cells of `h`, each of the same type. -/
def sameTyping (h h' : List Val) : Prop :=
  ∀ bi : ArgItem, typedItem h' bi = typedItem h bi

/-- The registrations of the example program `examples/cat.go`, in its order:
`f`, `n`, `b` (bool), `p` (int, default -1), `h` and `help` (bool). -/
def catState : State :=
  let s := (declareBool (str "f") false (str "倒序输出文本") State.init).2
  let s := (declareBool (str "n") false (str "输出带行号的文本") s).2
  let s := (declareBool (str "b") false (str "按照二进制模式显示文本") s).2
  let s := (declareInt (str "p") (-1) (str "输出 n 行") s).2
  let s := (declareBool (str "h") false (str "帮助信息") s).2
  (declareBool (str "help") false (str "帮助信息") s).2

/-- The registrations `declareInt("p", 0, "u1"); declareInt("q", 0, "u1")`. -/
def pqState : State :=
  (declareInt (str "q") 0 (str "u1") (declareInt (str "p") 0 (str "u1") State.init).2).2

/-- The registrations of `x` and `y` as boolean flags, `z` left undeclared. -/
def xyState : State :=
  (declareBool (str "y") false (str "y") (declareBool (str "x") false (str "x") State.init).2).2

/-- The registrations of a string option `s` (default "none") and of a boolean
flag `v`. -/
def svState : State :=
  (declareBool (str "v") false (str "verbose")
    (declareString (str "s") (str "none") (str "suffix") State.init).2).2

/-- The tokens `-c1 v1 -c2 v2 ...` for a list of one-byte flags with their
values. -/
def flagValueTokens (pairs : List (Byte × GoString)) : List GoString :=
  pairs.flatMap (fun e => [[(45 : Byte), e.1], e.2])

/-- The conversion of the token `t` to the kind of the option registered under
`name`, if there is one. -/
def convertsFor (m : List (GoString × ArgItem)) (name t : GoString) : Option Val :=
  match mapLookup m name with
  | some ai => convert ai.Typ t
  | none => none

/-! ## Help and positional access -/

/-- The function `fullArg`: the name with its dashes. -/
def fullArg (arg : GoString) : GoString :=
  if arg.length ≤ 1 then str "-" ++ arg else str "--" ++ arg

/-- The run-time panic of an index expression out of range; it implements
`error`. -/
inductive RuntimeError where
  | indexOutOfRange (i : Int) (len : Nat)
deriving DecidableEq, Repr

/-- The index expression `l[i]` on a slice of strings: the element, or the
panic when `i` is negative or not below the length. -/
def indexString (l : List GoString) (i : Int) : Except RuntimeError GoString :=
  if 0 ≤ i ∧ i < (l.length : Int) then Except.ok (l.getD i.toNat [])
  else Except.error (RuntimeError.indexOutOfRange i l.length)

/-- The function `OtherArg`: `otherArg[i], nil`, and after a panic recovered by
the deferred function the empty string with the error.  The state is only
read; it is returned as it is. -/
def OtherArg (s : State) (i : Int) : GoString × Option RuntimeError × State :=
  match indexString s.otherArg i with
  | Except.ok v => (v, none, s)
  | Except.error e => ([], some e, s)

/-- The function `sort.Strings`: increasing byte-wise lexicographic order. -/
def sortStrings (l : List GoString) : List GoString :=
  l.insertionSort (fun a b => a ≤ b)

/-- The map `usageMap` of `Help`; it is only read, written and deleted from by
key. -/
abbrev UsageMap := GoString → Option (List GoString)

/-- The assignment `usageMap[u] = keys`. -/
def usageSet (um : UsageMap) (u : GoString) (keys : List GoString) : UsageMap :=
  fun x => if x = u then some keys else um x

/-- The call `delete(usageMap, u)`. -/
def usageDelete (um : UsageMap) (u : GoString) : UsageMap :=
  fun x => if x = u then none else um x

/-- The first loop of `Help` (lines 119-131) over the entries of `argMap` in
their enumeration order: fills `usageMap` and `keyIndex`. -/
def Help.collect : List (GoString × ArgItem) → UsageMap → List GoString →
    UsageMap × List GoString
  | [], um, keyIndex => (um, keyIndex)
  | (k, v) :: rest, um, keyIndex =>
    match um v.Usage with
    | some keys => Help.collect rest (usageSet um v.Usage (keys ++ [k])) (keyIndex ++ [k])
    | none => Help.collect rest (usageSet um v.Usage [k]) (keyIndex ++ [k])

/-- One option line of the help: the names printed (before `fullArg`), the
type and the usage text. -/
structure HelpLine where
  names : List GoString
  argType : String
  usage : GoString
deriving DecidableEq, Repr

/-- The zero value of `ArgItem`, read from `argMap` under a missing key. -/
def ArgItem.zero : ArgItem := ⟨"", 0, []⟩

/-- The second loop of `Help` (lines 136-153) over the sorted `keyIndex`. -/
def Help.print (m : List (GoString × ArgItem)) : List GoString → UsageMap → List HelpLine
  | [], _ => []
  | oldKey :: rest, um =>
    let usage := ((mapLookup m oldKey).getD ArgItem.zero).Usage
    let argType := ((mapLookup m oldKey).getD ArgItem.zero).Typ
    match um usage with
    | some newKeys =>
      if (sortStrings newKeys).length ≤ 1 then
        ⟨[oldKey], argType, usage⟩ :: Help.print m rest um
      else
        ⟨sortStrings newKeys, argType, usage⟩ :: Help.print m rest (usageDelete um usage)
    | none => Help.print m rest um

/-- The option lines printed by `Help` for the registry `m`. -/
def Help.lines (m : List (GoString × ArgItem)) : List HelpLine :=
  Help.print m (sortStrings (Help.collect m (fun _ => none) []).2) (Help.collect m (fun _ => none) []).1

/-- The function `strings.Join`. -/
def joinStrings (l : List GoString) (sep : GoString) : GoString :=
  match l with
  | [] => []
  | [a] => a
  | a :: rest => a ++ sep ++ joinStrings rest sep

/-- The text of an option line: `"    %s\t%s\t%s\n"` of the dashed names joined
by commas, the type and the usage. -/
def HelpLine.render (l : HelpLine) : GoString :=
  str "    " ++ joinStrings (l.names.map fullArg) (str ",") ++ str "\t" ++ str l.argType
    ++ str "\t" ++ l.usage ++ str "\n"

/-- The function `Help`: the lines written to standard output.  The header
reads `os.Args[0]`; on an empty `os.Args` that index expression panics, before
anything is written. -/
def Help (Args : List GoString) (s : State) : Except RuntimeError (List GoString) :=
  match indexString Args 0 with
  | Except.error e => Except.error e
  | Except.ok prog =>
    Except.ok ((str "Usage of " ++ prog ++ str "\n")
      :: (Help.lines s.argMap).map HelpLine.render)

/-- The names registered with the usage text `u`, in enumeration order. -/
def usageGroup (m : List (GoString × ArgItem)) (u : GoString) : List GoString :=
  (m.filter (fun e => decide (e.2.Usage = u))).map (fun e => e.1)

/-! ## Further notions used to state the properties -/

/-- The names looked up in `argMap` by the loop over a group, in order, up to
the one on which it returns. -/
def groupNames (argMap : List (GoString × ArgItem)) :
    List GoString → Bool → Option GoString → List Val → List GoString
  | [], _, _, _ => []
  | arg :: rest, readNext, next, heap =>
    match mapLookup argMap arg with
    | some ai =>
      if ai.Typ = "bool" then
        arg :: groupNames argMap rest readNext next
          ((Value.Set heap ai.Value (str "true")).getD heap)
      else if readNext then [arg]
      else
        match next with
        | none => [arg]
        | some t =>
          match Value.Set heap ai.Value t with
          | none => [arg]
          | some heap' => arg :: groupNames argMap rest true next heap'
    | none => [arg]

/-- The names resolved as flags during the parse of the tokens, in order. -/
def parseNames : List GoString → Bool → State → List GoString
  | [], _, _ => []
  | _ :: rest, true, s => parseNames rest false s
  | v :: rest, false, s =>
    if isFlagToken v then
      groupNames s.argMap (argGroupOf v) false rest.head? s.heap ++
        (match groupTokens s.argMap (argGroupOf v) false rest.head? s.heap with
         | (some _, _, _) => []
         | (none, readNext, heap) => parseNames rest readNext { s with heap := heap })
    else
      parseNames rest false { s with otherArg := s.otherArg ++ [v] }

/-- A declaration: the kind with its default value. -/
inductive Decl where
  | bool (d : Bool)
  | int (d : Int)
  | string (d : GoString)
deriving DecidableEq, Repr

/-- The operation `declare(name, kind, default, usage)`: one of the functions
`Bool`, `Int`, `String` of the source. -/
def declare (name : GoString) (d : Decl) (usage : GoString) (s : State) : Nat × State :=
  match d with
  | Decl.bool b => declareBool name b usage s
  | Decl.int n => declareInt name n usage s
  | Decl.string x => declareString name x usage s

/-- The type string of a declaration. -/
def Decl.typ : Decl → String
  | Decl.bool _ => "bool"
  | Decl.int _ => "int"
  | Decl.string _ => "string"

/-- The initial cell of a declaration. -/
def Decl.val : Decl → Val
  | Decl.bool b => Val.boolVal b
  | Decl.int n => Val.intVal n
  | Decl.string x => Val.stringVal x

/-- The registrations of the boolean flags `h`, `e`, `l`, `p` and `help`. -/
def helpState : State :=
  let s := (declareBool (str "h") false (str "帮助信息") State.init).2
  let s := (declareBool (str "e") false (str "e") s).2
  let s := (declareBool (str "l") false (str "l") s).2
  let s := (declareBool (str "p") false (str "p") s).2
  (declareBool (str "help") false (str "帮助信息") s).2

/-- The usage text read by `argMap[k].Usage`. -/
def usageOf (m : List (GoString × ArgItem)) (k : GoString) : GoString :=
  ((mapLookup m k).getD ArgItem.zero).Usage

/-- The type read by `argMap[k].Type`. -/
def typeOf (m : List (GoString × ArgItem)) (k : GoString) : String :=
  ((mapLookup m k).getD ArgItem.zero).Typ

/-- One line per usage text, at the first of the given names that has it: the
names of that usage in lexicographic order, with the type of that first name.
`seen` holds the usage texts already rendered. -/
def helpSpecFrom (m : List (GoString × ArgItem)) : List GoString → List GoString → List HelpLine
  | [], _ => []
  | k :: rest, seen =>
    if usageOf m k ∈ seen then helpSpecFrom m rest seen
    else
      ⟨sortStrings (usageGroup m (usageOf m k)), typeOf m k, usageOf m k⟩
        :: helpSpecFrom m rest (usageOf m k :: seen)

/-- The registrations of the Int options `q` and `-` (a one-byte name that is
the dash itself). -/
def dashState : State :=
  (declareInt (str "-") 0 (str "dash") (declareInt (str "q") 0 (str "u1") State.init).2).2
/-! ## The index loops and their token view -/

section steps
variable (m : List (GoString × ArgItem)) (Args : List GoString)

theorem group_nil (rn : Bool) (i : Nat) (h : List Val) :
    Parse.group m Args [] rn i h = (none, i, h) := rfl

theorem group_unknown {a : GoString} (g : List GoString) (rn : Bool) (i : Nat) (h : List Val)
    (hl : mapLookup m a = none) :
    Parse.group m Args (a :: g) rn i h = (some (ParseError.UnrecognizedFlag a), i, h) := by
  simp [Parse.group, hl]

theorem group_bool {a : GoString} {ai : ArgItem} (g : List GoString) (rn : Bool) (i : Nat)
    (h : List Val) (hl : mapLookup m a = some ai) (hb : ai.Typ = "bool") :
    Parse.group m Args (a :: g) rn i h
      = Parse.group m Args g rn i ((Value.Set h ai.Value (str "true")).getD h) := by
  simp [Parse.group, hl, hb]

theorem group_conflict {a : GoString} {ai : ArgItem} (g : List GoString) (i : Nat)
    (h : List Val) (hl : mapLookup m a = some ai) (hb : ai.Typ ≠ "bool") :
    Parse.group m Args (a :: g) true i h = (some ParseError.ConflictingValueFlags, i, h) := by
  simp [Parse.group, hl, hb]

theorem group_missing {a : GoString} {ai : ArgItem} (g : List GoString) (i : Nat)
    (h : List Val) (hl : mapLookup m a = some ai) (hb : ai.Typ ≠ "bool")
    (hn : Args[i + 1]? = none) :
    Parse.group m Args (a :: g) false i h = (some (ParseError.MissingValue a), i + 1, h) := by
  simp [Parse.group, hl, hb, hn]

theorem group_bad {a t : GoString} {ai : ArgItem} (g : List GoString) (i : Nat)
    (h : List Val) (hl : mapLookup m a = some ai) (hb : ai.Typ ≠ "bool")
    (hn : Args[i + 1]? = some t) (hs : Value.Set h ai.Value t = none) :
    Parse.group m Args (a :: g) false i h = (some (ParseError.BadValue t a), i + 1, h) := by
  simp [Parse.group, hl, hb, hn, hs]

theorem group_value {a t : GoString} {ai : ArgItem} {h' : List Val} (g : List GoString) (i : Nat)
    (h : List Val) (hl : mapLookup m a = some ai) (hb : ai.Typ ≠ "bool")
    (hn : Args[i + 1]? = some t) (hs : Value.Set h ai.Value t = some h') :
    Parse.group m Args (a :: g) false i h = Parse.group m Args g true (i + 1) h' := by
  simp [Parse.group, hl, hb, hn, hs]

theorem groupTokens_nil (rn : Bool) (nx : Option GoString) (h : List Val) :
    groupTokens m [] rn nx h = (none, rn, h) := rfl

theorem groupTokens_unknown {a : GoString} (g : List GoString) (rn : Bool)
    (nx : Option GoString) (h : List Val) (hl : mapLookup m a = none) :
    groupTokens m (a :: g) rn nx h = (some (ParseError.UnrecognizedFlag a), rn, h) := by
  simp [groupTokens, hl]

theorem groupTokens_bool {a : GoString} {ai : ArgItem} (g : List GoString) (rn : Bool)
    (nx : Option GoString) (h : List Val) (hl : mapLookup m a = some ai) (hb : ai.Typ = "bool") :
    groupTokens m (a :: g) rn nx h
      = groupTokens m g rn nx ((Value.Set h ai.Value (str "true")).getD h) := by
  simp [groupTokens, hl, hb]

theorem groupTokens_conflict {a : GoString} {ai : ArgItem} (g : List GoString)
    (nx : Option GoString) (h : List Val) (hl : mapLookup m a = some ai) (hb : ai.Typ ≠ "bool") :
    groupTokens m (a :: g) true nx h = (some ParseError.ConflictingValueFlags, true, h) := by
  simp [groupTokens, hl, hb]

theorem groupTokens_missing {a : GoString} {ai : ArgItem} (g : List GoString)
    (h : List Val) (hl : mapLookup m a = some ai) (hb : ai.Typ ≠ "bool") :
    groupTokens m (a :: g) false none h = (some (ParseError.MissingValue a), true, h) := by
  simp [groupTokens, hl, hb]

theorem groupTokens_bad {a t : GoString} {ai : ArgItem} (g : List GoString)
    (h : List Val) (hl : mapLookup m a = some ai) (hb : ai.Typ ≠ "bool")
    (hs : Value.Set h ai.Value t = none) :
    groupTokens m (a :: g) false (some t) h = (some (ParseError.BadValue t a), true, h) := by
  simp [groupTokens, hl, hb, hs]

theorem groupTokens_value {a t : GoString} {ai : ArgItem} {h' : List Val} (g : List GoString)
    (h : List Val) (hl : mapLookup m a = some ai) (hb : ai.Typ ≠ "bool")
    (hs : Value.Set h ai.Value t = some h') :
    groupTokens m (a :: g) false (some t) h = groupTokens m g true (some t) h' := by
  simp [groupTokens, hl, hb, hs]

/-- Once `readNext` is set, the index is no longer moved and the next token no
longer read. -/
theorem group_readNext :
    ∀ (g : List GoString) (i : Nat) (h : List Val) (nx : Option GoString),
      Parse.group m Args g true i h
        = ((groupTokens m g true nx h).1, i, (groupTokens m g true nx h).2.2)
      ∧ (groupTokens m g true nx h).2.1 = true := by
  intro g
  induction g with
  | nil => intro i h nx; simp [Parse.group, groupTokens]
  | cons a g ih =>
    intro i h nx
    cases hl : mapLookup m a with
    | none => rw [group_unknown m Args g true i h hl, groupTokens_unknown m g true nx h hl]; simp
    | some ai =>
      by_cases hb : ai.Typ = "bool"
      · rw [group_bool m Args g true i h hl hb, groupTokens_bool m g true nx h hl hb]
        exact ih _ _ _
      · rw [group_conflict m Args g i h hl hb, groupTokens_conflict m g nx h hl hb]; simp

/-- A value was consumed only if there was a next token. -/
theorem groupTokens_consumed :
    ∀ (g : List GoString) (nx : Option GoString) (h h' : List Val),
      groupTokens m g false nx h = (none, true, h') → nx ≠ none := by
  intro g
  induction g with
  | nil => intro nx h h' he; simp [groupTokens] at he
  | cons a g ih =>
    intro nx h h' he
    cases hl : mapLookup m a with
    | none => rw [groupTokens_unknown m g false nx h hl] at he; simp at he
    | some ai =>
      by_cases hb : ai.Typ = "bool"
      · rw [groupTokens_bool m g false nx h hl hb] at he; exact ih _ _ _ he
      · cases nx with
        | none => rw [groupTokens_missing m g h hl hb] at he; simp at he
        | some t => simp

/-- The index-based loop over `argGroup` agrees with its token view. -/
theorem group_eq :
    ∀ (g : List GoString) (i : Nat) (h : List Val),
      ∃ i', Parse.group m Args g false i h
          = ((groupTokens m g false Args[i + 1]? h).1, i', (groupTokens m g false Args[i + 1]? h).2.2)
        ∧ ((groupTokens m g false Args[i + 1]? h).1 = none →
            i' = if (groupTokens m g false Args[i + 1]? h).2.1 then i + 1 else i) := by
  intro g
  induction g with
  | nil => intro i h; exact ⟨i, by simp [Parse.group, groupTokens]⟩
  | cons a g ih =>
    intro i h
    cases hl : mapLookup m a with
    | none =>
      rw [group_unknown m Args g false i h hl, groupTokens_unknown m g false _ h hl]
      exact ⟨i, by simp⟩
    | some ai =>
      by_cases hb : ai.Typ = "bool"
      · rw [group_bool m Args g false i h hl hb, groupTokens_bool m g false _ h hl hb]
        exact ih _ _
      · cases hn : Args[i + 1]? with
        | none =>
          rw [group_missing m Args g i h hl hb hn, groupTokens_missing m g h hl hb]
          exact ⟨i + 1, by simp⟩
        | some t =>
          cases hs : Value.Set h ai.Value t with
          | none =>
            rw [group_bad m Args g i h hl hb hn hs, groupTokens_bad m g h hl hb hs]
            exact ⟨i + 1, by simp⟩
          | some h' =>
            rw [group_value m Args g i h hl hb hn hs, groupTokens_value m g h hl hb hs]
            have hr := group_readNext m Args g (i + 1) h' (some t)
            exact ⟨i + 1, hr.1, by simp [hr.2]⟩

end steps

theorem parseTokens_nil (sk : Bool) (s : State) : parseTokens [] sk s = (none, s) := by
  cases sk <;> rfl

theorem parseTokens_skip (v : GoString) (rest : List GoString) (s : State) :
    parseTokens (v :: rest) true s = parseTokens rest false s := rfl

theorem parseTokens_positional {v : GoString} (rest : List GoString) (s : State)
    (hv : isFlagToken v = false) :
    parseTokens (v :: rest) false s
      = parseTokens rest false { s with otherArg := s.otherArg ++ [v] } := by
  simp [parseTokens, hv]

theorem parseTokens_flag_error {v : GoString} {e : ParseError} {rn : Bool} {h : List Val}
    (rest : List GoString) (s : State) (hv : isFlagToken v = true)
    (hg : groupTokens s.argMap (argGroupOf v) false rest.head? s.heap = (some e, rn, h)) :
    parseTokens (v :: rest) false s = (some e, { s with heap := h }) := by
  simp [parseTokens, hv, hg]

theorem parseTokens_flag_ok {v : GoString} {rn : Bool} {h : List Val}
    (rest : List GoString) (s : State) (hv : isFlagToken v = true)
    (hg : groupTokens s.argMap (argGroupOf v) false rest.head? s.heap = (none, rn, h)) :
    parseTokens (v :: rest) false s = parseTokens rest rn { s with heap := h } := by
  simp [parseTokens, hv, hg]

theorem loop_unfold (Args : List GoString) (fuel i : Nat) (s : State) :
    Parse.loop Args (fuel + 1) i s =
      match Args[i]? with
      | none => some (none, s)
      | some v =>
        if isFlagToken v then
          match Parse.group s.argMap Args (argGroupOf v) false i s.heap with
          | (some e, _, heap) => some (some e, { s with heap := heap })
          | (none, i', heap) => Parse.loop Args fuel (i' + 1) { s with heap := heap }
        else
          Parse.loop Args fuel (i + 1) { s with otherArg := s.otherArg ++ [v] } := rfl

/-- The fuelled index loop is the token view of the tokens from index `i` on;
the fuel does not run out. -/
theorem loop_eq (Args : List GoString) :
    ∀ (fuel i : Nat) (s : State), Args.length ≤ fuel + i →
      Parse.loop Args (fuel + 1) i s = some (parseTokens (Args.drop i) false s) := by
  intro fuel
  induction fuel with
  | zero =>
    intro i s hlt
    have hd : Args.drop i = [] := List.drop_eq_nil_of_le (by omega)
    have hn : Args[i]? = none := List.getElem?_eq_none (by omega)
    rw [loop_unfold, hn, hd, parseTokens_nil]
  | succ fuel ih =>
    intro i s hlt
    rw [loop_unfold]
    cases hn : Args[i]? with
    | none =>
      have hd : Args.drop i = [] := by
        apply List.drop_eq_nil_of_le
        exact (List.getElem?_eq_none_iff.mp hn)
      simp only [hd, parseTokens_nil]
    | some v =>
      have hi : i < Args.length := by
        rcases Nat.lt_or_ge i Args.length with h | h
        · exact h
        · rw [List.getElem?_eq_none h] at hn; cases hn
      have hd : Args.drop i = v :: Args.drop (i + 1) := by
        rw [List.drop_eq_getElem_cons hi]
        congr 1
        rw [List.getElem?_eq_getElem hi] at hn
        exact Option.some.inj hn
      have hh : (Args.drop (i + 1)).head? = Args[i + 1]? := by
        simp [List.head?_drop]
      simp only [hd]
      by_cases hv : isFlagToken v = true
      · simp only [hv, if_true]
        obtain ⟨i', he, hi'⟩ := group_eq s.argMap Args (argGroupOf v) i s.heap
        rw [he]
        cases hg : groupTokens s.argMap (argGroupOf v) false Args[i + 1]? s.heap with
        | mk e r =>
          obtain ⟨rn, h'⟩ := r
          have hg' : groupTokens s.argMap (argGroupOf v) false (Args.drop (i + 1)).head? s.heap
              = (e, rn, h') := by rw [hh]; exact hg
          cases e with
          | some e =>
            simp only []
            rw [parseTokens_flag_error _ s hv hg']
          | none =>
            simp only []
            rw [parseTokens_flag_ok _ s hv hg']
            rw [hg] at hi'
            have hi2 := hi' rfl
            simp only at hi2
            cases rn with
            | false =>
              simp only [Bool.false_eq_true, if_false] at hi2
              rw [hi2]
              exact ih (i + 1) _ (by omega)
            | true =>
              simp only [if_true] at hi2
              rw [hi2]
              have hne := groupTokens_consumed s.argMap _ _ _ _ hg
              obtain ⟨t, ht⟩ := Option.ne_none_iff_exists'.mp hne
              have hi1 : i + 1 < Args.length := by
                rcases Nat.lt_or_ge (i + 1) Args.length with h | h
                · exact h
                · rw [List.getElem?_eq_none h] at ht; cases ht
              have hd1 : Args.drop (i + 1) = t :: Args.drop (i + 1 + 1) := by
                rw [List.drop_eq_getElem_cons hi1]
                congr 1
                rw [List.getElem?_eq_getElem hi1] at ht
                exact Option.some.inj ht
              rw [hd1, parseTokens_skip]
              exact ih (i + 1 + 1) _ (by omega)
      · have hv' : isFlagToken v = false := by simpa using hv
        simp only [hv', Bool.false_eq_true, if_false]
        rw [parseTokens_positional _ s hv']
        exact ih (i + 1) _ (by omega)

/-- The function `Parse` returns, and its result is the token view of the
tokens after the program name. -/
theorem Parse_eq (prog : GoString) (toks : List GoString) (s : State) :
    Parse (prog :: toks) s = some (parseTokens toks false s) := by
  unfold Parse
  have := loop_eq (prog :: toks) (prog :: toks).length 1 s (by omega)
  simpa using this

/-! ## Value cells: what `Set` writes and what it leaves alone -/

theorem ParseBool_true : ParseBool (str "true") = some true := by decide

/-- On an entry that agrees with its cell, `Set` stores the conversion of the
token to the entry's type, and fails exactly when there is none. -/
theorem Set_eq_convert {h : List Val} {ai : ArgItem} (t : GoString)
    (ht : typedItem h ai = true) :
    Value.Set h ai.Value t = (convert ai.Typ t).map (fun w => h.set ai.Value w) := by
  unfold typedItem at ht
  unfold Value.Set convert
  cases hp : h[ai.Value]? with
  | none => simp [hp] at ht
  | some v =>
    cases v with
    | boolVal b =>
      have hb : ai.Typ = "bool" := by simpa [hp] using ht
      simp only [hb, if_true]
      cases ParseBool t <;> simp
    | intVal n =>
      have hb : ai.Typ = "int" := by simpa [hp] using ht
      have h1 : ¬ ("int" = "bool") := by decide
      simp only [hb, h1, if_true, if_false]
      cases Atoi t <;> simp
    | stringVal x =>
      have hb : ai.Typ = "string" := by simpa [hp] using ht
      have h1 : ¬ ("string" = "bool") := by decide
      have h2 : ¬ ("string" = "int") := by decide
      simp [hb, h1, h2]

/-- The conversion to a type yields a cell of that type. -/
theorem typedItem_set_convert {h : List Val} {ai : ArgItem} {t : GoString} {w : Val}
    (ht : typedItem h ai = true) (hc : convert ai.Typ t = some w) (bi : ArgItem) :
    typedItem (h.set ai.Value w) bi = typedItem h bi := by
  unfold typedItem at ht ⊢
  by_cases hq : bi.Value = ai.Value
  · rw [hq]
    cases hp : h[ai.Value]? with
    | none => simp [hp] at ht
    | some v =>
      have hlt : ai.Value < h.length := by
        rcases Nat.lt_or_ge ai.Value h.length with hl | hl
        · exact hl
        · rw [List.getElem?_eq_none hl] at hp; cases hp
      have hset : (h.set ai.Value w)[ai.Value]? = some w := by
        simp [List.getElem?_set, hlt]
      rw [hset]
      rw [hp] at ht
      unfold convert at hc
      cases v with
      | boolVal b =>
        have hb : ai.Typ = "bool" := by simpa using ht
        simp only [hb, if_true] at hc
        cases hpb : ParseBool t with
        | none => simp [hpb] at hc
        | some r => simp [hpb] at hc; subst hc; rfl
      | intVal n =>
        have hb : ai.Typ = "int" := by simpa using ht
        have h1 : ¬ ("int" = "bool") := by decide
        simp only [hb, h1, if_true, if_false] at hc
        cases hpb : Atoi t with
        | none => simp [hpb] at hc
        | some r => simp [hpb] at hc; subst hc; rfl
      | stringVal x =>
        have hb : ai.Typ = "string" := by simpa using ht
        have h1 : ¬ ("string" = "bool") := by decide
        have h2 : ¬ ("string" = "int") := by decide
        simp only [hb, h1, h2, if_true, if_false] at hc
        cases hc; rfl
  · have : (h.set ai.Value w)[bi.Value]? = h[bi.Value]? := by
      rw [List.getElem?_set_ne (Ne.symm hq)]
    rw [this]

/-- Two entries that agree with the heap and share a cell have the same type. -/
theorem typedItem_same_cell {h : List Val} {ai bi : ArgItem}
    (ha : typedItem h ai = true) (hb : typedItem h bi = true) (he : ai.Value = bi.Value) :
    ai.Typ = bi.Typ := by
  unfold typedItem at ha hb
  rw [he] at ha
  cases hp : h[bi.Value]? with
  | none => simp [hp] at ha
  | some v =>
    rw [hp] at ha hb
    cases v <;> simp at ha hb <;> rw [ha, hb]

/-- A boolean flag stores `true` in its cell. -/
theorem Set_true {h : List Val} {ai : ArgItem} (ht : typedItem h ai = true)
    (hb : ai.Typ = "bool") :
    (Value.Set h ai.Value (str "true")).getD h = h.set ai.Value (Val.boolVal true) := by
  rw [Set_eq_convert _ ht]
  simp [convert, hb, ParseBool_true]

theorem convert_bool_true {ai : ArgItem} (hb : ai.Typ = "bool") :
    convert ai.Typ (str "true") = some (Val.boolVal true) := by
  simp [convert, hb, ParseBool_true]

/-- The cell of a typed entry exists. -/
theorem typedItem_lt {h : List Val} {ai : ArgItem} (ht : typedItem h ai = true) :
    ai.Value < h.length := by
  unfold typedItem at ht
  rcases Nat.lt_or_ge ai.Value h.length with hl | hl
  · exact hl
  · rw [List.getElem?_eq_none hl] at ht; simp at ht

theorem getElem?_set_self_of_typed {h : List Val} {ai : ArgItem} (w : Val)
    (ht : typedItem h ai = true) : (h.set ai.Value w)[ai.Value]? = some w := by
  simp [List.getElem?_set, typedItem_lt ht]

/-- The entry found by a lookup is an entry of the map. -/
theorem mapLookup_mem {m : List (GoString × ArgItem)} {k : GoString} {ai : ArgItem}
    (hl : mapLookup m k = some ai) : (k, ai) ∈ m := by
  induction m with
  | nil => simp [mapLookup] at hl
  | cons e m ih =>
    obtain ⟨k', a'⟩ := e
    unfold mapLookup at hl
    by_cases hk : k' = k
    · simp only [hk, if_true] at hl
      cases hl; subst hk; simp
    · simp only [hk, if_false] at hl
      exact List.mem_cons_of_mem _ (ih hl)

/-- Distinct names of a well-formed registry have distinct cells. -/
theorem cells_ne {m : List (GoString × ArgItem)}
    (hn : (m.map (fun e => e.2.Value)).Nodup) {k1 k2 : GoString} {a1 a2 : ArgItem}
    (h1 : mapLookup m k1 = some a1) (h2 : mapLookup m k2 = some a2) (hk : k1 ≠ k2) :
    a1.Value ≠ a2.Value := by
  intro he
  have hm1 := mapLookup_mem h1
  have hm2 := mapLookup_mem h2
  have hinj := List.inj_on_of_nodup_map hn hm1 hm2 he
  exact hk (by simpa using congrArg Prod.fst hinj)

/-! ## Well-formed states: those built by the registration functions -/

theorem State.init_WF : State.init.WF := by decide

theorem mem_mapSet {m : List (GoString × ArgItem)} {k : GoString} {a : ArgItem}
    {e : GoString × ArgItem} (he : e ∈ mapSet m k a) : e = (k, a) ∨ e ∈ m := by
  induction m with
  | nil => simp [mapSet] at he; exact Or.inl he
  | cons x m ih =>
    obtain ⟨k', a'⟩ := x
    unfold mapSet at he
    by_cases hk : k' = k
    · simp only [hk, if_true, List.mem_cons] at he
      rcases he with h | h
      · exact Or.inl h
      · exact Or.inr (List.mem_cons_of_mem _ h)
    · simp only [hk, if_false, List.mem_cons] at he
      rcases he with h | h
      · subst h; exact Or.inr (List.mem_cons_self _ _)
      · rcases ih h with h1 | h1
        · exact Or.inl h1
        · exact Or.inr (List.mem_cons_of_mem _ h1)

theorem mapSet_keys_nodup {m : List (GoString × ArgItem)} (k : GoString) (a : ArgItem)
    (hn : (m.map (fun e => e.1)).Nodup) : ((mapSet m k a).map (fun e => e.1)).Nodup := by
  induction m with
  | nil => simp [mapSet]
  | cons x m ih =>
    obtain ⟨k', a'⟩ := x
    simp only [List.map_cons, List.nodup_cons] at hn
    unfold mapSet
    by_cases hk : k' = k
    · simp only [hk, if_true, List.map_cons, List.nodup_cons]
      exact ⟨hk ▸ hn.1, hn.2⟩
    · simp only [hk, if_false, List.map_cons, List.nodup_cons]
      refine ⟨?_, ih hn.2⟩
      intro hmem
      obtain ⟨e, he, hek⟩ := List.mem_map.mp hmem
      rcases mem_mapSet he with h | h
      · subst h; exact hk hek.symm
      · exact hn.1 (List.mem_map.mpr ⟨e, h, hek⟩)

theorem mapSet_cells_nodup {m : List (GoString × ArgItem)} (k : GoString) (a : ArgItem)
    (hn : (m.map (fun e => e.2.Value)).Nodup) (hnew : ∀ e ∈ m, e.2.Value ≠ a.Value) :
    ((mapSet m k a).map (fun e => e.2.Value)).Nodup := by
  induction m with
  | nil => simp [mapSet]
  | cons x m ih =>
    obtain ⟨k', a'⟩ := x
    simp only [List.map_cons, List.nodup_cons] at hn
    have hnew' : ∀ e ∈ m, e.2.Value ≠ a.Value := fun e he => hnew e (List.mem_cons_of_mem _ he)
    unfold mapSet
    by_cases hk : k' = k
    · simp only [hk, if_true, List.map_cons, List.nodup_cons]
      refine ⟨?_, hn.2⟩
      intro hmem
      obtain ⟨e, he, hev⟩ := List.mem_map.mp hmem
      exact hnew' e he hev
    · simp only [hk, if_false, List.map_cons, List.nodup_cons]
      refine ⟨?_, ih hn.2 hnew'⟩
      intro hmem
      obtain ⟨e, he, hev⟩ := List.mem_map.mp hmem
      rcases mem_mapSet he with h | h
      · subst h; exact hnew (k', a') (List.mem_cons_self _ _) hev.symm
      · exact hn.1 (List.mem_map.mpr ⟨e, h, hev⟩)

theorem typedItem_append {h : List Val} {ai : ArgItem} (v : Val)
    (ht : typedItem h ai = true) : typedItem (h ++ [v]) ai = true := by
  have hlt := typedItem_lt ht
  unfold typedItem at ht ⊢
  rw [List.getElem?_append_left hlt]
  exact ht

/-- A registration keeps the state well formed: a new cell at the end of the
heap and an entry of the type of that cell. -/
theorem WF_register (s : State) (hwf : s.WF) (name : GoString) (typ : String) (usage : GoString)
    (v : Val) (hv : typedItem (s.heap ++ [v]) ⟨typ, s.heap.length, usage⟩ = true) :
    State.WF { s with heap := s.heap ++ [v],
                      argMap := mapSet s.argMap name ⟨typ, s.heap.length, usage⟩ } := by
  obtain ⟨h1, h2, h3⟩ := hwf
  refine ⟨mapSet_keys_nodup _ _ h1, mapSet_cells_nodup _ _ h2 ?_, ?_⟩
  · intro e he
    have := typedItem_lt (h3 e he)
    simp only
    omega
  · intro e he
    rcases mem_mapSet he with h | h
    · subst h; exact hv
    · exact typedItem_append v (h3 e h)

theorem declareBool_WF (name : GoString) (d : Bool) (usage : GoString) (s : State)
    (hwf : s.WF) : (declareBool name d usage s).2.WF :=
  WF_register s hwf name "bool" usage (Val.boolVal d) (by simp [typedItem])

theorem declareInt_WF (name : GoString) (d : Int) (usage : GoString) (s : State)
    (hwf : s.WF) : (declareInt name d usage s).2.WF :=
  WF_register s hwf name "int" usage (Val.intVal d) (by simp [typedItem])

theorem declareString_WF (name : GoString) (d : GoString) (usage : GoString) (s : State)
    (hwf : s.WF) : (declareString name d usage s).2.WF :=
  WF_register s hwf name "string" usage (Val.stringVal d) (by simp [typedItem])

/-! ## The loop over a group -/

theorem sameTyping_refl (h : List Val) : sameTyping h h := fun _ => rfl

theorem sameTyping_trans {h1 h2 h3 : List Val} (a : sameTyping h1 h2) (b : sameTyping h2 h3) :
    sameTyping h1 h3 := fun bi => (b bi).trans (a bi)

theorem typed_of_sameTyping {m : List (GoString × ArgItem)} {h h' : List Val}
    (hs : sameTyping h h') (hty : ∀ e ∈ m, typedItem h e.2 = true) :
    ∀ e ∈ m, typedItem h' e.2 = true := fun e he => (hs e.2).trans (hty e he)

theorem isBoolFlag_iff {m : List (GoString × ArgItem)} {a : GoString} :
    isBoolFlag m a = true ↔ ∃ ai, mapLookup m a = some ai ∧ ai.Typ = "bool" := by
  unfold isBoolFlag
  cases mapLookup m a <;> simp

theorem isValueFlag_iff {m : List (GoString × ArgItem)} {a : GoString} :
    isValueFlag m a = true ↔ ∃ ai, mapLookup m a = some ai ∧ ai.Typ ≠ "bool" := by
  unfold isValueFlag
  cases mapLookup m a <;> simp

theorem groupTokens_append (m : List (GoString × ArgItem)) (g2 : List GoString)
    (nx : Option GoString) :
    ∀ (g1 : List GoString) (rn : Bool) (h : List Val),
      groupTokens m (g1 ++ g2) rn nx h =
        if (groupTokens m g1 rn nx h).1 = none then
          groupTokens m g2 (groupTokens m g1 rn nx h).2.1 nx (groupTokens m g1 rn nx h).2.2
        else groupTokens m g1 rn nx h := by
  intro g1
  induction g1 with
  | nil => intro rn h; simp [groupTokens]
  | cons a g ih =>
    intro rn h
    rw [List.cons_append]
    cases hl : mapLookup m a with
    | none =>
      rw [groupTokens_unknown m _ rn nx h hl, groupTokens_unknown m _ rn nx h hl]; simp
    | some ai =>
      by_cases hb : ai.Typ = "bool"
      · rw [groupTokens_bool m _ rn nx h hl hb, groupTokens_bool m _ rn nx h hl hb]
        exact ih _ _
      · cases rn with
        | true =>
          rw [groupTokens_conflict m _ nx h hl hb, groupTokens_conflict m _ nx h hl hb]; simp
        | false =>
          cases nx with
          | none =>
            rw [groupTokens_missing m _ h hl hb, groupTokens_missing m _ h hl hb]; simp
          | some t =>
            cases hs : Value.Set h ai.Value t with
            | none =>
              rw [groupTokens_bad m _ h hl hb hs, groupTokens_bad m _ h hl hb hs]; simp
            | some h' =>
              rw [groupTokens_value m _ h hl hb hs, groupTokens_value m _ h hl hb hs]
              exact ih _ _

/-- Whatever the outcome, the loop over a group keeps the type of every cell. -/
theorem groupTokens_sameTyping (m : List (GoString × ArgItem)) (nx : Option GoString) :
    ∀ (g : List GoString) (rn : Bool) (h : List Val),
      (∀ e ∈ m, typedItem h e.2 = true) →
      sameTyping h (groupTokens m g rn nx h).2.2 := by
  intro g
  induction g with
  | nil => intro rn h _; exact sameTyping_refl h
  | cons a g ih =>
    intro rn h hty
    cases hl : mapLookup m a with
    | none => rw [groupTokens_unknown m _ rn nx h hl]; exact sameTyping_refl h
    | some ai =>
      have hta : typedItem h ai = true := hty _ (mapLookup_mem hl)
      by_cases hb : ai.Typ = "bool"
      · rw [groupTokens_bool m _ rn nx h hl hb, Set_true hta hb]
        have hst : sameTyping h (h.set ai.Value (Val.boolVal true)) :=
          fun bi => typedItem_set_convert hta (convert_bool_true hb) bi
        exact sameTyping_trans hst (ih _ _ (typed_of_sameTyping hst hty))
      · cases rn with
        | true => rw [groupTokens_conflict m _ nx h hl hb]; exact sameTyping_refl h
        | false =>
          cases nx with
          | none => rw [groupTokens_missing m _ h hl hb]; exact sameTyping_refl h
          | some t =>
            cases hs : Value.Set h ai.Value t with
            | none => rw [groupTokens_bad m _ h hl hb hs]; exact sameTyping_refl h
            | some h' =>
              rw [groupTokens_value m _ h hl hb hs]
              rw [Set_eq_convert t hta] at hs
              cases hc : convert ai.Typ t with
              | none => simp [hc] at hs
              | some w =>
                simp only [hc, Option.map_some'] at hs
                have hh : h' = h.set ai.Value w := (Option.some.inj hs).symm
                subst hh
                have hst : sameTyping h (h.set ai.Value w) :=
                  fun bi => typedItem_set_convert hta hc bi
                exact sameTyping_trans hst (ih _ _ (typed_of_sameTyping hst hty))

/-- A successful loop over a group has read the next token exactly when the
group names a value-requiring option. -/
theorem groupTokens_readNext (m : List (GoString × ArgItem)) (nx : Option GoString) :
    ∀ (g : List GoString) (rn rn' : Bool) (h h' : List Val),
      groupTokens m g rn nx h = (none, rn', h') → rn' = (rn || g.any (isValueFlag m)) := by
  intro g
  induction g with
  | nil => intro rn rn' h h' he; simp [groupTokens] at he; simp [he.1]
  | cons a g ih =>
    intro rn rn' h h' he
    cases hl : mapLookup m a with
    | none => rw [groupTokens_unknown m _ rn nx h hl] at he; simp at he
    | some ai =>
      by_cases hb : ai.Typ = "bool"
      · rw [groupTokens_bool m _ rn nx h hl hb] at he
        have := ih _ _ _ _ he
        simp [this, isValueFlag, hl, hb]
      · cases rn with
        | true => rw [groupTokens_conflict m _ nx h hl hb] at he; simp at he
        | false =>
          cases nx with
          | none => rw [groupTokens_missing m _ h hl hb] at he; simp at he
          | some t =>
            cases hs : Value.Set h ai.Value t with
            | none => rw [groupTokens_bad m _ h hl hb hs] at he; simp at he
            | some h1 =>
              rw [groupTokens_value m _ h hl hb hs] at he
              have := ih _ _ _ _ he
              simp [this, isValueFlag, hl, hb]

/-- A loop over a group that succeeds without a next token succeeds in the same
way with any next token. -/
theorem groupTokens_none_next (m : List (GoString × ArgItem)) :
    ∀ (g : List GoString) (rn rn' : Bool) (h h' : List Val),
      groupTokens m g rn none h = (none, rn', h') →
      ∀ nx, groupTokens m g rn nx h = (none, rn', h') := by
  intro g
  induction g with
  | nil => intro rn rn' h h' he nx; simpa [groupTokens] using he
  | cons a g ih =>
    intro rn rn' h h' he nx
    cases hl : mapLookup m a with
    | none => rw [groupTokens_unknown m _ rn none h hl] at he; simp at he
    | some ai =>
      by_cases hb : ai.Typ = "bool"
      · rw [groupTokens_bool m _ rn none h hl hb] at he
        rw [groupTokens_bool m _ rn nx h hl hb]
        exact ih _ _ _ _ he nx
      · cases rn with
        | true => rw [groupTokens_conflict m _ none h hl hb] at he; simp at he
        | false => rw [groupTokens_missing m _ h hl hb] at he; simp at he

/-- A group of registered boolean flags: no error, `readNext` untouched, the
cells of the group hold `true` and every other cell is as before. -/
theorem groupTokens_bools (m : List (GoString × ArgItem)) (nx : Option GoString) :
    ∀ (g : List GoString) (rn : Bool) (h : List Val),
      (∀ e ∈ m, typedItem h e.2 = true) →
      (∀ a ∈ g, isBoolFlag m a = true) →
      ∃ h', groupTokens m g rn nx h = (none, rn, h') ∧
        ∀ q, h'[q]? = if q ∈ cellsOf m g then some (Val.boolVal true) else h[q]? := by
  intro g
  induction g with
  | nil => intro rn h _ _; exact ⟨h, rfl, by simp [cellsOf]⟩
  | cons a g ih =>
    intro rn h hty hg
    obtain ⟨ai, hl, hb⟩ := isBoolFlag_iff.mp (hg a (List.mem_cons_self _ _))
    have hta : typedItem h ai = true := hty _ (mapLookup_mem hl)
    have hst : sameTyping h (h.set ai.Value (Val.boolVal true)) :=
      fun bi => typedItem_set_convert hta (convert_bool_true hb) bi
    obtain ⟨h', he, hq⟩ := ih rn (h.set ai.Value (Val.boolVal true))
      (typed_of_sameTyping hst hty) (fun x hx => hg x (List.mem_cons_of_mem _ hx))
    refine ⟨h', ?_, ?_⟩
    · rw [groupTokens_bool m _ rn nx h hl hb, Set_true hta hb]; exact he
    · intro q
      rw [hq q]
      have hc : cellsOf m (a :: g) = ai.Value :: cellsOf m g := by
        simp [cellsOf, List.filterMap_cons, hl]
      rw [hc]
      by_cases h1 : q ∈ cellsOf m g
      · simp [h1]
      · by_cases h2 : q = ai.Value
        · subst h2
          simp [h1, getElem?_set_self_of_typed _ hta]
        · simp [h1, h2, List.getElem?_set_ne (Ne.symm h2)]

/-! ## The loop over the tokens -/

/-- The outcome of one flag token, by cases on the loop over its group. -/
theorem parseTokens_flag (v : GoString) (rest : List GoString) (s : State)
    (hv : isFlagToken v = true) :
    parseTokens (v :: rest) false s =
      if (groupTokens s.argMap (argGroupOf v) false rest.head? s.heap).1 = none then
        parseTokens rest (groupTokens s.argMap (argGroupOf v) false rest.head? s.heap).2.1
          { s with heap := (groupTokens s.argMap (argGroupOf v) false rest.head? s.heap).2.2 }
      else
        ((groupTokens s.argMap (argGroupOf v) false rest.head? s.heap).1,
          { s with heap := (groupTokens s.argMap (argGroupOf v) false rest.head? s.heap).2.2 }) := by
  cases hg : groupTokens s.argMap (argGroupOf v) false rest.head? s.heap with
  | mk e r =>
    obtain ⟨rn, h'⟩ := r
    cases e with
    | none => rw [parseTokens_flag_ok rest s hv hg]; simp
    | some e => rw [parseTokens_flag_error rest s hv hg]; simp

/-- The registry is not changed by parsing. -/
theorem parseTokens_argMap :
    ∀ (toks : List GoString) (sk : Bool) (s : State),
      (parseTokens toks sk s).2.argMap = s.argMap := by
  intro toks
  induction toks with
  | nil => intro sk s; rw [parseTokens_nil]
  | cons v rest ih =>
    intro sk s
    cases sk with
    | true => rw [parseTokens_skip]; exact ih _ _
    | false =>
      by_cases hv : isFlagToken v = true
      · rw [parseTokens_flag v rest s hv]
        split
        · rw [ih]
        · rfl
      · have hv' : isFlagToken v = false := by simpa using hv
        rw [parseTokens_positional rest s hv', ih]

/-- Parsing keeps the type of every cell. -/
theorem parseTokens_sameTyping :
    ∀ (toks : List GoString) (sk : Bool) (s : State),
      (∀ e ∈ s.argMap, typedItem s.heap e.2 = true) →
      sameTyping s.heap (parseTokens toks sk s).2.heap := by
  intro toks
  induction toks with
  | nil => intro sk s _; rw [parseTokens_nil]; exact sameTyping_refl _
  | cons v rest ih =>
    intro sk s hty
    cases sk with
    | true => rw [parseTokens_skip]; exact ih _ _ hty
    | false =>
      by_cases hv : isFlagToken v = true
      · rw [parseTokens_flag v rest s hv]
        have hst := groupTokens_sameTyping s.argMap rest.head? (argGroupOf v) false s.heap hty
        split
        · exact sameTyping_trans hst (ih _ _ (typed_of_sameTyping hst hty))
        · exact hst
      · have hv' : isFlagToken v = false := by simpa using hv
        rw [parseTokens_positional rest s hv']
        exact ih _ _ hty

/-- Parsing keeps the state well formed. -/
theorem parseTokens_WF (toks : List GoString) (sk : Bool) (s : State) (hwf : s.WF) :
    (parseTokens toks sk s).2.WF := by
  obtain ⟨h1, h2, h3⟩ := hwf
  have hm := parseTokens_argMap toks sk s
  refine ⟨by rw [hm]; exact h1, by rw [hm]; exact h2, ?_⟩
  rw [hm]
  exact typed_of_sameTyping (parseTokens_sameTyping toks sk s h3) h3

/-- Parsing composes over concatenation: after a first part parsed without
error, the rest is parsed from the state reached. -/
theorem parseTokens_append (b : List GoString) :
    ∀ (a : List GoString) (sk : Bool) (s : State),
      (parseTokens a sk s).1 = none → (sk = false ∨ a ≠ []) →
      parseTokens (a ++ b) sk s = parseTokens b false (parseTokens a sk s).2 := by
  intro a
  induction a with
  | nil =>
    intro sk s _ hsk
    rcases hsk with hsk | hsk
    · subst hsk; simp [parseTokens_nil]
    · exact absurd rfl hsk
  | cons v rest ih =>
    intro sk s hok _
    rw [List.cons_append]
    cases sk with
    | true =>
      rw [parseTokens_skip] at hok ⊢
      rw [parseTokens_skip]
      exact ih false s hok (Or.inl rfl)
    | false =>
      by_cases hv : isFlagToken v = true
      · cases hg : groupTokens s.argMap (argGroupOf v) false rest.head? s.heap with
        | mk e r =>
          obtain ⟨rn, h'⟩ := r
          cases e with
          | some e => rw [parseTokens_flag_error rest s hv hg] at hok; simp at hok
          | none =>
            rw [parseTokens_flag_ok rest s hv hg] at hok ⊢
            cases rest with
            | nil =>
              have hg0 : groupTokens s.argMap (argGroupOf v) false none s.heap = (none, rn, h') := by
                simpa using hg
              have hrn : rn = false := by
                cases rn with
                | false => rfl
                | true => exact absurd rfl (groupTokens_consumed s.argMap _ _ _ _ hg0)
              subst hrn
              have hg1 := groupTokens_none_next s.argMap _ _ _ _ _ hg0 ([] ++ b).head?
              rw [parseTokens_flag_ok ([] ++ b) s hv hg1, parseTokens_nil]
              rfl
            | cons r rs =>
              have hg1 : groupTokens s.argMap (argGroupOf v) false ((r :: rs) ++ b).head? s.heap
                  = (none, rn, h') := by simpa using hg
              rw [parseTokens_flag_ok ((r :: rs) ++ b) s hv hg1]
              exact ih rn _ hok (Or.inr (by simp))
      · have hv' : isFlagToken v = false := by simpa using hv
        rw [parseTokens_positional rest s hv'] at hok ⊢
        rw [parseTokens_positional (rest ++ b) s hv']
        exact ih false _ hok (Or.inl rfl)

/-- The function `Parse` after a first part of the tokens parsed without
error. -/
theorem Parse_append {prog : GoString} {pre : List GoString} {s s1 : State}
    (b : List GoString) (hpre : Parse (prog :: pre) s = some (none, s1)) :
    Parse (prog :: (pre ++ b)) s = some (parseTokens b false s1) := by
  rw [Parse_eq] at hpre ⊢
  have hp : parseTokens pre false s = (none, s1) := Option.some.inj hpre
  rw [parseTokens_append b pre false s (by rw [hp]) (Or.inl rfl), hp]

/-- The function `Parse` keeps the state well formed and the registry as it is. -/
theorem Parse_WF {prog : GoString} {toks : List GoString} {s s1 : State}
    {e : Option ParseError} (hp : Parse (prog :: toks) s = some (e, s1)) (hwf : s.WF) :
    s1.WF ∧ s1.argMap = s.argMap := by
  rw [Parse_eq] at hp
  have hp' : parseTokens toks false s = (e, s1) := Option.some.inj hp
  have h1 := parseTokens_WF toks false s hwf
  have h2 := parseTokens_argMap toks false s
  rw [hp'] at h1 h2
  exact ⟨h1, h2⟩

/-! ## Groups with one value-requiring flag -/

theorem mem_cellsOf {m : List (GoString × ArgItem)} {g : List GoString} {q : Nat} :
    q ∈ cellsOf m g ↔ ∃ a ∈ g, ∃ ai, mapLookup m a = some ai ∧ ai.Value = q := by
  simp [cellsOf, List.mem_filterMap]

theorem cellsOf_append (m : List (GoString × ArgItem)) (g1 g2 : List GoString) :
    cellsOf m (g1 ++ g2) = cellsOf m g1 ++ cellsOf m g2 := by
  simp [cellsOf, List.filterMap_append]

theorem cellsOf_cons {m : List (GoString × ArgItem)} {a : GoString} {ai : ArgItem}
    (g : List GoString) (hl : mapLookup m a = some ai) :
    cellsOf m (a :: g) = ai.Value :: cellsOf m g := by
  simp [cellsOf, List.filterMap_cons, hl]

/-- The cell of a value-requiring option is not the cell of a boolean flag. -/
theorem not_mem_cellsOf_bools {m : List (GoString × ArgItem)} {h : List Val}
    (hty : ∀ e ∈ m, typedItem h e.2 = true) {g : List GoString}
    (hg : ∀ a ∈ g, isBoolFlag m a = true) {p : GoString} {ai : ArgItem}
    (hl : mapLookup m p = some ai) (hv : ai.Typ ≠ "bool") : ai.Value ∉ cellsOf m g := by
  intro hq
  obtain ⟨a, ha, bi, hb, he⟩ := mem_cellsOf.mp hq
  obtain ⟨bi', hb', hbt⟩ := isBoolFlag_iff.mp (hg a ha)
  rw [hb] at hb'
  cases hb'
  have := typedItem_same_cell (hty _ (mapLookup_mem hb)) (hty _ (mapLookup_mem hl)) he
  exact hv (this ▸ hbt)

/-- A group of boolean flags around one value-requiring flag, followed by a
token that converts: no error, the next token is read, and the heap is known
cell by cell. -/
theorem groupTokens_one_value (m : List (GoString × ArgItem)) (h : List Val)
    (hty : ∀ e ∈ m, typedItem h e.2 = true) (g1 g2 : List GoString) (p t : GoString)
    (ai : ArgItem) (w : Val)
    (hg1 : ∀ a ∈ g1, isBoolFlag m a = true) (hg2 : ∀ a ∈ g2, isBoolFlag m a = true)
    (hl : mapLookup m p = some ai) (hv : ai.Typ ≠ "bool") (hc : convert ai.Typ t = some w) :
    ∃ h', groupTokens m (g1 ++ p :: g2) false (some t) h = (none, true, h') ∧
      ∀ q, h'[q]? =
        if q = ai.Value then some w
        else if q ∈ cellsOf m g1 ∨ q ∈ cellsOf m g2 then some (Val.boolVal true)
        else h[q]? := by
  obtain ⟨h1, he1, hq1⟩ := groupTokens_bools m (some t) g1 false h hty hg1
  have hst1 : sameTyping h h1 := by
    have := groupTokens_sameTyping m (some t) g1 false h hty
    rw [he1] at this; exact this
  have hty1 := typed_of_sameTyping hst1 hty
  have hta : typedItem h1 ai = true := hty1 _ (mapLookup_mem hl)
  have hset : Value.Set h1 ai.Value t = some (h1.set ai.Value w) := by
    rw [Set_eq_convert t hta, hc]; rfl
  have hst2 : sameTyping h1 (h1.set ai.Value w) := fun bi => typedItem_set_convert hta hc bi
  have hty2 := typed_of_sameTyping hst2 hty1
  obtain ⟨h3, he3, hq3⟩ := groupTokens_bools m (some t) g2 true (h1.set ai.Value w) hty2 hg2
  refine ⟨h3, ?_, ?_⟩
  · rw [groupTokens_append, he1]
    simp only [if_true]
    rw [groupTokens_value m g2 h1 hl hv hset]
    exact he3
  · intro q
    rw [hq3 q]
    have hn1 : ai.Value ∉ cellsOf m g1 := not_mem_cellsOf_bools hty hg1 hl hv
    have hn2 : ai.Value ∉ cellsOf m g2 := not_mem_cellsOf_bools hty hg2 hl hv
    by_cases hqa : q = ai.Value
    · subst hqa
      simp [hn2, getElem?_set_self_of_typed w hta]
    · by_cases hq2 : q ∈ cellsOf m g2
      · simp [hqa, hq2]
      · rw [List.getElem?_set_ne (Ne.symm hqa), hq1 q]
        simp [hqa, hq2]

theorem isFlagToken_dash (cs : GoString) (hne : cs ≠ []) :
    isFlagToken ((45 : Byte) :: cs) = true := by
  cases cs with
  | nil => exact absurd rfl hne
  | cons c cs => simp [isFlagToken]

theorem argGroupOf_short (cs : GoString) (hs : isLongFlag ((45 : Byte) :: cs) = false) :
    argGroupOf ((45 : Byte) :: cs) = cs.map byteToString := by
  simp [argGroupOf, hs]

theorem State.get_eq {s : State} {name : GoString} {ai : ArgItem}
    (hl : mapLookup s.argMap name = some ai) : s.get name = s.heap[ai.Value]? := by
  simp [State.get, hl]

/-- C1 (multi-short-flag grouping, as in `-nfp 10`).  For every well-formed
registry and every short-flag-group token `-c1...cn` whose resolved names
(`string(ci)` for the bytes after the dash) are all registered, exactly one of
them, at any position, being value-requiring and the others boolean, followed by
a token `t` that converts to the kind of that option: `Parse` succeeds, every
boolean flag of the group is true, the value-requiring option holds the
conversion of `t`, the positional list is unchanged (so `t` is not appended to
it) and no cell outside the group changes (so `t` is not read as a flag). -/
theorem C1_short_group_with_value (s : State) (hwf : s.WF) (prog : GoString)
    (pre post : List Byte) (c : Byte) (t : GoString) (ai : ArgItem) (w : Val)
    (hshort : isLongFlag ((45 : Byte) :: (pre ++ c :: post)) = false)
    (hpre : ∀ b ∈ pre, isBoolFlag s.argMap (byteToString b) = true)
    (hpost : ∀ b ∈ post, isBoolFlag s.argMap (byteToString b) = true)
    (hc : mapLookup s.argMap (byteToString c) = some ai) (hv : ai.Typ ≠ "bool")
    (ht : convert ai.Typ t = some w) :
    ∃ s', Parse [prog, (45 : Byte) :: (pre ++ c :: post), t] s = some (none, s')
      ∧ s'.argMap = s.argMap
      ∧ s'.otherArg = s.otherArg
      ∧ (∀ b ∈ pre ++ post, s'.get (byteToString b) = some (Val.boolVal true))
      ∧ s'.get (byteToString c) = some w
      ∧ (∀ q, q ∉ cellsOf s.argMap ((pre ++ c :: post).map byteToString) →
          s'.heap[q]? = s.heap[q]?) := by
  obtain ⟨_, _, hty⟩ := hwf
  have hg1 : ∀ a ∈ pre.map byteToString, isBoolFlag s.argMap a = true := by
    intro a ha
    obtain ⟨b, hb, rfl⟩ := List.mem_map.mp ha
    exact hpre b hb
  have hg2 : ∀ a ∈ post.map byteToString, isBoolFlag s.argMap a = true := by
    intro a ha
    obtain ⟨b, hb, rfl⟩ := List.mem_map.mp ha
    exact hpost b hb
  obtain ⟨h', he, hq⟩ := groupTokens_one_value s.argMap s.heap hty _ _ _ t ai w hg1 hg2 hc hv ht
  have hflag : isFlagToken ((45 : Byte) :: (pre ++ c :: post)) = true :=
    isFlagToken_dash _ (by simp)
  have hgrp : argGroupOf ((45 : Byte) :: (pre ++ c :: post))
      = pre.map byteToString ++ byteToString c :: post.map byteToString := by
    rw [argGroupOf_short _ hshort]; simp
  have hrun : parseTokens [(45 : Byte) :: (pre ++ c :: post), t] false s
      = (none, { s with heap := h' }) := by
    rw [parseTokens_flag_ok [t] s hflag (by rw [hgrp]; exact he), parseTokens_skip,
      parseTokens_nil]
  refine ⟨{ s with heap := h' }, ?_, rfl, rfl, ?_, ?_, ?_⟩
  · rw [Parse_eq, hrun]
  · intro b hb
    have hbf : isBoolFlag s.argMap (byteToString b) = true := by
      rcases List.mem_append.mp hb with h1 | h1
      · exact hpre b h1
      · exact hpost b h1
    obtain ⟨bi, hbl, hbt⟩ := isBoolFlag_iff.mp hbf
    have hget : State.get { s with heap := h' } (byteToString b) = h'[bi.Value]? :=
      State.get_eq (s := { s with heap := h' }) hbl
    rw [hget, hq]
    have hne : bi.Value ≠ ai.Value := by
      intro he'
      have := typedItem_same_cell (hty _ (mapLookup_mem hbl)) (hty _ (mapLookup_mem hc)) he'
      exact hv (this ▸ hbt)
    have hmem : bi.Value ∈ cellsOf s.argMap (pre.map byteToString)
        ∨ bi.Value ∈ cellsOf s.argMap (post.map byteToString) := by
      rcases List.mem_append.mp hb with h1 | h1
      · exact Or.inl (mem_cellsOf.mpr ⟨_, List.mem_map_of_mem _ h1, bi, hbl, rfl⟩)
      · exact Or.inr (mem_cellsOf.mpr ⟨_, List.mem_map_of_mem _ h1, bi, hbl, rfl⟩)
    simp [hne, hmem]
  · have hget : State.get { s with heap := h' } (byteToString c) = h'[ai.Value]? :=
      State.get_eq (s := { s with heap := h' }) hc
    rw [hget, hq]; simp
  · intro q hqn
    have hcells : cellsOf s.argMap ((pre ++ c :: post).map byteToString)
        = cellsOf s.argMap (pre.map byteToString)
          ++ ai.Value :: cellsOf s.argMap (post.map byteToString) := by
      rw [List.map_append, List.map_cons, cellsOf_append, cellsOf_cons _ hc]
    rw [hcells] at hqn
    simp only [List.mem_append, List.mem_cons, not_or] at hqn
    show h'[q]? = s.heap[q]?
    rw [hq]
    simp [hqn.1, hqn.2.1, hqn.2.2]

/-- Witness of C1: the registry of `examples/cat.go` and the arguments `-nfp 10`. -/
theorem C1_short_group_with_value_witness :
    catState.WF ∧ isLongFlag (str "-nfp") = false ∧
    ∃ s', Parse [str "cat", str "-nfp", str "10"] catState = some (none, s')
      ∧ s'.argMap = catState.argMap
      ∧ s'.otherArg = catState.otherArg
      ∧ (∀ b ∈ [(110 : Byte), 102] ++ [], s'.get (byteToString b) = some (Val.boolVal true))
      ∧ s'.get (str "p") = some (Val.intVal 10)
      ∧ (∀ q, q ∉ cellsOf catState.argMap (([(110 : Byte), 102] ++ 112 :: []).map byteToString) →
          s'.heap[q]? = catState.heap[q]?) :=
  ⟨by decide, by decide,
    C1_short_group_with_value catState (by decide) (str "cat") [110, 102] [] 112 (str "10")
      ⟨"int", 3, str "输出 n 行"⟩ (Val.intVal 10) (by decide) (by decide) (by decide)
      (by decide) (by decide) (by decide)⟩

/-! ## The positional list -/

theorem valueMask_length (m : List (GoString × ArgItem)) :
    ∀ (toks : List GoString) (sk : Bool), (valueMask m toks sk).length = toks.length := by
  intro toks
  induction toks with
  | nil => intro sk; cases sk <;> rfl
  | cons v rest ih => intro sk; cases sk <;> simp [valueMask, ih]

/-- The tokens kept by the filter of `positionalTokens`, from a given mark of
the first token. -/
theorem parseTokens_otherArg :
    ∀ (toks : List GoString) (sk : Bool) (s s' : State),
      parseTokens toks sk s = (none, s') →
      s'.otherArg = s.otherArg ++
        ((toks.zip (valueMask s.argMap toks sk)).filter
          (fun p => !p.2 && !isFlagToken p.1)).map (fun p => p.1) := by
  intro toks
  induction toks with
  | nil =>
    intro sk s s' hp
    rw [parseTokens_nil] at hp
    cases hp
    simp
  | cons v rest ih =>
    intro sk s s' hp
    cases sk with
    | true =>
      rw [parseTokens_skip] at hp
      rw [ih false s s' hp]
      simp [valueMask]
    | false =>
      by_cases hv : isFlagToken v = true
      · cases hg : groupTokens s.argMap (argGroupOf v) false rest.head? s.heap with
        | mk e r =>
          obtain ⟨rn, h'⟩ := r
          cases e with
          | some e => rw [parseTokens_flag_error rest s hv hg] at hp; simp at hp
          | none =>
            rw [parseTokens_flag_ok rest s hv hg] at hp
            have hrn := groupTokens_readNext s.argMap _ _ _ _ _ _ hg
            rw [ih rn _ s' hp, hrn]
            simp [valueMask, hv]
      · have hv' : isFlagToken v = false := by simpa using hv
        rw [parseTokens_positional rest s hv'] at hp
        rw [ih false _ s' hp]
        simp [valueMask, hv']

theorem positionalTokens_sublist (m : List (GoString × ArgItem)) (toks : List GoString) :
    (positionalTokens m toks).Sublist toks := by
  unfold positionalTokens
  have h1 : ((toks.zip (valueMask m toks false)).map (fun p => p.1)) = toks := by
    have := List.map_fst_zip toks (valueMask m toks false) (by rw [valueMask_length])
    simpa using this
  have h2 := (List.filter_sublist (p := fun p : GoString × Bool => !p.2 && !isFlagToken p.1)
    (toks.zip (valueMask m toks false))).map (fun p => p.1)
  rw [h1] at h2
  exact h2

/-- C2 (the positional list).  For every registry and token list on which
`Parse` succeeds, the positional list afterwards is the one before followed by
the tokens that are not flag tokens (length at least 2 and first byte `-`) and
are not consumed as the value of a non-boolean flag, in input order and
verbatim (a sublist of the input); from an empty positional list it is exactly
that list and `OtherArgLen` is its length.  A bare `-` and the empty string are
not flag tokens. -/
theorem C2_positional_list (s s' : State) (prog : GoString) (toks : List GoString)
    (hp : Parse (prog :: toks) s = some (none, s')) :
    s'.otherArg = s.otherArg ++ positionalTokens s.argMap toks
      ∧ (s.otherArg = [] →
          s'.otherArg = positionalTokens s.argMap toks
            ∧ OtherArgLen s' = (positionalTokens s.argMap toks).length)
      ∧ (positionalTokens s.argMap toks).Sublist toks
      ∧ isFlagToken [(45 : Byte)] = false ∧ isFlagToken [] = false := by
  rw [Parse_eq] at hp
  have h := parseTokens_otherArg toks false s s' (Option.some.inj hp)
  refine ⟨h, ?_, positionalTokens_sublist _ _, by decide, by decide⟩
  intro he
  rw [he, List.nil_append] at h
  exact ⟨h, by unfold OtherArgLen; rw [h]; rfl⟩

/-- Witness of C2: `-fp -10 file.txt - "" -n` on the registry of
`examples/cat.go`; the token `-10` is the value of `p`, and the positional list
is `file.txt`, `-` and the empty string. -/
theorem C2_positional_list_witness :
    Parse [str "cat", str "-fp", str "-10", str "file.txt", str "-", str "", str "-n"] catState
        = some (none, { catState with
            heap := [Val.boolVal true, Val.boolVal true, Val.boolVal false, Val.intVal (-10),
              Val.boolVal false, Val.boolVal false]
            otherArg := [str "file.txt", str "-", str ""] })
      ∧ positionalTokens catState.argMap
          [str "-fp", str "-10", str "file.txt", str "-", str "", str "-n"]
        = [str "file.txt", str "-", str ""]
      ∧ ([str "file.txt", str "-", str ""] : List GoString)
        = catState.otherArg ++ positionalTokens catState.argMap
          [str "-fp", str "-10", str "file.txt", str "-", str "", str "-n"] :=
  ⟨by decide, by decide,
    (C2_positional_list catState
      { catState with
          heap := [Val.boolVal true, Val.boolVal true, Val.boolVal false, Val.intVal (-10),
            Val.boolVal false, Val.boolVal false]
          otherArg := [str "file.txt", str "-", str ""] }
      (str "cat")
      [str "-fp", str "-10", str "file.txt", str "-", str "", str "-n"] (by decide)).1⟩

/-! ## The conversion of integers: `Atoi` against the decimal text -/

theorem atoiDigits_eq (s : GoString) :
    ∀ acc : Nat, atoiDigits s acc =
      if s.all isDigit then some (s.foldl (fun n b => n * 10 + (b.val - 48)) acc) else none := by
  induction s with
  | nil => intro acc; simp [atoiDigits]
  | cons ch s ih =>
    intro acc
    have hlt : ch.val < 256 := ch.isLt
    by_cases hd : isDigit ch = true
    · have hd' : 48 ≤ ch.val ∧ ch.val ≤ 57 := by simpa [isDigit] using hd
      have h1 : ¬ ((ch.val + 256 - 48) % 256 > 9) := by omega
      have h2 : (ch.val + 256 - 48) % 256 = ch.val - 48 := by omega
      simp only [atoiDigits, List.all_cons, hd, Bool.true_and, List.foldl_cons]
      rw [if_neg h1, ih, h2]
    · have hd' : ¬ (48 ≤ ch.val ∧ ch.val ≤ 57) := by simpa [isDigit] using hd
      have h1 : (ch.val + 256 - 48) % 256 > 9 := by omega
      have hd2 : isDigit ch = false := by simpa using hd
      simp only [atoiDigits, List.all_cons, hd2, Bool.false_and]
      rw [if_pos h1]
      simp

theorem atoiDigits_zero (s : GoString) :
    atoiDigits s 0 = if s.all isDigit then some (digitsValue s) else none :=
  atoiDigits_eq s 0

theorem two_pow_intSize : (2 : Nat) ^ (intSize - 1) = 9223372036854775808 := by
  norm_num [intSize]

theorem minInt_eq : minInt = -9223372036854775808 := by
  norm_num [minInt, intSize]

theorem maxInt_eq : maxInt = 9223372036854775807 := by
  norm_num [maxInt, intSize]

theorem Atoi_cons (c : Byte) (r : GoString) :
    Atoi (c :: r) =
      if (if c.val = 45 ∨ c.val = 43 then r else c :: r) = [] then none
      else
        match atoiDigits (if c.val = 45 ∨ c.val = 43 then r else c :: r) 0 with
        | none => none
        | some un =>
          if (!(decide (c.val = 45)) && decide (un ≥ 2 ^ (intSize - 1))) = true then none
          else if (decide (c.val = 45) && decide (un > 2 ^ (intSize - 1))) = true then none
          else some (if decide (c.val = 45) = true then -(un : Int) else (un : Int)) := rfl

/-- The function `Atoi` on a text without sign. -/
theorem Atoi_unsigned (s : GoString) (hne : s ≠ []) (hd : s.all isDigit = true) :
    Atoi s = if digitsValue s < 2 ^ (intSize - 1) then some (digitsValue s : Int) else none := by
  cases s with
  | nil => exact absurd rfl hne
  | cons c r =>
    have hc : isDigit c = true := by
      simp only [List.all_cons, Bool.and_eq_true] at hd; exact hd.1
    have hc' : 48 ≤ c.val ∧ c.val ≤ 57 := by simpa [isDigit] using hc
    have h45 : ¬ (c.val = 45 ∨ c.val = 43) := by omega
    have h45' : ¬ (c.val = 45) := by omega
    rw [Atoi_cons, if_neg h45, if_neg hne, atoiDigits_zero, hd]
    by_cases hr : digitsValue (c :: r) < 2 ^ (intSize - 1)
    · simp [hr, h45', Nat.not_le.mpr hr]
    · simp [hr, h45', Nat.le_of_not_lt hr]

/-- The function `Atoi` on a text with a minus sign. -/
theorem Atoi_minus (c : Byte) (r : GoString) (h45 : c.val = 45) (hne : r ≠ [])
    (hd : r.all isDigit = true) :
    Atoi (c :: r) =
      if digitsValue r ≤ 2 ^ (intSize - 1) then some (-(digitsValue r : Int)) else none := by
  rw [Atoi_cons, if_pos (Or.inl h45), if_neg hne, atoiDigits_zero, hd]
  by_cases hr : digitsValue r ≤ 2 ^ (intSize - 1)
  · simp [hr, h45, Nat.not_lt.mpr hr]
  · simp [hr, h45, Nat.lt_of_not_le hr]

/-- The function `Atoi` on a text with a plus sign. -/
theorem Atoi_plus (c : Byte) (r : GoString) (h43 : c.val = 43) (hne : r ≠ [])
    (hd : r.all isDigit = true) :
    Atoi (c :: r) =
      if digitsValue r < 2 ^ (intSize - 1) then some (digitsValue r : Int) else none := by
  have h45 : ¬ (c.val = 45) := by omega
  rw [Atoi_cons, if_pos (Or.inr h43), if_neg hne, atoiDigits_zero, hd]
  by_cases hr : digitsValue r < 2 ^ (intSize - 1)
  · simp [hr, h45, Nat.not_le.mpr hr]
  · simp [hr, h45, Nat.le_of_not_lt hr]

/-- The function `Atoi` fails when a byte after the sign is not a digit. -/
theorem Atoi_not_digits (c : Byte) (r : GoString)
    (hd : (if c.val = 45 ∨ c.val = 43 then r else c :: r).all isDigit = false) :
    Atoi (c :: r) = none := by
  rw [Atoi_cons, atoiDigits_zero, hd]
  simp

theorem digitsValue_append (a b : GoString) :
    digitsValue (a ++ b) = b.foldl (fun n x => n * 10 + (x.val - 48)) (digitsValue a) := by
  simp [digitsValue, List.foldl_append]

theorem digitByte_val (n : Nat) : (digitByte n).val = 48 + n % 10 := by
  have : n % 10 < 10 := Nat.mod_lt _ (by decide)
  simp only [digitByte]
  omega

theorem isDigit_digitByte (n : Nat) : isDigit (digitByte n) = true := by
  have : n % 10 < 10 := Nat.mod_lt _ (by decide)
  simp only [isDigit, digitByte_val, decide_eq_true_eq]
  omega

/-- The digits written for `n` are digits, at least one, and they read back
as `n`. -/
theorem natDigits_spec :
    ∀ (fuel n : Nat), n < fuel →
      natDigits fuel n ≠ [] ∧ (natDigits fuel n).all isDigit = true
        ∧ digitsValue (natDigits fuel n) = n := by
  intro fuel
  induction fuel with
  | zero => intro n h; omega
  | succ fuel ih =>
    intro n hn
    by_cases h10 : n < 10
    · simp only [natDigits, h10, if_true]
      refine ⟨by simp, by simp [isDigit_digitByte], ?_⟩
      simp only [digitsValue, List.foldl_cons, List.foldl_nil, digitByte_val]
      omega
    · simp only [natDigits, h10, if_false]
      obtain ⟨_, h2, h3⟩ := ih (n / 10) (by omega)
      refine ⟨by simp, by simp [h2, isDigit_digitByte], ?_⟩
      rw [digitsValue_append, h3]
      simp only [List.foldl_cons, List.foldl_nil, digitByte_val]
      omega

/-- Integers round-trip: the decimal text of an `int` is converted back to it. -/
theorem Atoi_decimal (n : Int) (hlo : minInt ≤ n) (hhi : n ≤ maxInt) :
    Atoi (decimal n) = some n := by
  rw [minInt_eq] at hlo
  rw [maxInt_eq] at hhi
  obtain ⟨h1, h2, h3⟩ := natDigits_spec (n.natAbs + 1) n.natAbs (by omega)
  by_cases hneg : n < 0
  · simp only [decimal, hneg, if_true]
    rw [Atoi_minus _ _ rfl h1 h2, h3, two_pow_intSize]
    have : n.natAbs ≤ 9223372036854775808 := by omega
    simp only [this, if_true]
    congr 1
    omega
  · simp only [decimal, hneg, if_false]
    rw [Atoi_unsigned _ h1 h2, h3, two_pow_intSize]
    have : n.natAbs < 9223372036854775808 := by omega
    simp only [this, if_true]
    congr 1
    omega

/-- The function `Atoi` fails exactly on the tokens that are not decimal
integers in the range of `int`. -/
theorem Atoi_eq_none_iff (t : GoString) : Atoi t = none ↔ isDecimalInt t = false := by
  cases t with
  | nil => simp [Atoi, isDecimalInt]
  | cons c r =>
    by_cases h45 : c.val = 45
    · by_cases hne : r = []
      · subst hne
        rw [Atoi_cons, if_pos (Or.inl h45)]
        simp [isDecimalInt, h45]
      · have hne' : r.isEmpty = false := by cases r <;> simp at hne ⊢
        by_cases hd : r.all isDigit = true
        · rw [Atoi_minus c r h45 hne hd, two_pow_intSize]
          simp only [isDecimalInt, h45, if_true, hne', hd, minInt_eq]
          by_cases hr : digitsValue r ≤ 9223372036854775808
          · have : (-9223372036854775808 : Int) ≤ -(digitsValue r : Int) := by omega
            simp [hr, this]
          · have : ¬ ((-9223372036854775808 : Int) ≤ -(digitsValue r : Int)) := by omega
            simp [hr, this]
        · have hd' : r.all isDigit = false := by simpa using hd
          rw [Atoi_not_digits c r (by rw [if_pos (Or.inl h45)]; exact hd')]
          simp only [isDecimalInt, h45, if_true, hd']
          simp
    · by_cases h43 : c.val = 43
      · by_cases hne : r = []
        · subst hne
          rw [Atoi_cons, if_pos (Or.inr h43)]
          simp [isDecimalInt, h45, h43]
        · have hne' : r.isEmpty = false := by cases r <;> simp at hne ⊢
          by_cases hd : r.all isDigit = true
          · rw [Atoi_plus c r h43 hne hd, two_pow_intSize]
            simp only [isDecimalInt, h45, h43, if_true, if_false, hne', hd, maxInt_eq]
            by_cases hr : digitsValue r < 9223372036854775808
            · have : ((digitsValue r : Int) ≤ 9223372036854775807) := by omega
              simp [hr, this]
            · have : ¬ ((digitsValue r : Int) ≤ 9223372036854775807) := by omega
              simp [hr, this]
          · have hd' : r.all isDigit = false := by simpa using hd
            rw [Atoi_not_digits c r (by rw [if_pos (Or.inr h43)]; exact hd')]
            simp only [isDecimalInt, h45, h43, if_true, if_false, hd']
            simp
      · have h4 : ¬ (c.val = 45 ∨ c.val = 43) := by omega
        by_cases hd : (c :: r).all isDigit = true
        · rw [Atoi_unsigned _ (by simp) hd, two_pow_intSize]
          simp only [isDecimalInt, h45, h43, if_false, hd, maxInt_eq]
          by_cases hr : digitsValue (c :: r) < 9223372036854775808
          · have : ((digitsValue (c :: r) : Int) ≤ 9223372036854775807) := by omega
            simp [hr, this]
          · have : ¬ ((digitsValue (c :: r) : Int) ≤ 9223372036854775807) := by omega
            simp [hr, this]
        · have hd' : (c :: r).all isDigit = false := by simpa using hd
          rw [Atoi_not_digits c r (by rw [if_neg h4]; exact hd')]
          simp only [isDecimalInt, h45, h43, if_false, hd']
          simp

/-! ## One flag and its value -/

theorem isLongFlag_two (c : Byte) : isLongFlag [(45 : Byte), c] = false := by
  simp [isLongFlag]

theorem argGroupOf_two (c : Byte) : argGroupOf [(45 : Byte), c] = [byteToString c] := by
  rw [argGroupOf_short _ (isLongFlag_two c)]; rfl

theorem isFlagToken_two (c : Byte) : isFlagToken [(45 : Byte), c] = true :=
  isFlagToken_dash [c] (by simp)

/-- Tokens that are not flag tokens are appended to the positional list. -/
theorem parseTokens_positionals :
    ∀ (rest : List GoString) (s : State), (∀ r ∈ rest, isFlagToken r = false) →
      parseTokens rest false s = (none, { s with otherArg := s.otherArg ++ rest }) := by
  intro rest
  induction rest with
  | nil => intro s _; rw [parseTokens_nil]; simp
  | cons v rest ih =>
    intro s hr
    rw [parseTokens_positional rest s (hr v (List.mem_cons_self _ _)),
      ih _ (fun r h => hr r (List.mem_cons_of_mem _ h))]
    simp

/-- A token `-c` whose option is value-requiring, followed by a token that
converts: the value is stored and the token after it is parsed next. -/
theorem parseTokens_value (s : State) (hty : ∀ e ∈ s.argMap, typedItem s.heap e.2 = true)
    (c : Byte) (t : GoString) (rest : List GoString) (ai : ArgItem) (w : Val)
    (hl : mapLookup s.argMap (byteToString c) = some ai) (hv : ai.Typ ≠ "bool")
    (hc : convert ai.Typ t = some w) :
    parseTokens ([(45 : Byte), c] :: t :: rest) false s
      = parseTokens rest false { s with heap := s.heap.set ai.Value w } := by
  have hta : typedItem s.heap ai = true := hty _ (mapLookup_mem hl)
  have hset : Value.Set s.heap ai.Value t = some (s.heap.set ai.Value w) := by
    rw [Set_eq_convert t hta, hc]; rfl
  have hg : groupTokens s.argMap (argGroupOf [(45 : Byte), c]) false (t :: rest).head? s.heap
      = (none, true, s.heap.set ai.Value w) := by
    rw [argGroupOf_two]
    simp only [List.head?_cons]
    rw [groupTokens_value s.argMap [] s.heap hl hv hset, groupTokens_nil]
  rw [parseTokens_flag_ok (t :: rest) s (isFlagToken_two c) hg, parseTokens_skip]

/-- A token `-c` whose option is value-requiring, followed by a token that
does not convert: `BadValue`, and the state is as before. -/
theorem parseTokens_bad (s : State) (hty : ∀ e ∈ s.argMap, typedItem s.heap e.2 = true)
    (c : Byte) (t : GoString) (rest : List GoString) (ai : ArgItem)
    (hl : mapLookup s.argMap (byteToString c) = some ai) (hv : ai.Typ ≠ "bool")
    (hc : convert ai.Typ t = none) :
    parseTokens ([(45 : Byte), c] :: t :: rest) false s
      = (some (ParseError.BadValue t (byteToString c)), s) := by
  have hta : typedItem s.heap ai = true := hty _ (mapLookup_mem hl)
  have hset : Value.Set s.heap ai.Value t = none := by
    rw [Set_eq_convert t hta, hc]; rfl
  have hg : groupTokens s.argMap (argGroupOf [(45 : Byte), c]) false (t :: rest).head? s.heap
      = (some (ParseError.BadValue t (byteToString c)), true, s.heap) := by
    rw [argGroupOf_two]
    simp only [List.head?_cons]
    rw [groupTokens_bad s.argMap [] s.heap hl hv hset]
  rw [parseTokens_flag_error (t :: rest) s (isFlagToken_two c) hg]

theorem get_set_self {s : State} {name : GoString} {ai : ArgItem} (w : Val)
    (o : List GoString)
    (hl : mapLookup s.argMap name = some ai) (hta : typedItem s.heap ai = true) :
    State.get { s with heap := s.heap.set ai.Value w, otherArg := o } name = some w := by
  have : State.get { s with heap := s.heap.set ai.Value w, otherArg := o } name
      = (s.heap.set ai.Value w)[ai.Value]? :=
    State.get_eq (s := { s with heap := s.heap.set ai.Value w, otherArg := o }) hl
  rw [this, getElem?_set_self_of_typed w hta]

theorem get_set_other {s : State} {name k : GoString} {ai : ArgItem} (w : Val)
    (o : List GoString) (hn : (s.argMap.map (fun e => e.2.Value)).Nodup)
    (hl : mapLookup s.argMap name = some ai) (hk : k ≠ name) :
    State.get { s with heap := s.heap.set ai.Value w, otherArg := o } k = s.get k := by
  unfold State.get
  simp only
  cases hb : mapLookup s.argMap k with
  | none => rfl
  | some bi =>
    simp only
    rw [List.getElem?_set_ne (Ne.symm (cells_ne hn hb hl hk))]

theorem int_ne_bool : ("int" : String) ≠ "bool" := by decide

theorem string_ne_bool : ("string" : String) ≠ "bool" := by decide

theorem convert_int (t : GoString) : convert "int" t = (Atoi t).map Val.intVal := by
  simp [convert]

theorem convert_string (t : GoString) : convert "string" t = some (Val.stringVal t) := by
  simp [convert]

/-- C3 (integer values round-trip through parsing).  For every well-formed
registry, every one-byte flag `-c` whose name is declared Int (whatever its
current value) and every integer `n` in the range of `int`, `Parse` on
`-c`, the decimal text of `n` (which starts with `-` when `n` is negative) and
then tokens that are not flag tokens succeeds, the option holds `n`, and the
positional list gains exactly the trailing tokens. -/
theorem C3_int_round_trip (s : State) (hwf : s.WF) (prog : GoString) (c : Byte)
    (ai : ArgItem) (n : Int) (rest : List GoString)
    (hl : mapLookup s.argMap (byteToString c) = some ai) (hint : ai.Typ = "int")
    (hlo : minInt ≤ n) (hhi : n ≤ maxInt) (hrest : ∀ r ∈ rest, isFlagToken r = false) :
    ∃ s', Parse ([prog, [(45 : Byte), c], decimal n] ++ rest) s = some (none, s')
      ∧ s'.get (byteToString c) = some (Val.intVal n)
      ∧ s'.deref ai.Value = some (Val.intVal n)
      ∧ s'.otherArg = s.otherArg ++ rest := by
  obtain ⟨_, _, hty⟩ := hwf
  have hv : ai.Typ ≠ "bool" := by rw [hint]; exact int_ne_bool
  have hc : convert ai.Typ (decimal n) = some (Val.intVal n) := by
    rw [hint, convert_int, Atoi_decimal n hlo hhi]; rfl
  have hta : typedItem s.heap ai = true := hty _ (mapLookup_mem hl)
  refine ⟨{ s with heap := s.heap.set ai.Value (Val.intVal n), otherArg := s.otherArg ++ rest },
    ?_, get_set_self _ _ hl hta, ?_, rfl⟩
  · have : [prog, [(45 : Byte), c], decimal n] ++ rest
        = prog :: ([(45 : Byte), c] :: decimal n :: rest) := rfl
    rw [this, Parse_eq, parseTokens_value s hty c (decimal n) rest ai _ hl hv hc,
      parseTokens_positionals rest _ hrest]
  · exact getElem?_set_self_of_typed _ hta

/-- Witness of C3: `declareInt("p", -1, "limit")` and `-p 10 file.txt`. -/
theorem C3_int_round_trip_witness :
    ∃ s', Parse ([str "cat", str "-p", str "10"] ++ [str "file.txt"])
        (declareInt (str "p") (-1) (str "limit") State.init).2 = some (none, s')
      ∧ s'.get (str "p") = some (Val.intVal 10)
      ∧ s'.deref (declareInt (str "p") (-1) (str "limit") State.init).1 = some (Val.intVal 10)
      ∧ s'.otherArg = [] ++ [str "file.txt"] :=
  C3_int_round_trip (declareInt (str "p") (-1) (str "limit") State.init).2 (by decide)
    (str "cat") 112 ⟨"int", 0, str "limit"⟩ 10 [str "file.txt"] (by decide) (by decide)
    (by decide) (by decide) (by decide)

/-! ## String and integer values -/

/-- C4 (string values are taken by identity).  For every well-formed registry,
every one-byte flag `-c` whose name is declared String and every token `t`
whatever it looks like, `Parse` on `-c t` succeeds and changes only the cell of
the option, which holds `t`: the positional list and the registry are as
before and every other option keeps its value. -/
theorem C4_string_identity (s : State) (hwf : s.WF) (prog : GoString) (c : Byte)
    (ai : ArgItem) (t : GoString)
    (hl : mapLookup s.argMap (byteToString c) = some ai) (hs : ai.Typ = "string") :
    Parse [prog, [(45 : Byte), c], t] s
        = some (none, { s with heap := s.heap.set ai.Value (Val.stringVal t) })
      ∧ State.get { s with heap := s.heap.set ai.Value (Val.stringVal t) } (byteToString c)
          = some (Val.stringVal t)
      ∧ ∀ k, k ≠ byteToString c →
          State.get { s with heap := s.heap.set ai.Value (Val.stringVal t) } k = s.get k := by
  obtain ⟨_, hn, hty⟩ := hwf
  have hv : ai.Typ ≠ "bool" := by rw [hs]; exact string_ne_bool
  have hc : convert ai.Typ t = some (Val.stringVal t) := by rw [hs, convert_string]
  have hta : typedItem s.heap ai = true := hty _ (mapLookup_mem hl)
  refine ⟨?_, get_set_self _ s.otherArg hl hta, fun k hk => get_set_other _ s.otherArg hn hl hk⟩
  rw [Parse_eq, parseTokens_value s hty c t [] ai _ hl hv hc, parseTokens_nil]

/-- Witness of C4: the value `-v` of the string option `s` names the registered
boolean flag `v`, which stays false. -/
theorem C4_string_identity_witness :
    svState.WF ∧
    Parse [str "prog", str "-s", str "-v"] svState
        = some (none, { svState with heap := svState.heap.set 0 (Val.stringVal (str "-v")) })
      ∧ State.get { svState with heap := svState.heap.set 0 (Val.stringVal (str "-v")) } (str "s")
          = some (Val.stringVal (str "-v"))
      ∧ State.get { svState with heap := svState.heap.set 0 (Val.stringVal (str "-v")) } (str "v")
          = some (Val.boolVal false) :=
  have h := C4_string_identity svState (by decide) (str "prog") 115
    ⟨"string", 0, str "suffix"⟩ (str "-v") (by decide) (by decide)
  ⟨by decide, h.1, h.2.1, (h.2.2 (str "v") (by decide)).trans (by decide)⟩

/-- C9 (a value that is not an integer).  For every well-formed registry, every
one-byte flag `-c` whose name is declared Int and every token `t` that is not a
decimal integer in the range of `int` (an optional sign, decimal digits, a
value from `minInt` to `maxInt`), `Parse` on `-c t` fails with `BadValue t c`,
naming the token and the flag, and leaves the whole state, the value of the
option included, as it was. -/
theorem C9_bad_int_value (s : State) (hwf : s.WF) (prog : GoString) (c : Byte)
    (ai : ArgItem) (t : GoString)
    (hl : mapLookup s.argMap (byteToString c) = some ai) (hint : ai.Typ = "int")
    (ht : isDecimalInt t = false) :
    Parse [prog, [(45 : Byte), c], t] s
      = some (some (ParseError.BadValue t (byteToString c)), s) := by
  obtain ⟨_, _, hty⟩ := hwf
  have hv : ai.Typ ≠ "bool" := by rw [hint]; exact int_ne_bool
  have hc : convert ai.Typ t = none := by
    rw [hint, convert_int, (Atoi_eq_none_iff t).mpr ht]; rfl
  rw [Parse_eq, parseTokens_bad s hty c t [] ai hl hv hc]

/-- Witness of C9: `-p abc` with `p` declared Int. -/
theorem C9_bad_int_value_witness :
    isDecimalInt (str "abc") = false ∧ isDecimalInt (str "") = false
      ∧ isDecimalInt (str "1.5") = false ∧ isDecimalInt (str "10x") = false
      ∧ isDecimalInt (str "9223372036854775808") = false
      ∧ Parse [str "cat", str "-p", str "abc"] catState
        = some (some (ParseError.BadValue (str "abc") (str "p")), catState) :=
  ⟨by decide, by decide, by decide, by decide, by decide,
    C9_bad_int_value catState (by decide) (str "cat") 112 ⟨"int", 3, str "输出 n 行"⟩
      (str "abc") (by decide) (by decide) (by decide)⟩

/-! ## Boolean flags only -/

/-- Flag tokens naming only registered boolean flags: no error, and the heap is
known cell by cell. -/
theorem parseTokens_bools :
    ∀ (toks : List GoString) (s : State),
      (∀ e ∈ s.argMap, typedItem s.heap e.2 = true) →
      (∀ v ∈ toks, isFlagToken v = true) →
      (∀ v ∈ toks, ∀ a ∈ argGroupOf v, isBoolFlag s.argMap a = true) →
      ∃ h', parseTokens toks false s = (none, { s with heap := h' }) ∧
        ∀ q, h'[q]? =
          if q ∈ cellsOf s.argMap (toks.flatMap argGroupOf) then some (Val.boolVal true)
          else s.heap[q]? := by
  intro toks
  induction toks with
  | nil =>
    intro s _ _ _
    exact ⟨s.heap, by rw [parseTokens_nil], by simp [cellsOf]⟩
  | cons v rest ih =>
    intro s hty hf hb
    obtain ⟨h1, he1, hq1⟩ := groupTokens_bools s.argMap rest.head? (argGroupOf v) false s.heap hty
      (hb v (List.mem_cons_self _ _))
    have hst : sameTyping s.heap h1 := by
      have := groupTokens_sameTyping s.argMap rest.head? (argGroupOf v) false s.heap hty
      rw [he1] at this; exact this
    obtain ⟨h2, he2, hq2⟩ := ih { s with heap := h1 } (typed_of_sameTyping hst hty)
      (fun x hx => hf x (List.mem_cons_of_mem _ hx))
      (fun x hx => hb x (List.mem_cons_of_mem _ hx))
    refine ⟨h2, ?_, ?_⟩
    · rw [parseTokens_flag_ok rest s (hf v (List.mem_cons_self _ _)) he1, he2]
    · intro q
      rw [hq2 q]
      simp only [List.flatMap_cons, cellsOf_append, List.mem_append]
      rw [hq1 q]
      by_cases h1' : q ∈ cellsOf s.argMap (argGroupOf v) <;>
        by_cases h2' : q ∈ cellsOf s.argMap (rest.flatMap argGroupOf) <;> simp [h1', h2']

/-- C5 (boolean flags only).  For every well-formed registry and every token
list made only of flag tokens (short groups or long flags) whose resolved names
are all registered boolean flags, `Parse` succeeds, every flag resolved
anywhere in the input is true afterwards, whatever its value before and
however often or in whatever order it is given, and the positional list and the
registry are as before (so the positional list is empty if it was). -/
theorem C5_boolean_flags_only (s : State) (hwf : s.WF) (prog : GoString)
    (toks : List GoString)
    (hflag : ∀ v ∈ toks, isFlagToken v = true)
    (hbool : ∀ v ∈ toks, ∀ a ∈ argGroupOf v, isBoolFlag s.argMap a = true) :
    ∃ s', Parse (prog :: toks) s = some (none, s')
      ∧ (∀ v ∈ toks, ∀ a ∈ argGroupOf v, s'.get a = some (Val.boolVal true))
      ∧ s'.otherArg = s.otherArg
      ∧ s'.argMap = s.argMap := by
  obtain ⟨_, _, hty⟩ := hwf
  obtain ⟨h', he, hq⟩ := parseTokens_bools toks s hty hflag hbool
  refine ⟨{ s with heap := h' }, by rw [Parse_eq, he], ?_, rfl, rfl⟩
  intro v hv a ha
  obtain ⟨ai, hl, _⟩ := isBoolFlag_iff.mp (hbool v hv a ha)
  have hget : State.get { s with heap := h' } a = h'[ai.Value]? :=
    State.get_eq (s := { s with heap := h' }) hl
  rw [hget, hq]
  have : ai.Value ∈ cellsOf s.argMap (toks.flatMap argGroupOf) :=
    mem_cellsOf.mpr ⟨a, List.mem_flatMap.mpr ⟨v, hv, ha⟩, ai, hl, rfl⟩
  simp [this]

/-- Witness of C5: `-nf --help -n -h` on the registry of `examples/cat.go`. -/
theorem C5_boolean_flags_only_witness :
    ∃ s', Parse (str "cat" :: [str "-nf", str "--help", str "-n", str "-h"]) catState
        = some (none, s')
      ∧ (∀ v ∈ [str "-nf", str "--help", str "-n", str "-h"], ∀ a ∈ argGroupOf v,
          s'.get a = some (Val.boolVal true))
      ∧ s'.otherArg = catState.otherArg
      ∧ s'.argMap = catState.argMap :=
  C5_boolean_flags_only catState (by decide) (str "cat")
    [str "-nf", str "--help", str "-n", str "-h"] (by decide) (by decide)

/-! ## Errors: unrecognized flags, conflicts, missing values -/

/-- C6 (unrecognized flags fail without rollback).  For every registry and
token list: if the tokens before a flag token parse without error, reaching
state `s1`, and in the group of that token the loop over the names before `z`
returns no error, leaving heap `h1`, and `z` is absent from the registry, then
`Parse` fails with `UnrecognizedFlag z` in the state `s1` with heap `h1`:
everything applied before `z`, in earlier tokens and earlier in the group, is
kept, and neither the names after `z` nor the later tokens have any effect. -/
theorem C6_unrecognized_flag (s s1 : State) (prog : GoString) (pre post : List GoString)
    (tok : GoString) (g1 g2 : List GoString) (z : GoString) (i1 : Nat) (h1 : List Val)
    (hpre : Parse (prog :: pre) s = some (none, s1))
    (htok : isFlagToken tok = true) (hg : argGroupOf tok = g1 ++ z :: g2)
    (hg1 : Parse.group s1.argMap (prog :: (pre ++ tok :: post)) g1 false (pre.length + 1) s1.heap
      = (none, i1, h1))
    (hz : mapLookup s.argMap z = none) :
    Parse (prog :: (pre ++ tok :: post)) s
      = some (some (ParseError.UnrecognizedFlag z), { s1 with heap := h1 }) := by
  have hm : s1.argMap = s.argMap := by
    rw [Parse_eq] at hpre
    have := parseTokens_argMap pre false s
    rw [Option.some.inj hpre] at this
    exact this
  obtain ⟨i', he, _⟩ := group_eq s1.argMap (prog :: (pre ++ tok :: post)) g1 (pre.length + 1) s1.heap
  have hnx : (prog :: (pre ++ tok :: post))[pre.length + 1 + 1]? = post.head? := by
    simp [List.getElem?_append_right, List.head?_eq_getElem?]
  rw [hnx, hg1] at he
  have he1 : (groupTokens s1.argMap g1 false post.head? s1.heap).1 = none :=
    (congrArg Prod.fst he).symm
  have he2 : (groupTokens s1.argMap g1 false post.head? s1.heap).2.2 = h1 :=
    (congrArg (fun r => r.2.2) he).symm
  have hz1 : mapLookup s1.argMap z = none := by rw [hm]; exact hz
  have hgrp : groupTokens s1.argMap (argGroupOf tok) false post.head? s1.heap
      = (some (ParseError.UnrecognizedFlag z),
          (groupTokens s1.argMap g1 false post.head? s1.heap).2.1, h1) := by
    rw [hg, groupTokens_append, if_pos he1, groupTokens_unknown s1.argMap g2 _ _ _ hz1, he2]
  rw [Parse_append (tok :: post) hpre, parseTokens_flag_error post s1 htok hgrp]

/-- Witness of C6: `-xyz` with `x` and `y` boolean and `z` undeclared fails
naming `z`, and `x` and `y` are true. -/
theorem C6_unrecognized_flag_witness :
    Parse (str "prog" :: ([] ++ str "-xyz" :: [])) xyState
        = some (some (ParseError.UnrecognizedFlag (str "z")),
            { xyState with heap := [Val.boolVal true, Val.boolVal true] })
      ∧ State.get { xyState with heap := [Val.boolVal true, Val.boolVal true] } (str "x")
          = some (Val.boolVal true)
      ∧ State.get { xyState with heap := [Val.boolVal true, Val.boolVal true] } (str "y")
          = some (Val.boolVal true)
      ∧ xyState.get (str "x") = some (Val.boolVal false) :=
  ⟨C6_unrecognized_flag xyState xyState (str "prog") [] [] (str "-xyz") [str "x", str "y"] []
      (str "z") 1 [Val.boolVal true, Val.boolVal true] (by decide) (by decide) (by decide)
      (by decide) (by decide),
    by decide, by decide, by decide⟩

/-- A group of registered names with a second value-requiring name: once the
first one has read its value, the second one is a conflict. -/
theorem groupTokens_conflict_of_two (m : List (GoString × ArgItem)) (t : GoString) :
    ∀ (g : List GoString) (rn : Bool) (h : List Val),
      (∀ e ∈ m, typedItem h e.2 = true) →
      (∀ a ∈ g, mapLookup m a ≠ none) →
      2 ≤ (if rn then 1 else 0) + g.countP (isValueFlag m) →
      (rn = false → ∀ p ai, g.find? (isValueFlag m) = some p → mapLookup m p = some ai →
        convert ai.Typ t ≠ none) →
      (groupTokens m g rn (some t) h).1 = some ParseError.ConflictingValueFlags := by
  intro g
  induction g with
  | nil => intro rn h _ _ h2 _; cases rn <;> simp at h2
  | cons a g ih =>
    intro rn h hty hreg h2 hconv
    obtain ⟨ai, hl⟩ := Option.ne_none_iff_exists'.mp (hreg a (List.mem_cons_self _ _))
    have hta : typedItem h ai = true := hty _ (mapLookup_mem hl)
    have hreg' : ∀ x ∈ g, mapLookup m x ≠ none := fun x hx => hreg x (List.mem_cons_of_mem _ hx)
    by_cases hb : ai.Typ = "bool"
    · have hva : isValueFlag m a = false := by simp [isValueFlag, hl, hb]
      rw [groupTokens_bool m g rn (some t) h hl hb, Set_true hta hb]
      have hst : sameTyping h (h.set ai.Value (Val.boolVal true)) :=
        fun bi => typedItem_set_convert hta (convert_bool_true hb) bi
      apply ih rn _ (typed_of_sameTyping hst hty) hreg'
      · simpa [List.countP_cons, hva] using h2
      · intro hrn p pi hf
        exact hconv hrn p pi (by simpa [List.find?_cons, hva] using hf)
    · have hva : isValueFlag m a = true := by simp [isValueFlag, hl, hb]
      cases rn with
      | true => rw [groupTokens_conflict m g (some t) h hl hb]
      | false =>
        have hc := hconv rfl a ai (by simp [List.find?_cons, hva]) hl
        obtain ⟨w, hw⟩ := Option.ne_none_iff_exists'.mp hc
        have hset : Value.Set h ai.Value t = some (h.set ai.Value w) := by
          rw [Set_eq_convert t hta, hw]; rfl
        rw [groupTokens_value m g h hl hb hset]
        have hst : sameTyping h (h.set ai.Value w) :=
          fun bi => typedItem_set_convert hta hw bi
        apply ih true _ (typed_of_sameTyping hst hty) hreg'
        · have h3 : 2 ≤ 0 + (g.countP (isValueFlag m) + 1) := by
            simpa [List.countP_cons, hva] using h2
          simp only [if_true]
          omega
        · intro hrn; cases hrn

/-- C7, as the code has it (two value-requiring flags in one group).  For every
well-formed registry and every short-flag-group token, reached after tokens
parsed without error, whose names are all registered and which contains two or
more value-requiring names, and which is followed by a token that converts to
the kind of the first value-requiring name `p`: `Parse` fails with
`ConflictingValueFlags`; the positional list is the one reached before the
token. -/
theorem C7_conflicting_value_flags (s s1 : State) (hwf : s.WF) (prog : GoString)
    (pre rest : List GoString) (cs : List Byte) (t : GoString)
    (hpre : Parse (prog :: pre) s = some (none, s1))
    (hshort : isLongFlag ((45 : Byte) :: cs) = false)
    (hreg : ∀ b ∈ cs, mapLookup s.argMap (byteToString b) ≠ none)
    (htwo : 2 ≤ (cs.map byteToString).countP (isValueFlag s.argMap))
    (p : GoString) (ai : ArgItem)
    (hfirst : (cs.map byteToString).find? (isValueFlag s.argMap) = some p)
    (hl : mapLookup s.argMap p = some ai) (hconv : convert ai.Typ t ≠ none) :
    ∃ s', Parse (prog :: (pre ++ ((45 : Byte) :: cs) :: t :: rest)) s
        = some (some ParseError.ConflictingValueFlags, s')
      ∧ s'.otherArg = s1.otherArg ∧ s'.argMap = s.argMap := by
  obtain ⟨hwf1, hm⟩ := Parse_WF hpre hwf
  obtain ⟨_, _, hty1⟩ := hwf1
  have hne : cs ≠ [] := by
    intro h; subst h; simp at htwo
  have hflag : isFlagToken ((45 : Byte) :: cs) = true := isFlagToken_dash cs hne
  have hcon := groupTokens_conflict_of_two s1.argMap t (cs.map byteToString) false s1.heap hty1
    (by
      intro a ha
      obtain ⟨b, hb, rfl⟩ := List.mem_map.mp ha
      rw [hm]; exact hreg b hb)
    (by rw [hm]; simpa using htwo)
    (by
      intro _ p' ai' hf hl'
      rw [hm] at hf hl'
      rw [hfirst] at hf
      cases hf
      rw [hl] at hl'
      cases hl'
      exact hconv)
  cases hg : groupTokens s1.argMap (cs.map byteToString) false (some t) s1.heap with
  | mk e r =>
    obtain ⟨rn, h'⟩ := r
    rw [hg] at hcon
    simp only at hcon
    subst hcon
    have hg' : groupTokens s1.argMap (argGroupOf ((45 : Byte) :: cs)) false (t :: rest).head?
        s1.heap = (some ParseError.ConflictingValueFlags, rn, h') := by
      rw [argGroupOf_short cs hshort]; exact hg
    refine ⟨{ s1 with heap := h' }, ?_, rfl, hm⟩
    rw [Parse_append _ hpre, parseTokens_flag_error (t :: rest) s1 hflag hg']

/-- Witness of C7 as amended: `declareInt("p",0,"u1"); declareInt("q",0,"u1")`
and the arguments `-pq 5`. -/
theorem C7_conflicting_value_flags_witness :
    ∃ s', Parse (str "prog" :: ([] ++ str "-pq" :: str "5" :: [])) pqState
        = some (some ParseError.ConflictingValueFlags, s')
      ∧ s'.otherArg = pqState.otherArg ∧ s'.argMap = pqState.argMap :=
  C7_conflicting_value_flags pqState pqState (by decide) (str "prog") [] [] [112, 113]
    (str "5") (by decide) (by decide) (by decide) (by decide) (str "p")
    ⟨"int", 0, str "u1"⟩ (by decide) (by decide) (by decide)

/-- C7 as stated fails: with `p` and `q` declared Int, the group `-pq` with no
token after it has all its names registered and two value-requiring names, and
`Parse` fails with `MissingValue p`, not with `ConflictingValueFlags`. -/
theorem C7_counterexample :
    pqState.WF
      ∧ isLongFlag (str "-pq") = false
      ∧ (∀ a ∈ argGroupOf (str "-pq"), mapLookup pqState.argMap a ≠ none)
      ∧ (argGroupOf (str "-pq")).countP (isValueFlag pqState.argMap) = 2
      ∧ Parse [str "prog", str "-pq"] pqState
          = some (some (ParseError.MissingValue (str "p")), pqState)
      ∧ ¬ ∃ s', Parse [str "prog", str "-pq"] pqState
          = some (some ParseError.ConflictingValueFlags, s') := by
  refine ⟨by decide, by decide, by decide, by decide, by decide, ?_⟩
  rintro ⟨s', hs⟩
  have h : Parse [str "prog", str "-pq"] pqState
      = some (some (ParseError.MissingValue (str "p")), pqState) := by decide
  rw [h] at hs
  cases hs

/-- C8 (a value-requiring flag with no token after it).  For every well-formed
registry and every token list whose last token is a flag token, reached after
tokens parsed without error, in which every name before `p` is a registered
boolean flag and `p` is registered and value-requiring: `Parse` fails with
`MissingValue p`, and `p` has the value it had before that token; the
positional list and the registry are those reached before the token. -/
theorem C8_missing_value (s s1 : State) (hwf : s.WF) (prog : GoString)
    (pre : List GoString) (tok : GoString) (g1 g2 : List GoString) (p : GoString)
    (hpre : Parse (prog :: pre) s = some (none, s1))
    (htok : isFlagToken tok = true) (hg : argGroupOf tok = g1 ++ p :: g2)
    (hg1 : ∀ a ∈ g1, isBoolFlag s.argMap a = true)
    (hp : isValueFlag s.argMap p = true) :
    ∃ s', Parse (prog :: (pre ++ [tok])) s = some (some (ParseError.MissingValue p), s')
      ∧ s'.get p = s1.get p
      ∧ s'.otherArg = s1.otherArg ∧ s'.argMap = s.argMap := by
  obtain ⟨hwf1, hm⟩ := Parse_WF hpre hwf
  obtain ⟨_, _, hty1⟩ := hwf1
  rw [← hm] at hg1 hp
  obtain ⟨ai, hl, hv⟩ := isValueFlag_iff.mp hp
  obtain ⟨h1, he1, hq1⟩ := groupTokens_bools s1.argMap none g1 false s1.heap hty1 hg1
  have hgrp : groupTokens s1.argMap (argGroupOf tok) false ([] : List GoString).head? s1.heap
      = (some (ParseError.MissingValue p), true, h1) := by
    rw [List.head?_nil, hg, groupTokens_append, he1]
    simp only [if_true]
    rw [groupTokens_missing s1.argMap g2 h1 hl hv]
  refine ⟨{ s1 with heap := h1 }, ?_, ?_, rfl, hm⟩
  · rw [Parse_append _ hpre, parseTokens_flag_error [] s1 htok hgrp]
  · have hget : State.get { s1 with heap := h1 } p = h1[ai.Value]? :=
      State.get_eq (s := { s1 with heap := h1 }) hl
    rw [hget, State.get_eq hl, hq1]
    simp [not_mem_cellsOf_bools hty1 hg1 hl hv]

/-- Witness of C8: the arguments `-p` alone, `p` declared Int. -/
theorem C8_missing_value_witness :
    ∃ s', Parse (str "cat" :: ([] ++ [str "-p"])) catState
        = some (some (ParseError.MissingValue (str "p")), s')
      ∧ s'.get (str "p") = catState.get (str "p")
      ∧ s'.otherArg = catState.otherArg ∧ s'.argMap = catState.argMap :=
  C8_missing_value catState catState (by decide) (str "cat") [] (str "-p") [] [] (str "p")
    (by decide) (by decide) (by decide) (by decide) (by decide)

/-! ## Value-requiring flags in separate tokens -/

theorem flagValueTokens_cons (c : Byte) (v : GoString) (ps : List (Byte × GoString)) :
    flagValueTokens ((c, v) :: ps) = [(45 : Byte), c] :: v :: flagValueTokens ps := by
  simp [flagValueTokens]

/-- Each flag of a list `-c1 v1 -c2 v2 ...` reads its own value: no error, the
last value given to a name is the one it holds, names not given keep theirs. -/
theorem parseTokens_pairs :
    ∀ (pairs : List (Byte × GoString)) (s : State),
      (∀ e ∈ s.argMap, typedItem s.heap e.2 = true) →
      (s.argMap.map (fun e => e.2.Value)).Nodup →
      (∀ e ∈ pairs, isValueFlag s.argMap (byteToString e.1) = true
        ∧ (convertsFor s.argMap (byteToString e.1) e.2).isSome = true) →
      ∃ h', parseTokens (flagValueTokens pairs) false s = (none, { s with heap := h' })
        ∧ (∀ l1 c v l2, pairs = l1 ++ (c, v) :: l2 →
            (∀ e ∈ l2, byteToString e.1 ≠ byteToString c) →
            State.get { s with heap := h' } (byteToString c)
              = convertsFor s.argMap (byteToString c) v)
        ∧ (∀ name, (∀ e ∈ pairs, byteToString e.1 ≠ name) →
            State.get { s with heap := h' } name = s.get name) := by
  intro pairs
  induction pairs with
  | nil =>
    intro s _ _ _
    refine ⟨s.heap, by simp [flagValueTokens, parseTokens_nil], ?_, fun _ _ => rfl⟩
    intro l1 c v l2 h
    simp at h
  | cons e ps ih =>
    intro s hty hn hp
    obtain ⟨c, v⟩ := e
    obtain ⟨hvf, hcv⟩ := hp (c, v) (List.mem_cons_self _ _)
    obtain ⟨ai, hl, hv⟩ := isValueFlag_iff.mp hvf
    have hcf : convertsFor s.argMap (byteToString c) v = convert ai.Typ v := by
      simp [convertsFor, hl]
    obtain ⟨w, hw⟩ := Option.isSome_iff_exists.mp hcv
    have hw' : convert ai.Typ v = some w := by rw [← hcf]; exact hw
    have hta : typedItem s.heap ai = true := hty _ (mapLookup_mem hl)
    have hst : sameTyping s.heap (s.heap.set ai.Value w) :=
      fun bi => typedItem_set_convert hta hw' bi
    obtain ⟨h', he, hlast, hframe⟩ := ih { s with heap := s.heap.set ai.Value w }
      (typed_of_sameTyping hst hty) hn (fun x hx => hp x (List.mem_cons_of_mem _ hx))
    refine ⟨h', ?_, ?_, ?_⟩
    · rw [flagValueTokens_cons, parseTokens_value s hty c v _ ai w hl hv hw', he]
    · intro l1 c' v' l2 hsplit hl2
      cases l1 with
      | nil =>
        simp only [List.nil_append, List.cons.injEq, Prod.mk.injEq] at hsplit
        obtain ⟨⟨hc, hv'⟩, hps⟩ := hsplit
        subst hc hv' hps
        have h1 := hframe (byteToString c) hl2
        have h2 := get_set_self w s.otherArg hl hta
        rw [hcf, hw']
        exact h1.trans h2
      | cons e' l1' =>
        simp only [List.cons_append, List.cons.injEq] at hsplit
        exact hlast l1' c' v' l2 hsplit.2 hl2
    · intro name hname
      have h1 := hframe name (fun x hx => hname x (List.mem_cons_of_mem _ hx))
      have hk : name ≠ byteToString c := fun h => hname (c, v) (List.mem_cons_self _ _) h.symm
      have h2 := get_set_other w s.otherArg hn hl hk
      exact h1.trans h2

/-- C10 (the one-value-flag restriction is per flag token).  For every
well-formed registry and every list of one-byte flags with values
`-c1 v1 -c2 v2 ...` (for two flags: `-p v -q w`, the names equal or distinct),
each name registered and value-requiring and each value converting to the kind
of its flag: `Parse` succeeds, every name holds the conversion of the last value
given to it (so with distinct names both options are set), names that are not
given keep their value, and the positional list and the registry are as
before. -/
theorem C10_value_flags_in_separate_tokens (s : State) (hwf : s.WF) (prog : GoString)
    (pairs : List (Byte × GoString))
    (hp : ∀ e ∈ pairs, isValueFlag s.argMap (byteToString e.1) = true
      ∧ (convertsFor s.argMap (byteToString e.1) e.2).isSome = true) :
    ∃ s', Parse (prog :: flagValueTokens pairs) s = some (none, s')
      ∧ s'.otherArg = s.otherArg ∧ s'.argMap = s.argMap
      ∧ (∀ l1 c v l2, pairs = l1 ++ (c, v) :: l2 →
          (∀ e ∈ l2, byteToString e.1 ≠ byteToString c) →
          s'.get (byteToString c) = convertsFor s.argMap (byteToString c) v)
      ∧ (∀ name, (∀ e ∈ pairs, byteToString e.1 ≠ name) → s'.get name = s.get name) := by
  obtain ⟨_, hn, hty⟩ := hwf
  obtain ⟨h', he, hlast, hframe⟩ := parseTokens_pairs pairs s hty hn hp
  exact ⟨{ s with heap := h' }, by rw [Parse_eq, he], rfl, rfl, hlast, hframe⟩

/-- Witness of C10: `-p 10 -q 20` with `p` and `q` declared Int gives
`p == 10` and `q == 20`. -/
theorem C10_value_flags_in_separate_tokens_witness :
    ∃ s', Parse [str "prog", str "-p", str "10", str "-q", str "20"] pqState = some (none, s')
      ∧ s'.get (str "p") = some (Val.intVal 10)
      ∧ s'.get (str "q") = some (Val.intVal 20)
      ∧ s'.otherArg = [] := by
  obtain ⟨s', h, ho, _, hv, _⟩ := C10_value_flags_in_separate_tokens pqState (by decide)
    (str "prog") [(112, str "10"), (113, str "20")] (by decide)
  refine ⟨s', h, ?_, ?_, ho⟩
  · exact (hv [] 112 (str "10") [(113, str "20")] rfl (by decide)).trans (by decide)
  · exact (hv [(112, str "10")] 113 (str "20") [] rfl (by decide)).trans (by decide)

/-! ## What parsing leaves alone -/

/-- A successful `Set` writes the cell it is given and no other. -/
theorem Set_frame {h h' : List Val} {p : Nat} {t : GoString}
    (hs : Value.Set h p t = some h') (q : Nat) (hq : q ≠ p) : h'[q]? = h[q]? := by
  unfold Value.Set at hs
  cases hp : h[p]? with
  | none => simp [hp] at hs
  | some v =>
    cases v with
    | boolVal b =>
      simp only [hp] at hs
      cases hb : ParseBool t with
      | none => simp [hb] at hs
      | some r =>
        simp only [hb, Option.some.injEq] at hs
        rw [← hs, List.getElem?_set_ne (Ne.symm hq)]
    | intVal n =>
      simp only [hp] at hs
      cases hb : Atoi t with
      | none => simp [hb] at hs
      | some r =>
        simp only [hb, Option.some.injEq] at hs
        rw [← hs, List.getElem?_set_ne (Ne.symm hq)]
    | stringVal x =>
      simp only [hp, Option.some.injEq] at hs
      rw [← hs, List.getElem?_set_ne (Ne.symm hq)]

theorem Set_getD_frame (h : List Val) (p : Nat) (t : GoString) (q : Nat) (hq : q ≠ p) :
    ((Value.Set h p t).getD h)[q]? = h[q]? := by
  cases hs : Value.Set h p t with
  | none => rfl
  | some h' => exact Set_frame hs q hq

/-- The loop over a group changes no cell but those of the names it looks up. -/
theorem groupTokens_frame (m : List (GoString × ArgItem)) (nx : Option GoString) (q : Nat) :
    ∀ (g : List GoString) (rn : Bool) (h : List Val),
      q ∉ cellsOf m (groupNames m g rn nx h) →
      (groupTokens m g rn nx h).2.2[q]? = h[q]? := by
  intro g
  induction g with
  | nil => intro rn h _; rfl
  | cons a g ih =>
    intro rn h hq
    cases hl : mapLookup m a with
    | none => rw [groupTokens_unknown m g rn nx h hl]
    | some ai =>
      by_cases hb : ai.Typ = "bool"
      · rw [groupTokens_bool m g rn nx h hl hb]
        have hn : groupNames m (a :: g) rn nx h
            = a :: groupNames m g rn nx ((Value.Set h ai.Value (str "true")).getD h) := by
          simp [groupNames, hl, hb]
        rw [hn, cellsOf_cons _ hl] at hq
        simp only [List.mem_cons, not_or] at hq
        rw [ih _ _ hq.2, Set_getD_frame _ _ _ _ hq.1]
      · cases rn with
        | true => rw [groupTokens_conflict m g nx h hl hb]
        | false =>
          cases nx with
          | none => rw [groupTokens_missing m g h hl hb]
          | some t =>
            cases hs : Value.Set h ai.Value t with
            | none => rw [groupTokens_bad m g h hl hb hs]
            | some h' =>
              rw [groupTokens_value m g h hl hb hs]
              have hn : groupNames m (a :: g) false (some t) h
                  = a :: groupNames m g true (some t) h' := by
                simp [groupNames, hl, hb, hs]
              rw [hn, cellsOf_cons _ hl] at hq
              simp only [List.mem_cons, not_or] at hq
              rw [ih _ _ hq.2, Set_frame hs q hq.1]

/-- Parsing changes no cell but those of the names it resolves. -/
theorem parseTokens_frame (q : Nat) :
    ∀ (toks : List GoString) (sk : Bool) (s : State),
      q ∉ cellsOf s.argMap (parseNames toks sk s) →
      (parseTokens toks sk s).2.heap[q]? = s.heap[q]? := by
  intro toks
  induction toks with
  | nil => intro sk s _; rw [parseTokens_nil]
  | cons v rest ih =>
    intro sk s hq
    cases sk with
    | true =>
      rw [parseTokens_skip]
      exact ih false s hq
    | false =>
      by_cases hv : isFlagToken v = true
      · cases hg : groupTokens s.argMap (argGroupOf v) false rest.head? s.heap with
        | mk e r =>
          obtain ⟨rn, h'⟩ := r
          have hfr := groupTokens_frame s.argMap rest.head? q (argGroupOf v) false s.heap
          rw [hg] at hfr
          cases e with
          | some e =>
            rw [parseTokens_flag_error rest s hv hg]
            have hn : parseNames (v :: rest) false s
                = groupNames s.argMap (argGroupOf v) false rest.head? s.heap ++ [] := by
              simp [parseNames, hv, hg]
            rw [hn, List.append_nil] at hq
            exact hfr hq
          | none =>
            rw [parseTokens_flag_ok rest s hv hg]
            have hn : parseNames (v :: rest) false s
                = groupNames s.argMap (argGroupOf v) false rest.head? s.heap
                  ++ parseNames rest rn { s with heap := h' } := by
              simp [parseNames, hv, hg]
            rw [hn, cellsOf_append] at hq
            simp only [List.mem_append, not_or] at hq
            rw [ih rn { s with heap := h' } hq.2]
            exact hfr hq.1
      · have hv' : isFlagToken v = false := by simpa using hv
        rw [parseTokens_positional rest s hv']
        have hn : parseNames (v :: rest) false s
            = parseNames rest false { s with otherArg := s.otherArg ++ [v] } := by
          simp [parseNames, hv']
        rw [hn] at hq
        exact ih false _ hq

/-- C11 (what `Parse` changes).  For every well-formed registry and token
list, whether `Parse` succeeds or fails: the registry (the names, the type and
the usage of each entry, its cell) is as before; no cell changes but those of
the names resolved as flags during the parse; and every option whose name is
never resolved holds the value it had before, whatever its usage text. -/
theorem C11_parse_frame (s s' : State) (hwf : s.WF) (prog : GoString) (toks : List GoString)
    (e : Option ParseError) (hp : Parse (prog :: toks) s = some (e, s')) :
    s'.argMap = s.argMap
      ∧ (∀ q : Nat, q ∉ cellsOf s.argMap (parseNames toks false s) → s'.heap[q]? = s.heap[q]?)
      ∧ (∀ name, name ∉ parseNames toks false s → s'.get name = s.get name) := by
  rw [Parse_eq] at hp
  have hp' : parseTokens toks false s = (e, s') := Option.some.inj hp
  have hm : s'.argMap = s.argMap := by
    have := parseTokens_argMap toks false s
    rw [hp'] at this; exact this
  have hfr : ∀ q : Nat, q ∉ cellsOf s.argMap (parseNames toks false s) →
      s'.heap[q]? = s.heap[q]? := by
    intro q hq
    have := parseTokens_frame q toks false s hq
    rw [hp'] at this; exact this
  refine ⟨hm, hfr, ?_⟩
  intro name hname
  unfold State.get
  rw [hm]
  cases hl : mapLookup s.argMap name with
  | none => rfl
  | some ai =>
    simp only
    apply hfr
    intro hmem
    obtain ⟨a, ha, bi, hb, he⟩ := mem_cellsOf.mp hmem
    by_cases han : a = name
    · subst han; exact hname ha
    · exact cells_ne hwf.2.1 hb hl han he

/-- Witness of C11: `-h -z` on the registry of `examples/cat.go` fails on `z`
after setting `h`; `help`, which has the usage text of `h`, and `p` keep their
defaults. -/
theorem C11_parse_frame_witness :
    Parse (str "cat" :: [str "-h", str "-z"]) catState
        = some (some (ParseError.UnrecognizedFlag (str "z")),
            { catState with heap := catState.heap.set 4 (Val.boolVal true) })
      ∧ parseNames [str "-h", str "-z"] false catState = [str "h", str "z"]
      ∧ State.get { catState with heap := catState.heap.set 4 (Val.boolVal true) } (str "help")
          = some (Val.boolVal false)
      ∧ State.get { catState with heap := catState.heap.set 4 (Val.boolVal true) } (str "p")
          = some (Val.intVal (-1)) :=
  have h := C11_parse_frame catState
    { catState with heap := catState.heap.set 4 (Val.boolVal true) } (by decide) (str "cat")
    [str "-h", str "-z"] (some (ParseError.UnrecognizedFlag (str "z"))) (by decide)
  ⟨by decide, by decide, (h.2.2 (str "help") (by decide)).trans (by decide),
    (h.2.2 (str "p") (by decide)).trans (by decide)⟩

/-! ## Registration -/

theorem mapLookup_mapSet_self (m : List (GoString × ArgItem)) (k : GoString) (a : ArgItem) :
    mapLookup (mapSet m k a) k = some a := by
  induction m with
  | nil => simp [mapSet, mapLookup]
  | cons x m ih =>
    obtain ⟨k', a'⟩ := x
    by_cases hk : k' = k
    · simp [mapSet, mapLookup, hk]
    · simp [mapSet, mapLookup, hk, ih]

theorem mapLookup_mapSet_ne (m : List (GoString × ArgItem)) {k k' : GoString} (a : ArgItem)
    (hne : k' ≠ k) : mapLookup (mapSet m k a) k' = mapLookup m k' := by
  induction m with
  | nil => simp [mapSet, mapLookup, Ne.symm hne]
  | cons x m ih =>
    obtain ⟨k0, a0⟩ := x
    by_cases hk : k0 = k
    · subst hk
      simp [mapSet, mapLookup, Ne.symm hne]
    · by_cases hk' : k0 = k'
      · subst hk'
        simp [mapSet, mapLookup, hk]
      · simp [mapSet, mapLookup, hk, hk', ih]

theorem declare_eq (name : GoString) (d : Decl) (usage : GoString) (s : State) :
    declare name d usage s
      = (s.heap.length, { s with heap := s.heap ++ [d.val],
                                 argMap := mapSet s.argMap name ⟨d.typ, s.heap.length, usage⟩ }) := by
  cases d <;> rfl

theorem declare_WF (name : GoString) (d : Decl) (usage : GoString) (s : State) (hwf : s.WF) :
    (declare name d usage s).2.WF := by
  cases d
  · exact declareBool_WF name _ usage s hwf
  · exact declareInt_WF name _ usage s hwf
  · exact declareString_WF name _ usage s hwf

theorem getElem?_append_two (h : List Val) (a b : Val) :
    (h ++ [a] ++ [b])[h.length]? = some a := by
  rw [List.append_assoc, List.getElem?_append_right (Nat.le_refl _)]
  simp

/-- A registry with one entry per name has exactly one entry under a
registered name. -/
theorem countP_key {m : List (GoString × ArgItem)} {k : GoString} {ai : ArgItem}
    (hn : (m.map (fun e => e.1)).Nodup) (hl : mapLookup m k = some ai) :
    m.countP (fun e => decide (e.1 = k)) = 1 := by
  induction m with
  | nil => simp [mapLookup] at hl
  | cons x m ih =>
    obtain ⟨k0, a0⟩ := x
    simp only [List.map_cons, List.nodup_cons] at hn
    by_cases hk : k0 = k
    · subst hk
      have h0 : m.countP (fun e => decide (e.1 = k0)) = 0 := by
        rw [List.countP_eq_zero]
        intro e he hek
        exact hn.1 (List.mem_map.mpr ⟨e, he, by simpa using hek⟩)
      simp [List.countP_cons, h0]
    · have hl' : mapLookup m k = some ai := by simpa [mapLookup, hk] using hl
      simp [List.countP_cons, hk, ih hn.2 hl']

/-- C12 (registration inserts or overwrites, last writer wins).  For every
well-formed registry, name, kind with default, and usage: the declaration
returns a handle whose cell holds the default, makes the lookup of the name
return the new type, handle and usage, leaves the lookup and the value of every
other name, every existing cell and the positional list unchanged.  After a
second declaration of the same name, of any kind: the registry has one entry
for the name, with the type, handle and usage of the second declaration; the
two handles differ and the first one holds its own default, also after any
subsequent `Parse`, which leaves the entry of the name as it is. -/
theorem C12_declare (s : State) (hwf : s.WF) (name : GoString) (d d2 : Decl)
    (usage u2 : GoString) :
    (declare name d usage s).2.deref (declare name d usage s).1 = some d.val
      ∧ mapLookup (declare name d usage s).2.argMap name
          = some ⟨d.typ, (declare name d usage s).1, usage⟩
      ∧ (∀ k, k ≠ name →
          mapLookup (declare name d usage s).2.argMap k = mapLookup s.argMap k
            ∧ (declare name d usage s).2.get k = s.get k)
      ∧ (∀ p, p < s.heap.length → (declare name d usage s).2.deref p = s.deref p)
      ∧ (declare name d usage s).2.otherArg = s.otherArg
      ∧ (declare name d2 u2 (declare name d usage s).2).2.argMap.countP
          (fun e => decide (e.1 = name)) = 1
      ∧ mapLookup (declare name d2 u2 (declare name d usage s).2).2.argMap name
          = some ⟨d2.typ, (declare name d2 u2 (declare name d usage s).2).1, u2⟩
      ∧ (declare name d2 u2 (declare name d usage s).2).1 ≠ (declare name d usage s).1
      ∧ (declare name d2 u2 (declare name d usage s).2).2.deref (declare name d usage s).1
          = some d.val
      ∧ (∀ (prog : GoString) (toks : List GoString) (e : Option ParseError) (s3 : State),
          Parse (prog :: toks) (declare name d2 u2 (declare name d usage s).2).2 = some (e, s3) →
          s3.deref (declare name d usage s).1 = some d.val
            ∧ mapLookup s3.argMap name
              = some ⟨d2.typ, (declare name d2 u2 (declare name d usage s).2).1, u2⟩) := by
  have hwf1 := declare_WF name d usage s hwf
  have hwf2 := declare_WF name d2 u2 _ hwf1
  obtain ⟨_, _, hty⟩ := hwf
  have hlen : ∀ k ai, mapLookup s.argMap k = some ai → ai.Value < s.heap.length :=
    fun k ai hl => typedItem_lt (hty _ (mapLookup_mem hl))
  rw [declare_eq name d usage s] at hwf1 hwf2 ⊢
  simp only at hwf1 hwf2 ⊢
  rw [declare_eq name d2 u2] at hwf2 ⊢
  simp only [List.length_append, List.length_singleton] at hwf2 ⊢
  have hl2 := mapLookup_mapSet_self (mapSet s.argMap name ⟨d.typ, s.heap.length, usage⟩) name
    ⟨d2.typ, s.heap.length + 1, u2⟩
  have hother : ∀ a bi,
      mapLookup (mapSet (mapSet s.argMap name ⟨d.typ, s.heap.length, usage⟩) name
        ⟨d2.typ, s.heap.length + 1, u2⟩) a = some bi → bi.Value ≠ s.heap.length := by
    intro a bi hb
    by_cases ha : a = name
    · subst ha
      rw [hl2] at hb
      cases hb
      simp
    · rw [mapLookup_mapSet_ne _ _ ha, mapLookup_mapSet_ne _ _ ha] at hb
      exact Nat.ne_of_lt (hlen a bi hb)
  refine ⟨?_, mapLookup_mapSet_self _ _ _, ?_, ?_, trivial, ?_, hl2, by omega, ?_, ?_⟩
  · simp [State.deref]
  · intro k hk
    refine ⟨mapLookup_mapSet_ne _ _ hk, ?_⟩
    unfold State.get
    simp only
    rw [mapLookup_mapSet_ne _ _ hk]
    cases hl : mapLookup s.argMap k with
    | none => rfl
    | some ai =>
      simp only
      rw [List.getElem?_append_left (hlen k ai hl)]
  · intro p hp
    simp only [State.deref]
    rw [List.getElem?_append_left hp]
  · exact countP_key hwf2.1 hl2
  · simp only [State.deref]
    exact getElem?_append_two _ _ _
  · intro prog toks e s3 hp
    rw [Parse_eq] at hp
    have hp' := Option.some.inj hp
    have hm := parseTokens_argMap toks false
      { s with heap := s.heap ++ [d.val] ++ [d2.val],
               argMap := mapSet (mapSet s.argMap name ⟨d.typ, s.heap.length, usage⟩) name
                 ⟨d2.typ, s.heap.length + 1, u2⟩ }
    have hfr := parseTokens_frame s.heap.length toks false
      { s with heap := s.heap ++ [d.val] ++ [d2.val],
               argMap := mapSet (mapSet s.argMap name ⟨d.typ, s.heap.length, usage⟩) name
                 ⟨d2.typ, s.heap.length + 1, u2⟩ }
      (by
        intro hmem
        obtain ⟨a, _, bi, hb, he⟩ := mem_cellsOf.mp hmem
        exact hother a bi hb he)
    rw [hp'] at hm hfr
    simp only at hm hfr
    refine ⟨?_, by rw [hm]; exact hl2⟩
    simp only [State.deref]
    rw [hfr]
    exact getElem?_append_two _ _ _

/-- Witness of C12: `h` declared as a boolean flag and then as an Int option;
`-h 7` is stored through the second handle and the first stays false. -/
theorem C12_declare_witness :
    (declare (str "h") (Decl.int 5) (str "u2")
        (declare (str "h") (Decl.bool false) (str "u1") State.init).2).2.argMap
        = [(str "h", ⟨"int", 1, str "u2"⟩)]
      ∧ Parse (str "prog" :: [str "-h", str "7"])
          (declare (str "h") (Decl.int 5) (str "u2")
            (declare (str "h") (Decl.bool false) (str "u1") State.init).2).2
        = some (none, ⟨[(str "h", ⟨"int", 1, str "u2"⟩)], [Val.boolVal false, Val.intVal 7], []⟩)
      ∧ State.deref ⟨[(str "h", ⟨"int", 1, str "u2"⟩)], [Val.boolVal false, Val.intVal 7], []⟩
          (declare (str "h") (Decl.bool false) (str "u1") State.init).1
        = some (Decl.bool false).val :=
  ⟨by decide, by decide,
    ((C12_declare State.init (by decide) (str "h") (Decl.bool false) (Decl.int 5) (str "u1")
      (str "u2")).2.2.2.2.2.2.2.2.2 (str "prog") [str "-h", str "7"] none
      ⟨[(str "h", ⟨"int", 1, str "u2"⟩)], [Val.boolVal false, Val.intVal 7], []⟩
      (by decide)).1⟩

/-! ## Help: the two loops against one line per usage text -/

theorem usageGroup_nil (x : GoString) : usageGroup [] x = [] := rfl

theorem usageGroup_cons_eq (k : GoString) (v : ArgItem) (rest : List (GoString × ArgItem)) :
    usageGroup ((k, v) :: rest) v.Usage = k :: usageGroup rest v.Usage := by
  simp [usageGroup, List.filter_cons]

theorem usageGroup_cons_ne {k : GoString} {v : ArgItem} (rest : List (GoString × ArgItem))
    {x : GoString} (hx : v.Usage ≠ x) :
    usageGroup ((k, v) :: rest) x = usageGroup rest x := by
  simp [usageGroup, List.filter_cons, hx]

theorem mem_usageGroup {m : List (GoString × ArgItem)} {x k : GoString} :
    k ∈ usageGroup m x ↔ ∃ ai, (k, ai) ∈ m ∧ ai.Usage = x := by
  simp [usageGroup, List.mem_map, List.mem_filter]

/-- The first loop of `Help`: `keyIndex` gets the names in enumeration order,
and `usageMap` gets, under each usage text, the names that have it. -/
theorem collect_spec :
    ∀ (rest : List (GoString × ArgItem)) (um : UsageMap) (ki : List GoString),
      (Help.collect rest um ki).2 = ki ++ rest.map (fun e => e.1)
        ∧ ∀ x, (Help.collect rest um ki).1 x =
            if usageGroup rest x = [] then um x
            else some ((um x).getD [] ++ usageGroup rest x) := by
  intro rest
  induction rest with
  | nil => intro um ki; simp [Help.collect, usageGroup_nil]
  | cons e rest ih =>
    intro um ki
    obtain ⟨k, v⟩ := e
    have hstep : ∃ um1 : UsageMap,
        Help.collect ((k, v) :: rest) um ki = Help.collect rest um1 (ki ++ [k])
          ∧ um1 v.Usage = some ((um v.Usage).getD [] ++ [k])
          ∧ ∀ x, x ≠ v.Usage → um1 x = um x := by
      cases hu : um v.Usage with
      | none =>
        refine ⟨usageSet um v.Usage [k], by simp [Help.collect, hu], by simp [usageSet],
          fun x hx => by simp [usageSet, hx]⟩
      | some keys =>
        refine ⟨usageSet um v.Usage (keys ++ [k]), by simp [Help.collect, hu],
          by simp [usageSet], fun x hx => by simp [usageSet, hx]⟩
    obtain ⟨um1, he, h1, h2⟩ := hstep
    rw [he]
    obtain ⟨ihk, ihu⟩ := ih um1 (ki ++ [k])
    refine ⟨by rw [ihk]; simp, ?_⟩
    intro x
    rw [ihu x]
    by_cases hx : x = v.Usage
    · subst hx
      rw [usageGroup_cons_eq, h1]
      by_cases hg : usageGroup rest v.Usage = []
      · simp [hg]
      · simp [hg]
    · rw [usageGroup_cons_ne rest (Ne.symm hx), h2 x hx]

/-- Under one entry per name, a lookup finds exactly the entries. -/
theorem mapLookup_eq_some_iff {m : List (GoString × ArgItem)}
    (hn : (m.map (fun e => e.1)).Nodup) {k : GoString} {ai : ArgItem} :
    mapLookup m k = some ai ↔ (k, ai) ∈ m := by
  constructor
  · exact mapLookup_mem
  · intro hmem
    induction m with
    | nil => simp at hmem
    | cons x m ih =>
      obtain ⟨k0, a0⟩ := x
      simp only [List.map_cons, List.nodup_cons] at hn
      rcases List.mem_cons.mp hmem with h | h
      · cases h
        simp [mapLookup]
      · have hne : k0 ≠ k := by
          intro hk
          subst hk
          exact hn.1 (List.mem_map.mpr ⟨(k0, ai), h, rfl⟩)
        simp only [mapLookup, hne, if_false]
        exact ih hn.2 h

theorem usageOf_of_mem {m : List (GoString × ArgItem)}
    (hn : (m.map (fun e => e.1)).Nodup) {k : GoString} {ai : ArgItem} (hmem : (k, ai) ∈ m) :
    usageOf m k = ai.Usage ∧ typeOf m k = ai.Typ := by
  have := (mapLookup_eq_some_iff hn).mpr hmem
  simp [usageOf, typeOf, this]

/-- Under one entry per name, the names with usage text `x` are the registered
names whose usage is `x`. -/
theorem mem_usageGroup_iff {m : List (GoString × ArgItem)}
    (hn : (m.map (fun e => e.1)).Nodup) {x k : GoString} :
    k ∈ usageGroup m x ↔ k ∈ m.map (fun e => e.1) ∧ usageOf m k = x := by
  rw [mem_usageGroup]
  constructor
  · rintro ⟨ai, hmem, hu⟩
    exact ⟨List.mem_map.mpr ⟨(k, ai), hmem, rfl⟩, by rw [(usageOf_of_mem hn hmem).1, hu]⟩
  · rintro ⟨hk, hu⟩
    obtain ⟨e, he, hek⟩ := List.mem_map.mp hk
    obtain ⟨k', ai⟩ := e
    simp only at hek
    subst hek
    exact ⟨ai, he, by rw [← (usageOf_of_mem hn he).1, hu]⟩

theorem sortStrings_length (l : List GoString) : (sortStrings l).length = l.length :=
  List.length_insertionSort _ l

theorem sortStrings_perm (l : List GoString) : (sortStrings l).Perm l :=
  List.perm_insertionSort _ l

theorem sortStrings_sorted (l : List GoString) :
    (sortStrings l).Sorted (fun a b => a ≤ b) :=
  List.sorted_insertionSort _ l

theorem mem_sortStrings {l : List GoString} {k : GoString} : k ∈ sortStrings l ↔ k ∈ l :=
  (sortStrings_perm l).mem_iff

theorem sortStrings_singleton (k : GoString) : sortStrings [k] = [k] := rfl

/-- The second loop of `Help` prints one line per usage text, at the first
name that has it. -/
theorem print_eq_spec (m : List (GoString × ArgItem))
    (hn : (m.map (fun e => e.1)).Nodup) :
    ∀ (rest : List GoString) (um : UsageMap) (seen : List GoString),
      rest.Nodup →
      (∀ k ∈ rest, k ∈ m.map (fun e => e.1)) →
      (∀ k ∈ rest, um (usageOf m k) =
        if usageOf m k ∈ seen then none else some (usageGroup m (usageOf m k))) →
      Help.print m rest um = helpSpecFrom m rest seen := by
  intro rest
  induction rest with
  | nil => intro um seen _ _ _; rfl
  | cons k rest ih =>
    intro um seen hnd hkeys hinv
    have hk := hinv k (List.mem_cons_self _ _)
    have hkm : k ∈ usageGroup m (usageOf m k) :=
      (mem_usageGroup_iff hn).mpr ⟨hkeys k (List.mem_cons_self _ _), rfl⟩
    have hnd' : rest.Nodup := (List.nodup_cons.mp hnd).2
    have hknot : k ∉ rest := (List.nodup_cons.mp hnd).1
    have hkeys' : ∀ k' ∈ rest, k' ∈ m.map (fun e => e.1) :=
      fun k' h => hkeys k' (List.mem_cons_of_mem _ h)
    by_cases hs : usageOf m k ∈ seen
    · rw [if_pos hs] at hk
      have hp : Help.print m (k :: rest) um = Help.print m rest um := by
        simp [Help.print, usageOf] at hk ⊢
        simp [hk]
      rw [hp]
      simp only [helpSpecFrom, hs, if_true]
      exact ih um seen hnd' hkeys' (fun k' h => hinv k' (List.mem_cons_of_mem _ h))
    · rw [if_neg hs] at hk
      simp only [helpSpecFrom, hs, if_false]
      by_cases hlen : (usageGroup m (usageOf m k)).length ≤ 1
      · have hg : usageGroup m (usageOf m k) = [k] := by
          cases hgl : usageGroup m (usageOf m k) with
          | nil => rw [hgl] at hkm; simp at hkm
          | cons a t =>
            rw [hgl] at hkm hlen
            cases t with
            | nil => simp at hkm; rw [hkm]
            | cons b t' => simp at hlen
        have hp : Help.print m (k :: rest) um
            = ⟨[k], typeOf m k, usageOf m k⟩ :: Help.print m rest um := by
          have hk' : um ((mapLookup m k).getD ArgItem.zero).Usage = some [k] := by
            rw [← hg]; exact hk
          simp [Help.print, hk', sortStrings_singleton, usageOf, typeOf]
        rw [hp, hg, sortStrings_singleton]
        congr 1
        apply ih um (usageOf m k :: seen) hnd' hkeys'
        intro k' hk'
        have hne : usageOf m k' ≠ usageOf m k := by
          intro he
          have : k' ∈ usageGroup m (usageOf m k) :=
            (mem_usageGroup_iff hn).mpr ⟨hkeys' k' hk', he⟩
          rw [hg] at this
          simp at this
          exact hknot (this ▸ hk')
        rw [hinv k' (List.mem_cons_of_mem _ hk')]
        simp [hne]
      · have hp : Help.print m (k :: rest) um
            = ⟨sortStrings (usageGroup m (usageOf m k)), typeOf m k, usageOf m k⟩
              :: Help.print m rest (usageDelete um (usageOf m k)) := by
          have hk' : um ((mapLookup m k).getD ArgItem.zero).Usage
              = some (usageGroup m (usageOf m k)) := hk
          have hl' : ¬ (sortStrings (usageGroup m (usageOf m k))).length ≤ 1 := by
            rw [sortStrings_length]; exact hlen
          simp only [Help.print, hk']
          rw [if_neg hl']
          rfl
        rw [hp]
        congr 1
        apply ih (usageDelete um (usageOf m k)) (usageOf m k :: seen) hnd' hkeys'
        intro k' hk'
        by_cases he : usageOf m k' = usageOf m k
        · simp [usageDelete, he]
        · rw [show usageDelete um (usageOf m k) (usageOf m k') = um (usageOf m k') by
            simp [usageDelete, he]]
          rw [hinv k' (List.mem_cons_of_mem _ hk')]
          simp [he]

/-- The lines of `Help`: one per usage text, along the names in lexicographic
order. -/
theorem lines_eq_spec (m : List (GoString × ArgItem))
    (hn : (m.map (fun e => e.1)).Nodup) :
    Help.lines m = helpSpecFrom m (sortStrings (m.map (fun e => e.1))) [] := by
  obtain ⟨hk, hu⟩ := collect_spec m (fun _ => none) []
  unfold Help.lines
  rw [hk, List.nil_append]
  apply print_eq_spec m hn
  · exact (sortStrings_perm _).nodup_iff.mpr hn
  · intro k h; exact mem_sortStrings.mp h
  · intro k h
    have hkm : k ∈ usageGroup m (usageOf m k) :=
      (mem_usageGroup_iff hn).mpr ⟨mem_sortStrings.mp h, rfl⟩
    have hne : usageGroup m (usageOf m k) ≠ [] := by
      intro h0; rw [h0] at hkm; simp at hkm
    rw [hu]
    simp [hne]

/-! ## Help: properties of the lines -/

/-- Every line is the line of one of the names: the names of its usage text
in lexicographic order, the type and the usage of that name. -/
theorem spec_line_shape (m : List (GoString × ArgItem)) :
    ∀ (K seen : List GoString) (l : HelpLine), l ∈ helpSpecFrom m K seen →
      ∃ k ∈ K, l = ⟨sortStrings (usageGroup m (usageOf m k)), typeOf m k, usageOf m k⟩ := by
  intro K
  induction K with
  | nil => intro seen l hl; simp [helpSpecFrom] at hl
  | cons k rest ih =>
    intro seen l hl
    by_cases hs : usageOf m k ∈ seen
    · simp only [helpSpecFrom, hs, if_true] at hl
      obtain ⟨k', hk', he⟩ := ih seen l hl
      exact ⟨k', List.mem_cons_of_mem _ hk', he⟩
    · simp only [helpSpecFrom, hs, if_false, List.mem_cons] at hl
      rcases hl with h | h
      · exact ⟨k, List.mem_cons_self _ _, h⟩
      · obtain ⟨k', hk', he⟩ := ih _ l h
        exact ⟨k', List.mem_cons_of_mem _ hk', he⟩

/-- The usage texts of the lines: each usage text of the names, not yet seen,
once. -/
theorem spec_usages (m : List (GoString × ArgItem)) :
    ∀ (K seen : List GoString),
      ((helpSpecFrom m K seen).map (fun l => l.usage)).Nodup
        ∧ ∀ x, x ∈ (helpSpecFrom m K seen).map (fun l => l.usage)
            ↔ (x ∈ K.map (usageOf m) ∧ x ∉ seen) := by
  intro K
  induction K with
  | nil => intro seen; simp [helpSpecFrom]
  | cons k rest ih =>
    intro seen
    by_cases hs : usageOf m k ∈ seen
    · simp only [helpSpecFrom, hs, if_true]
      obtain ⟨h1, h2⟩ := ih seen
      refine ⟨h1, ?_⟩
      intro x
      rw [h2 x]
      simp only [List.map_cons, List.mem_cons]
      constructor
      · rintro ⟨ha, hb⟩; exact ⟨Or.inr ha, hb⟩
      · rintro ⟨ha | ha, hb⟩
        · subst ha; exact absurd hs hb
        · exact ⟨ha, hb⟩
    · simp only [helpSpecFrom, hs, if_false, List.map_cons, List.nodup_cons, List.mem_cons]
      obtain ⟨h1, h2⟩ := ih (usageOf m k :: seen)
      refine ⟨⟨?_, h1⟩, ?_⟩
      · intro hmem
        have := ((h2 _).mp hmem).2
        simp at this
      · intro x
        rw [h2 x]
        simp only [List.mem_cons, not_or]
        constructor
        · rintro (ha | ⟨ha, hb, hc⟩)
          · subst ha; exact ⟨Or.inl rfl, hs⟩
          · exact ⟨Or.inr ha, hc⟩
        · rintro ⟨ha | ha, hb⟩
          · exact Or.inl ha
          · by_cases hx : x = usageOf m k
            · exact Or.inl hx
            · exact Or.inr ⟨ha, hx, hb⟩

theorem countP_eq_one_of_nodup_map {α β : Type} [DecidableEq β] (f : α → β) :
    ∀ (l : List α), (l.map f).Nodup → ∀ y, y ∈ l.map f →
      l.countP (fun b => decide (f b = y)) = 1 := by
  intro l
  induction l with
  | nil => intro _ y hy; simp at hy
  | cons a l ih =>
    intro hn y hy
    simp only [List.map_cons, List.nodup_cons] at hn
    by_cases ha : f a = y
    · have h0 : l.countP (fun b => decide (f b = y)) = 0 := by
        rw [List.countP_eq_zero]
        intro b hb hby
        exact hn.1 (List.mem_map.mpr ⟨b, hb, by rw [ha]; simpa using hby⟩)
      simp [List.countP_cons, ha, h0]
    · have hy' : y ∈ l.map f := by
        simp only [List.map_cons, List.mem_cons] at hy
        rcases hy with h | h
        · exact absurd h.symm ha
        · exact h
      simp [List.countP_cons, ha, ih hn.2 y hy']

theorem usages_mem_iff {m : List (GoString × ArgItem)}
    (hn : (m.map (fun e => e.1)).Nodup) (K : List GoString)
    (hK : ∀ k, k ∈ K ↔ k ∈ m.map (fun e => e.1)) (x : GoString) :
    x ∈ K.map (usageOf m) ↔ x ∈ m.map (fun e => e.2.Usage) := by
  constructor
  · intro h
    obtain ⟨k, hk, hx⟩ := List.mem_map.mp h
    obtain ⟨e, he, hek⟩ := List.mem_map.mp ((hK k).mp hk)
    obtain ⟨k', ai⟩ := e
    simp only at hek
    subst hek
    exact List.mem_map.mpr ⟨(k', ai), he, by rw [← hx, (usageOf_of_mem hn he).1]⟩
  · intro h
    obtain ⟨e, he, hx⟩ := List.mem_map.mp h
    obtain ⟨k, ai⟩ := e
    exact List.mem_map.mpr ⟨k, (hK k).mpr (List.mem_map.mpr ⟨(k, ai), he, rfl⟩),
      by rw [(usageOf_of_mem hn he).1]; exact hx⟩

/-- C13 (one merged help entry per usage text).  For every registry (one entry
per name): the number of option lines printed by `Help` is the number of
distinct usage texts of the registered options; every registered name is in
the name list of exactly one line; that line carries the usage text of the
name; the name list of a line holds exactly the registered names with the usage
text of the line, each once. -/
theorem C13_help_one_line_per_usage (m : List (GoString × ArgItem))
    (hn : (m.map (fun e => e.1)).Nodup) :
    (Help.lines m).length = ((m.map (fun e => e.2.Usage)).dedup).length
      ∧ (∀ k ai, (k, ai) ∈ m →
          (Help.lines m).countP (fun l => decide (k ∈ l.names)) = 1)
      ∧ (∀ l ∈ Help.lines m, ∀ k ai, (k, ai) ∈ m → k ∈ l.names → l.usage = ai.Usage)
      ∧ (∀ l ∈ Help.lines m, ∀ k, k ∈ l.names ↔ ∃ ai, (k, ai) ∈ m ∧ ai.Usage = l.usage)
      ∧ (∀ l ∈ Help.lines m, l.names.Nodup) := by
  have hK : ∀ k, k ∈ sortStrings (m.map (fun e => e.1)) ↔ k ∈ m.map (fun e => e.1) :=
    fun k => mem_sortStrings
  rw [lines_eq_spec m hn]
  obtain ⟨hnd, hmem⟩ := spec_usages m (sortStrings (m.map (fun e => e.1))) []
  have hshape := spec_line_shape m (sortStrings (m.map (fun e => e.1))) []
  have hnames : ∀ l ∈ helpSpecFrom m (sortStrings (m.map (fun e => e.1))) [],
      l.names = sortStrings (usageGroup m l.usage) := by
    intro l hl
    obtain ⟨k, _, he⟩ := hshape l hl
    rw [he]
  have hin : ∀ l ∈ helpSpecFrom m (sortStrings (m.map (fun e => e.1))) [],
      ∀ k, k ∈ l.names ↔ ∃ ai, (k, ai) ∈ m ∧ ai.Usage = l.usage := by
    intro l hl k
    rw [hnames l hl, mem_sortStrings, mem_usageGroup]
  refine ⟨?_, ?_, ?_, hin, ?_⟩
  · have h1 : (helpSpecFrom m (sortStrings (m.map (fun e => e.1))) []).length
        = ((helpSpecFrom m (sortStrings (m.map (fun e => e.1))) []).map
            (fun l => l.usage)).toFinset.card := by
      rw [List.toFinset_card_of_nodup hnd, List.length_map]
    have h2 : ((helpSpecFrom m (sortStrings (m.map (fun e => e.1))) []).map
        (fun l => l.usage)).toFinset = (m.map (fun e => e.2.Usage)).toFinset := by
      ext x
      rw [List.mem_toFinset, List.mem_toFinset, hmem x, usages_mem_iff hn _ hK x]
      simp
    rw [h1, h2, List.card_toFinset]
  · intro k ai hk
    have hu := (usageOf_of_mem hn hk).1
    have hcongr : (helpSpecFrom m (sortStrings (m.map (fun e => e.1))) []).countP
          (fun l => decide (k ∈ l.names))
        = (helpSpecFrom m (sortStrings (m.map (fun e => e.1))) []).countP
          (fun l => decide (l.usage = ai.Usage)) := by
      apply List.countP_congr
      intro l hl
      simp only [decide_eq_true_eq]
      rw [hin l hl k]
      constructor
      · rintro ⟨ai', hk', hu'⟩
        have := (mapLookup_eq_some_iff hn).mpr hk
        rw [(mapLookup_eq_some_iff hn).mpr hk'] at this
        cases this
        exact hu'.symm
      · intro h; exact ⟨ai, hk, h.symm⟩
    rw [hcongr]
    apply countP_eq_one_of_nodup_map (fun l : HelpLine => l.usage) _ hnd
    rw [hmem]
    refine ⟨(usages_mem_iff hn _ hK _).mpr (List.mem_map.mpr ⟨(k, ai), hk, rfl⟩), by simp⟩
  · intro l hl k ai hk hkl
    obtain ⟨ai', hk', hu'⟩ := (hin l hl k).mp hkl
    have := (mapLookup_eq_some_iff hn).mpr hk
    rw [(mapLookup_eq_some_iff hn).mpr hk'] at this
    cases this
    exact hu'.symm
  · intro l hl
    rw [hnames l hl]
    apply (sortStrings_perm _).nodup_iff.mpr
    unfold usageGroup
    have hsub : (m.filter (fun e => decide (e.2.Usage = l.usage))).Sublist m :=
      List.filter_sublist _
    exact (hsub.map (fun e => e.1)).nodup hn

/-- Witness of C13: the registry of `examples/cat.go` has six names and five
usage texts; `Help` prints five lines, `h` and `help` sharing one. -/
theorem C13_help_one_line_per_usage_witness :
    (catState.argMap.map (fun e => e.1)).Nodup
      ∧ Help.lines catState.argMap
        = [⟨[str "b"], "bool", str "按照二进制模式显示文本"⟩,
           ⟨[str "f"], "bool", str "倒序输出文本"⟩,
           ⟨[str "h", str "help"], "bool", str "帮助信息"⟩,
           ⟨[str "n"], "bool", str "输出带行号的文本"⟩,
           ⟨[str "p"], "int", str "输出 n 行"⟩]
      ∧ (Help.lines catState.argMap).length
        = ((catState.argMap.map (fun e => e.2.Usage)).dedup).length :=
  ⟨by decide, by decide, (C13_help_one_line_per_usage catState.argMap (by decide)).1⟩

/-! ## Help: order, and independence from the enumeration order -/

/-- The first element of a sorted list is the element below all others. -/
theorem headD_of_sorted_min {l : List GoString} (hs : l.Sorted (fun a b => a ≤ b))
    {k : GoString} (hk : k ∈ l) (hmin : ∀ k' ∈ l, k ≤ k') : l.headD [] = k := by
  cases l with
  | nil => simp at hk
  | cons a t =>
    simp only [List.headD_cons]
    have h1 : k ≤ a := hmin a (List.mem_cons_self _ _)
    have h2 : a ≤ k := by
      rcases List.mem_cons.mp hk with h | h
      · rw [h]
      · exact List.rel_of_sorted_cons hs k h
    exact le_antisymm h2 h1

/-- The first names of the lines are, in order, names of the sorted list: each
line stands at the smallest name of its usage text. -/
theorem spec_heads_sublist (m : List (GoString × ArgItem))
    (hn : (m.map (fun e => e.1)).Nodup) :
    ∀ (rest pre seen : List GoString),
      (pre ++ rest).Sorted (fun a b => a ≤ b) →
      (∀ k, k ∈ pre ++ rest ↔ k ∈ m.map (fun e => e.1)) →
      (∀ x, x ∈ seen ↔ ∃ k' ∈ pre, usageOf m k' = x) →
      ((helpSpecFrom m rest seen).map (fun l => l.names.headD [])).Sublist rest := by
  intro rest
  induction rest with
  | nil => intro pre seen _ _ _; simp [helpSpecFrom]
  | cons k rest ih =>
    intro pre seen hsorted hkeys hseen
    have hassoc : pre ++ k :: rest = (pre ++ [k]) ++ rest := by simp
    have hsorted' : ((pre ++ [k]) ++ rest).Sorted (fun a b => a ≤ b) := by
      rw [← hassoc]; exact hsorted
    have hkeys' : ∀ k', k' ∈ (pre ++ [k]) ++ rest ↔ k' ∈ m.map (fun e => e.1) := by
      intro k'; rw [← hassoc]; exact hkeys k'
    by_cases hs : usageOf m k ∈ seen
    · simp only [helpSpecFrom, hs, if_true]
      apply List.Sublist.cons
      apply ih (pre ++ [k]) seen hsorted' hkeys'
      intro x
      rw [hseen x]
      constructor
      · rintro ⟨k', hk', hx⟩
        exact ⟨k', List.mem_append_left _ hk', hx⟩
      · rintro ⟨k', hk', hx⟩
        rcases List.mem_append.mp hk' with h | h
        · exact ⟨k', h, hx⟩
        · simp only [List.mem_singleton] at h
          subst h
          rw [← hx]
          exact (hseen _).mp hs
    · simp only [helpSpecFrom, hs, if_false, List.map_cons]
      have hkm : k ∈ usageGroup m (usageOf m k) :=
        (mem_usageGroup_iff hn).mpr
          ⟨(hkeys k).mp (List.mem_append_right _ (List.mem_cons_self _ _)), rfl⟩
      have hkr : (k :: rest).Sorted (fun a b => a ≤ b) :=
        (List.pairwise_append.mp hsorted).2.1
      have hmin : ∀ k' ∈ sortStrings (usageGroup m (usageOf m k)), k ≤ k' := by
        intro k' hk'
        obtain ⟨hkk, hku⟩ := (mem_usageGroup_iff hn).mp (mem_sortStrings.mp hk')
        rcases List.mem_append.mp ((hkeys k').mpr hkk) with h | h
        · exact absurd ((hseen _).mpr ⟨k', h, hku⟩) hs
        · rcases List.mem_cons.mp h with h' | h'
          · rw [h']
          · exact List.rel_of_sorted_cons hkr k' h'
      have hhead : (sortStrings (usageGroup m (usageOf m k))).headD [] = k :=
        headD_of_sorted_min (sortStrings_sorted _) (mem_sortStrings.mpr hkm) hmin
      rw [hhead]
      apply List.Sublist.cons₂
      apply ih (pre ++ [k]) (usageOf m k :: seen) hsorted' hkeys'
      intro x
      simp only [List.mem_cons, hseen x]
      constructor
      · rintro (h | ⟨k', hk', hx⟩)
        · exact ⟨k, by simp, h.symm⟩
        · exact ⟨k', List.mem_append_left _ hk', hx⟩
      · rintro ⟨k', hk', hx⟩
        rcases List.mem_append.mp hk' with h | h
        · exact Or.inr ⟨k', h, hx⟩
        · simp only [List.mem_singleton] at h
          subst h
          exact Or.inl hx.symm

/-- Under one entry per name, a lookup does not depend on the enumeration
order. -/
theorem mapLookup_perm {m1 m2 : List (GoString × ArgItem)} (hp : m1.Perm m2)
    (hn : (m1.map (fun e => e.1)).Nodup) (k : GoString) :
    mapLookup m1 k = mapLookup m2 k := by
  have hn2 : (m2.map (fun e => e.1)).Nodup := (hp.map _).nodup_iff.mp hn
  apply Option.ext
  intro ai
  simp only [Option.mem_def]
  rw [mapLookup_eq_some_iff hn, mapLookup_eq_some_iff hn2]
  exact hp.mem_iff

theorem sortStrings_of_perm {l1 l2 : List GoString} (hp : l1.Perm l2) :
    sortStrings l1 = sortStrings l2 :=
  List.eq_of_perm_of_sorted ((sortStrings_perm l1).trans (hp.trans (sortStrings_perm l2).symm))
    (sortStrings_sorted l1) (sortStrings_sorted l2)

theorem helpSpecFrom_congr {m1 m2 : List (GoString × ArgItem)}
    (hu : ∀ k, usageOf m1 k = usageOf m2 k) (ht : ∀ k, typeOf m1 k = typeOf m2 k)
    (hg : ∀ x, sortStrings (usageGroup m1 x) = sortStrings (usageGroup m2 x)) :
    ∀ K seen, helpSpecFrom m1 K seen = helpSpecFrom m2 K seen := by
  intro K
  induction K with
  | nil => intro seen; rfl
  | cons k rest ih =>
    intro seen
    simp only [helpSpecFrom, hu k, ht k, hg, ih]

/-- The lines of `Help` do not depend on the enumeration order of the map. -/
theorem lines_perm {m1 m2 : List (GoString × ArgItem)} (hp : m1.Perm m2)
    (hn : (m1.map (fun e => e.1)).Nodup) : Help.lines m1 = Help.lines m2 := by
  have hn2 : (m2.map (fun e => e.1)).Nodup := (hp.map _).nodup_iff.mp hn
  rw [lines_eq_spec m1 hn, lines_eq_spec m2 hn2,
    sortStrings_of_perm (hp.map (fun e => e.1))]
  apply helpSpecFrom_congr
  · intro k; simp [usageOf, mapLookup_perm hp hn k]
  · intro k; simp [typeOf, mapLookup_perm hp hn k]
  · intro x
    apply sortStrings_of_perm
    unfold usageGroup
    exact (hp.filter _).map _

/-- C14 (the help is sorted and does not depend on the enumeration order).  For
every registry (one entry per name): the names of each line are in increasing
lexicographic order, and the line is printed with their dashed forms joined by
commas; the first name of a line is the smallest name of its usage group, and
the lines are in increasing lexicographic order of these first names; for any
other enumeration order of the same entries the lines, and the text written,
are the same. -/
theorem C14_help_sorted (m : List (GoString × ArgItem))
    (hn : (m.map (fun e => e.1)).Nodup) :
    (∀ l ∈ Help.lines m, l.names.Sorted (fun a b => a < b))
      ∧ (∀ l : HelpLine, l.render
          = str "    " ++ joinStrings (l.names.map fullArg) (str ",") ++ str "\t"
            ++ str l.argType ++ str "\t" ++ l.usage ++ str "\n")
      ∧ (∀ l ∈ Help.lines m, ∀ k, (∃ ai, (k, ai) ∈ m ∧ ai.Usage = l.usage) →
          l.names.headD [] ≤ k)
      ∧ ((Help.lines m).map (fun l => l.names.headD [])).Sorted (fun a b => a < b)
      ∧ (∀ m2 : List (GoString × ArgItem), m.Perm m2 → Help.lines m2 = Help.lines m)
      ∧ (∀ (Args : List GoString) (s1 s2 : State), s1.argMap = m → s1.argMap.Perm s2.argMap →
          Help Args s2 = Help Args s1) := by
  have hKs := sortStrings_sorted (m.map (fun e => e.1))
  have hKn : (sortStrings (m.map (fun e => e.1))).Nodup :=
    (sortStrings_perm _).nodup_iff.mpr hn
  have hshape := spec_line_shape m (sortStrings (m.map (fun e => e.1))) []
  have hgn : ∀ x, (sortStrings (usageGroup m x)).Nodup := by
    intro x
    apply (sortStrings_perm _).nodup_iff.mpr
    unfold usageGroup
    have hsub : (m.filter (fun e => decide (e.2.Usage = x))).Sublist m := List.filter_sublist _
    exact (hsub.map (fun e => e.1)).nodup hn
  have hsl : ∀ l ∈ Help.lines m, l.names.Sorted (fun a b => a < b) := by
    intro l hl
    rw [lines_eq_spec m hn] at hl
    obtain ⟨k, _, he⟩ := hshape l hl
    rw [he]
    exact (sortStrings_sorted _).lt_of_le (hgn _)
  refine ⟨hsl, fun _ => rfl, ?_, ?_, fun m2 hp => (lines_perm hp hn).symm, ?_⟩
  · intro l hl k hk
    have hkl : k ∈ l.names := by
      have hl' := hl
      rw [lines_eq_spec m hn] at hl'
      obtain ⟨k0, _, he⟩ := hshape l hl'
      rw [he]
      simp only
      rw [mem_sortStrings, mem_usageGroup]
      rw [he] at hk
      exact hk
    have hs := hsl l hl
    cases hln : l.names with
    | nil => rw [hln] at hkl; simp at hkl
    | cons a t =>
      rw [hln] at hkl hs
      simp only [List.headD_cons]
      rcases List.mem_cons.mp hkl with h | h
      · rw [h]
      · exact le_of_lt (List.rel_of_sorted_cons hs k h)
  · rw [lines_eq_spec m hn]
    have hsub := spec_heads_sublist m hn (sortStrings (m.map (fun e => e.1))) [] []
      (by simpa using hKs) (by intro k; simp [mem_sortStrings]) (by simp)
    exact (hKs.lt_of_le hKn).sublist hsub
  · intro Args s1 s2 h1 hp
    subst h1
    unfold Help
    rw [lines_perm hp hn]

/-- Witness of C14: the registry of `examples/cat.go` read in the reverse
enumeration order gives the same lines, and the text of the line of `h` and
`help`. -/
theorem C14_help_sorted_witness :
    (catState.argMap.map (fun e => e.1)).Nodup
      ∧ catState.argMap.Perm catState.argMap.reverse
      ∧ Help.lines catState.argMap.reverse = Help.lines catState.argMap
      ∧ (Help.lines catState.argMap).map (fun l => l.names.headD [])
        = [str "b", str "f", str "h", str "n", str "p"]
      ∧ HelpLine.render ⟨[str "h", str "help"], "bool", str "帮助信息"⟩
        = str "    -h,--help\tbool\t帮助信息\n" :=
  ⟨by decide, (List.reverse_perm _).symm,
    (C14_help_sorted catState.argMap (by decide)).2.2.2.2.1 _ (List.reverse_perm _).symm,
    by decide, by decide⟩

/-! ## The dashed form of a name, and positional access -/

/-- C15, as the code has it (the dashed form of a name).  For every name, the
dashed form is a single dash followed by the name when the name has length at
most 1 (one byte, or none), and a double dash followed by the name when it has
length 2 or more. -/
theorem C15_fullArg (arg : GoString) :
    (arg.length ≤ 1 → fullArg arg = (45 : Byte) :: arg)
      ∧ (2 ≤ arg.length → fullArg arg = (45 : Byte) :: (45 : Byte) :: arg) := by
  constructor
  · intro h
    have hs : str "-" = [(45 : Byte)] := by decide
    simp [fullArg, h, hs]
  · intro h
    have hs : str "--" = [(45 : Byte), 45] := by decide
    have h' : ¬ arg.length ≤ 1 := by omega
    simp [fullArg, h', hs]

/-- Witness of C15 as amended: `h` renders as `-h` and `help` as `--help`. -/
theorem C15_fullArg_witness :
    fullArg (str "h") = str "-h" ∧ fullArg (str "help") = str "--help" :=
  ⟨((C15_fullArg (str "h")).1 (by decide)).trans (by decide),
    ((C15_fullArg (str "help")).2 (by decide)).trans (by decide)⟩

/-- C15 as stated fails: the empty name does not have length 1, and its dashed
form is a single dash, not a double dash. -/
theorem C15_counterexample :
    ([] : GoString).length ≠ 1 ∧ fullArg [] = str "-" ∧ fullArg [] ≠ str "--" ++ [] := by
  decide

/-- C16 (positional access is bounds-checked).  For every state and every
integer index `i`: when `0 ≤ i < OtherArgLen`, `OtherArg i` returns the `i`-th
positional token and no error; when `i` is negative or at least `OtherArgLen`,
it returns the empty string with the index error; in both cases it returns (the
panic is recovered) and the state, the positional list included, is as it
was. -/
theorem C16_OtherArg (s : State) (i : Int) :
    (0 ≤ i ∧ i < (OtherArgLen s : Int) →
        ∃ v, s.otherArg[i.toNat]? = some v ∧ OtherArg s i = (v, none, s))
      ∧ (i < 0 ∨ (OtherArgLen s : Int) ≤ i →
        OtherArg s i = ([], some (RuntimeError.indexOutOfRange i (OtherArgLen s)), s))
      ∧ (OtherArg s i).2.2 = s := by
  unfold OtherArgLen
  refine ⟨?_, ?_, ?_⟩
  · intro h
    have hlt : i.toNat < s.otherArg.length := by omega
    refine ⟨s.otherArg[i.toNat], List.getElem?_eq_getElem hlt, ?_⟩
    simp [OtherArg, indexString, h, List.getD_eq_getElem?_getD, List.getElem?_eq_getElem hlt]
  · intro h
    have h' : ¬ (0 ≤ i ∧ i < (s.otherArg.length : Int)) := by omega
    simp [OtherArg, indexString, h']
  · unfold OtherArg
    cases indexString s.otherArg i <;> rfl

/-- Witness of C16: the positional list `a`, `b` read at 1, at 2 and at -1. -/
theorem C16_OtherArg_witness :
    OtherArg ⟨[], [], [str "a", str "b"]⟩ 1 = (str "b", none, ⟨[], [], [str "a", str "b"]⟩)
      ∧ OtherArg ⟨[], [], [str "a", str "b"]⟩ 2
        = ([], some (RuntimeError.indexOutOfRange 2 2), ⟨[], [], [str "a", str "b"]⟩)
      ∧ OtherArg ⟨[], [], [str "a", str "b"]⟩ (-1)
        = ([], some (RuntimeError.indexOutOfRange (-1) 2), ⟨[], [], [str "a", str "b"]⟩) := by
  refine ⟨?_, ?_, ?_⟩
  · obtain ⟨v, hv, h⟩ := (C16_OtherArg ⟨[], [], [str "a", str "b"]⟩ 1).1 (by decide)
    have : v = str "b" := by
      have h2 : (([str "a", str "b"] : List GoString))[(1 : Int).toNat]? = some (str "b") := by
        decide
      simp only at hv
      rw [h2] at hv
      exact (Option.some.inj hv).symm
    rw [h, this]
  · exact (C16_OtherArg ⟨[], [], [str "a", str "b"]⟩ 2).2.1 (by decide)
  · exact (C16_OtherArg ⟨[], [], [str "a", str "b"]⟩ (-1)).2.1 (by decide)

/-! ## The dash forms during parsing -/

/-- C17 (the dash form is not enforced).  With `h` registered as a boolean
flag, as in `examples/cat.go`, the arguments `--h` are accepted and set `h`;
with `h`, `e`, `l`, `p` and `help` registered as boolean flags, the arguments
`-help` are accepted, set `h`, `e`, `l` and `p` and leave `help` false.  In
neither case `Parse` returns an error. -/
theorem C17_dash_form_not_enforced :
    (mapLookup catState.argMap (str "h")).isSome = true
      ∧ (str "h").length = 1
      ∧ Parse [str "cat", str "--h"] catState
        = some (none, { catState with
            heap := [Val.boolVal false, Val.boolVal false, Val.boolVal false, Val.intVal (-1),
              Val.boolVal true, Val.boolVal false] })
      ∧ (mapLookup helpState.argMap (str "help")).isSome = true
      ∧ 2 ≤ (str "help").length
      ∧ Parse [str "prog", str "-help"] helpState
        = some (none, { helpState with
            heap := [Val.boolVal true, Val.boolVal true, Val.boolVal true, Val.boolVal true,
              Val.boolVal false] }) := by
  decide

theorem State.with_heap_self (s : State) : { s with heap := s.heap } = s := by
  cases s; rfl

theorem isFlagToken_dashdash : isFlagToken [(45 : Byte), 45] = true := by decide

theorem argGroupOf_dashdash : argGroupOf [(45 : Byte), 45] = [[(45 : Byte)]] := by decide

/-- C18 (the token `--`).  For every registry in which `-` is not a registered
name and every token list in which `--` is reached after tokens parsed without
error (in particular as the first token): `Parse` treats `--` as the short
group of the single name `-` and fails with `UnrecognizedFlag "-"`; the state,
the positional list included, is the one reached before `--`, so `--` is not
appended to it and no later token is processed. -/
theorem C18_double_dash (s s1 : State) (prog : GoString) (pre post : List GoString)
    (hpre : Parse (prog :: pre) s = some (none, s1))
    (hz : mapLookup s.argMap [(45 : Byte)] = none) :
    isLongFlag [(45 : Byte), 45] = false
      ∧ argGroupOf [(45 : Byte), 45] = [[(45 : Byte)]]
      ∧ Parse (prog :: (pre ++ [(45 : Byte), 45] :: post)) s
        = some (some (ParseError.UnrecognizedFlag [(45 : Byte)]), s1) := by
  refine ⟨by decide, argGroupOf_dashdash, ?_⟩
  have hm : s1.argMap = s.argMap := by
    rw [Parse_eq] at hpre
    have := parseTokens_argMap pre false s
    rw [Option.some.inj hpre] at this
    exact this
  have hz1 : mapLookup s1.argMap [(45 : Byte)] = none := by rw [hm]; exact hz
  have hg : groupTokens s1.argMap (argGroupOf [(45 : Byte), 45]) false post.head? s1.heap
      = (some (ParseError.UnrecognizedFlag [(45 : Byte)]), false, s1.heap) := by
    rw [argGroupOf_dashdash, groupTokens_unknown s1.argMap [] false _ _ hz1]
  rw [Parse_append _ hpre, parseTokens_flag_error post s1 isFlagToken_dashdash hg,
    State.with_heap_self]

/-- Witness of C18: `--` before `file.txt` on the registry of
`examples/cat.go`. -/
theorem C18_double_dash_witness :
    Parse (str "cat" :: ([] ++ str "--" :: [str "file.txt"])) catState
      = some (some (ParseError.UnrecognizedFlag (str "-")), catState) :=
  (C18_double_dash catState catState (str "cat") [] [str "file.txt"] (by decide)
    (by decide)).2.2

/-- C19, as the code has it (what a conflict leaves behind).  For every
well-formed registry, every two one-byte names `p` and `q` that are registered
and value-requiring, `p` not being the dash (so that `-pq` is a short group and
not the long flag `--q`), and every token `t` that converts to the kind of `p`:
`Parse` on `-pq t` fails with `ConflictingValueFlags` in the state in which
only the cell of `p` has changed and holds the conversion of `t`; `q`, when it
is a name other than `p`, has its previous value, and the positional list is as
it was.  With no token after `-pq` the error is `MissingValue p` and nothing
has changed. -/
theorem C19_conflict_after_value (s : State) (hwf : s.WF) (prog : GoString) (p q : Byte)
    (t : GoString) (ap aq : ArgItem) (w : Val)
    (hshort : isLongFlag [(45 : Byte), p, q] = false)
    (hp : mapLookup s.argMap (byteToString p) = some ap) (hpv : ap.Typ ≠ "bool")
    (hq : mapLookup s.argMap (byteToString q) = some aq) (hqv : aq.Typ ≠ "bool")
    (hc : convert ap.Typ t = some w) :
    Parse [prog, [(45 : Byte), p, q], t] s
        = some (some ParseError.ConflictingValueFlags,
            { s with heap := s.heap.set ap.Value w })
      ∧ State.get { s with heap := s.heap.set ap.Value w } (byteToString p) = some w
      ∧ (byteToString q ≠ byteToString p →
          State.get { s with heap := s.heap.set ap.Value w } (byteToString q)
            = s.get (byteToString q))
      ∧ Parse [prog, [(45 : Byte), p, q]] s
        = some (some (ParseError.MissingValue (byteToString p)), s) := by
  obtain ⟨_, hn, hty⟩ := hwf
  have hta : typedItem s.heap ap = true := hty _ (mapLookup_mem hp)
  have hset : Value.Set s.heap ap.Value t = some (s.heap.set ap.Value w) := by
    rw [Set_eq_convert t hta, hc]; rfl
  have hflag : isFlagToken [(45 : Byte), p, q] = true := isFlagToken_dash [p, q] (by simp)
  have hgrp : argGroupOf [(45 : Byte), p, q] = [byteToString p, byteToString q] := by
    rw [argGroupOf_short _ hshort]; rfl
  refine ⟨?_, get_set_self w s.otherArg hp hta,
    fun hne => get_set_other w s.otherArg hn hp hne, ?_⟩
  · have hg : groupTokens s.argMap (argGroupOf [(45 : Byte), p, q]) false [t].head? s.heap
        = (some ParseError.ConflictingValueFlags, true, s.heap.set ap.Value w) := by
      rw [hgrp]
      simp only [List.head?_cons]
      rw [groupTokens_value s.argMap _ s.heap hp hpv hset,
        groupTokens_conflict s.argMap [] (some t) _ hq hqv]
    rw [Parse_eq, parseTokens_flag_error [t] s hflag hg]
  · have hg : groupTokens s.argMap (argGroupOf [(45 : Byte), p, q]) false
        ([] : List GoString).head? s.heap
        = (some (ParseError.MissingValue (byteToString p)), true, s.heap) := by
      rw [hgrp, List.head?_nil, groupTokens_missing s.argMap _ s.heap hp hpv]
    rw [Parse_eq, parseTokens_flag_error [] s hflag hg, State.with_heap_self]

/-- Witness of C19 as amended: `-pq 5` and `-pq` with `p` and `q` declared
Int. -/
theorem C19_conflict_after_value_witness :
    Parse [str "prog", str "-pq", str "5"] pqState
        = some (some ParseError.ConflictingValueFlags,
            { pqState with heap := [Val.intVal 5, Val.intVal 0] })
      ∧ State.get { pqState with heap := [Val.intVal 5, Val.intVal 0] } (str "p")
          = some (Val.intVal 5)
      ∧ State.get { pqState with heap := [Val.intVal 5, Val.intVal 0] } (str "q")
          = some (Val.intVal 0)
      ∧ Parse [str "prog", str "-pq"] pqState
        = some (some (ParseError.MissingValue (str "p")), pqState) :=
  have h := C19_conflict_after_value pqState (by decide) (str "prog") 112 113 (str "5")
    ⟨"int", 0, str "u1"⟩ ⟨"int", 1, str "u1"⟩ (Val.intVal 5) (by decide) (by decide)
    (by decide) (by decide) (by decide) (by decide)
  ⟨h.1, h.2.1, (h.2.2.1 (by decide)).trans (by decide), h.2.2.2⟩

/-- C19 as stated fails.  With `-` and `q` declared Int, the token made of a
dash, `-` and `q` is `--q`, a long flag: `Parse` on `--q 5` succeeds and sets
`q` to 5, with no `ConflictingValueFlags`.  And with the same name twice, `p`
declared Int, `-pp 5` fails with `ConflictingValueFlags` while the second name
of the group does not have its previous value 0 but 5. -/
theorem C19_counterexample :
    dashState.WF
      ∧ isValueFlag dashState.argMap (str "-") = true
      ∧ isValueFlag dashState.argMap (str "q") = true
      ∧ convertsFor dashState.argMap (str "-") (str "5") = some (Val.intVal 5)
      ∧ ([(45 : Byte)] ++ str "-" ++ str "q" = str "--q")
      ∧ Parse [str "prog", str "--q", str "5"] dashState
          = some (none, { dashState with heap := [Val.intVal 5, Val.intVal 0] })
      ∧ (¬ ∃ s', Parse [str "prog", str "--q", str "5"] dashState
          = some (some ParseError.ConflictingValueFlags, s'))
      ∧ pqState.get (str "p") = some (Val.intVal 0)
      ∧ Parse [str "prog", str "-pp", str "5"] pqState
          = some (some ParseError.ConflictingValueFlags,
              { pqState with heap := [Val.intVal 5, Val.intVal 0] })
      ∧ State.get { pqState with heap := [Val.intVal 5, Val.intVal 0] } (str "p")
          = some (Val.intVal 5) := by
  refine ⟨by decide, by decide, by decide, by decide, by decide, by decide, ?_, by decide,
    by decide, by decide⟩
  rintro ⟨s', hs⟩
  have h : Parse [str "prog", str "--q", str "5"] dashState
      = some (none, { dashState with heap := [Val.intVal 5, Val.intVal 0] }) := by decide
  rw [h] at hs
  cases hs

/-! ## Composition over concatenation -/

theorem heap_ext {h1 h2 : List Val} (h : ∀ q : Nat, h1[q]? = h2[q]?) : h1 = h2 :=
  List.ext_getElem? h

/-- A list of boolean-only flag tokens given twice has the effect of the list
given once. -/
theorem parseTokens_bools_twice (a : List GoString) (s : State)
    (hty : ∀ e ∈ s.argMap, typedItem s.heap e.2 = true)
    (hflag : ∀ v ∈ a, isFlagToken v = true)
    (hbool : ∀ v ∈ a, ∀ x ∈ argGroupOf v, isBoolFlag s.argMap x = true) :
    parseTokens (a ++ a) false s = parseTokens a false s := by
  obtain ⟨h1, he1, hq1⟩ := parseTokens_bools a s hty hflag hbool
  obtain ⟨h2, he2, hq2⟩ := parseTokens_bools (a ++ a) s hty
    (fun v hv => hflag v (by simpa using hv)) (fun v hv => hbool v (by simpa using hv))
  rw [he1, he2]
  have : h2 = h1 := by
    apply heap_ext
    intro q
    rw [hq1 q, hq2 q]
    simp only [List.flatMap_append, cellsOf_append, List.mem_append, or_self]
  rw [this]

/-- C20 (parsing composes over concatenation).  For every state and all token
lists `a` and `b`: if `Parse` on `a` succeeds and reaches `s'`, then `Parse` on
`a ++ b` returns the error and the final state that `Parse` on `b` returns
from `s'` (so the effects of the tokens before a failing token are kept).
Consequently, in a well-formed registry, a value-requiring flag given twice
holds the later value, and a list of boolean-only flag tokens given twice has
the effect of the list given once. -/
theorem C20_parse_composes :
    (∀ (prog : GoString) (s s' : State) (a b : List GoString),
        Parse (prog :: a) s = some (none, s') →
        Parse (prog :: (a ++ b)) s = Parse (prog :: b) s')
      ∧ (∀ (prog : GoString) (s : State), s.WF →
          ∀ (c : Byte) (v w : GoString) (ai : ArgItem) (x : Val),
            mapLookup s.argMap (byteToString c) = some ai → ai.Typ ≠ "bool" →
            (convert ai.Typ v).isSome = true → convert ai.Typ w = some x →
            ∃ s', Parse [prog, [(45 : Byte), c], v, [(45 : Byte), c], w] s = some (none, s')
              ∧ s'.get (byteToString c) = some x)
      ∧ (∀ (prog : GoString) (s : State), s.WF →
          ∀ a : List GoString, (∀ v ∈ a, isFlagToken v = true) →
            (∀ v ∈ a, ∀ x ∈ argGroupOf v, isBoolFlag s.argMap x = true) →
            Parse (prog :: (a ++ a)) s = Parse (prog :: a) s) := by
  refine ⟨?_, ?_, ?_⟩
  · intro prog s s' a b h
    rw [Parse_append b h, Parse_eq]
  · intro prog s hwf c v w ai x hl hv hcv hcw
    obtain ⟨_, hn, hty⟩ := hwf
    have hvf : isValueFlag s.argMap (byteToString c) = true :=
      isValueFlag_iff.mpr ⟨ai, hl, hv⟩
    have hcf : ∀ u, convertsFor s.argMap (byteToString c) u = convert ai.Typ u := by
      intro u; simp [convertsFor, hl]
    obtain ⟨h', he, hlast, _⟩ := parseTokens_pairs [(c, v), (c, w)] s hty hn (by
      intro e he
      simp only [List.mem_cons, List.mem_singleton, List.not_mem_nil, or_false] at he
      rcases he with rfl | rfl
      · exact ⟨hvf, by rw [hcf]; exact hcv⟩
      · exact ⟨hvf, by rw [hcf, hcw]; rfl⟩)
    refine ⟨{ s with heap := h' }, ?_, ?_⟩
    · rw [Parse_eq, ← he]; rfl
    · rw [hlast [(c, v)] c w [] rfl (by simp), hcf, hcw]
  · intro prog s hwf a hflag hbool
    rw [Parse_eq, Parse_eq, parseTokens_bools_twice a s hwf.2.2 hflag hbool]

/-- Witness of C20: on the registry of `examples/cat.go`, `-p 10` then `-n x`;
`-p 10 -p 20`; and `-n -f` given twice. -/
theorem C20_parse_composes_witness :
    Parse (str "cat" :: ([str "-p", str "10"] ++ [str "-n", str "x"])) catState
        = Parse (str "cat" :: [str "-n", str "x"])
            { catState with heap := catState.heap.set 3 (Val.intVal 10) }
      ∧ (∃ s', Parse [str "cat", str "-p", str "10", str "-p", str "20"] catState
            = some (none, s') ∧ s'.get (str "p") = some (Val.intVal 20))
      ∧ Parse (str "cat" :: ([str "-n", str "-f"] ++ [str "-n", str "-f"])) catState
        = Parse (str "cat" :: [str "-n", str "-f"]) catState :=
  ⟨C20_parse_composes.1 (str "cat") catState _ [str "-p", str "10"] [str "-n", str "x"]
      (by decide),
    C20_parse_composes.2.1 (str "cat") catState (by decide) 112 (str "10") (str "20")
      ⟨"int", 3, str "输出 n 行"⟩ (Val.intVal 20) (by decide) (by decide) (by decide)
      (by decide),
    C20_parse_composes.2.2 (str "cat") catState (by decide) [str "-n", str "-f"] (by decide)
      (by decide)⟩

end argparse
